import Mathlib

/-!
# gapic-generator-go: the generation engine of `gengapic/gengapic.go` and the
initialization tree of `cmd/gen-go-sample/inittree.go`

A shallow embedding of the Go generator.

* A Go `string` is a Lean `String`.  The descriptors handed over by protoc carry valid
  UTF-8 and every byte the code inspects (`;`, `/`, `v`, the digits, the braces) is ASCII, so
  a byte position found by `strings.IndexByte` is the position of the same character in the
  list of code points and slicing at it cuts at the same place.
* A Go `int` index that is `-1` for "not found" is an `Option Nat`.
* A Go map is an association list; a pointer that may be nil is an `Option`.
* A function that can panic, or whose loop could in principle not return, yields an
  `Option`: `none` means that it does not return normally.
* A method of `*generator` takes the generator and returns the new one.
* The nodes of the initialization tree live in a heap, a list of nodes; a `*initTree` is an
  index into it, `new(initTree)` appends a node, and a method of `*initTree` takes the heap and
  returns the new one.
-/

namespace Gengapic

/-! ## Strings -/

/-- Go `strings.IndexByte` on the characters of a string; `none` stands for `-1`. -/
def indexByte : List Char → Char → Option Nat
  | [], _ => none
  | a :: as, c => if a = c then some 0 else (indexByte as c).map (· + 1)

/-- Go `strings.LastIndexByte` on the characters of a string; `none` stands for `-1`. -/
def lastIndexByte : List Char → Char → Option Nat
  | [], _ => none
  | a :: as, c =>
    match lastIndexByte as c with
    | some i => some (i + 1)
    | none => if a = c then some 0 else none

/-- Go `s[:p]`. -/
def sliceTo (s : String) (p : Nat) : String := ⟨s.data.take p⟩

/-- Go `s[p:]`. -/
def sliceFrom (s : String) (p : Nat) : String := ⟨s.data.drop p⟩

/-- Go `s[i]`, read only under a length guard. -/
def byteAt (s : String) (i : Nat) : Char := s.data.getD i default

/-! ## Errors -/

/-- A Go `error` built by `internal/errors`: the chain of messages, outermost first, each
kept as its format string and arguments. -/
structure error where
  frames : List (String × List String)
  deriving DecidableEq, Repr

/-- Go `errors.E(cause, format, args...)`: a new error that wraps `cause` (nil is `none`). -/
def errors.E (cause : Option error) (format : String) (args : List String) : error :=
  match cause with
  | none => ⟨[(format, args)]⟩
  | some c => ⟨(format, args) :: c.frames⟩

/-! ## Descriptors -/

/-- The `descriptor.FileOptions` fields read by the generator. -/
structure FileOptions where
  GoPackage : Option String := none
  deriving DecidableEq, Repr

/-- The `descriptor.FieldDescriptorProto` fields read by the generators; the field `Type` is
spelled `Type_`. -/
structure FieldDescriptorProto where
  Name : String
  TypeName : String := ""
  Type_ : Option Nat := none
  OneofIndex : Option Nat := none
  deriving DecidableEq, Repr

/-- The `descriptor.DescriptorProto` fields read by the generator. -/
structure DescriptorProto where
  Name : String
  Field : List FieldDescriptorProto := []
  OneofDecl : List String := []
  deriving DecidableEq, Repr

/-- The `descriptor.MethodDescriptorProto` fields read by the generator.  protoc always sets
the name, the input type and the output type of a method, which the code dereferences
without a check; the streaming flags are read through their nil-safe getters. -/
structure MethodDescriptorProto where
  Name : String
  InputType : String
  OutputType : String
  ClientStreaming : Bool := false
  ServerStreaming : Bool := false
  deriving DecidableEq, Repr

/-- The `descriptor.ServiceDescriptorProto` fields read by the generator. -/
structure ServiceDescriptorProto where
  Name : String
  Method : List MethodDescriptorProto := []
  deriving DecidableEq, Repr

/-- The `descriptor.SourceCodeInfo_Location` fields read by the generator: the path, a list
of `int32`, and the leading comment, a `*string` that is nil when the element has none. -/
structure Location where
  Path : List Int := []
  LeadingComments : Option String := none
  deriving DecidableEq, Repr

/-- The `descriptor.SourceCodeInfo` fields read by the generator. -/
structure SourceCodeInfo where
  Location : List Location := []
  deriving DecidableEq, Repr

/-- The `descriptor.FileDescriptorProto` fields read by the generator. -/
structure FileDescriptorProto where
  Name : Option String := none
  Package : Option String := none
  Options : Option FileOptions := none
  MessageType : List DescriptorProto := []
  Service : List ServiceDescriptorProto := []
  SourceCodeInfo : Option SourceCodeInfo := none
  deriving DecidableEq, Repr

/-- A non-nil `proto.Message` used as a map key: a message, a service or a method. -/
inductive ProtoMessage where
  | message (d : DescriptorProto)
  | service (s : ServiceDescriptorProto)
  | method (m : MethodDescriptorProto)
  deriving DecidableEq, Repr

/-- Nil-safe getter `(*FileDescriptorProto).GetName`. -/
def GetName (f : Option FileDescriptorProto) : String :=
  match f with
  | some fd => fd.Name.getD ""
  | none => ""

/-- Nil-safe getter `(*FileDescriptorProto).GetOptions`. -/
def GetOptions (f : Option FileDescriptorProto) : Option FileOptions :=
  match f with
  | some fd => fd.Options
  | none => none

/-- Nil-safe getter `(*FileDescriptorProto).GetPackage` on a file that is not nil. -/
def GetPackage (f : FileDescriptorProto) : String := f.Package.getD ""

/-- Nil-safe getters `f.GetSourceCodeInfo().GetLocation()` on a file that is not nil. -/
def GetLocation (f : FileDescriptorProto) : List Location :=
  match f.SourceCodeInfo with
  | some info => info.Location
  | none => []

/-- Nil-safe getter `(*FileOptions).GetGoPackage`. -/
def GetGoPackage (o : Option FileOptions) : String :=
  match o with
  | some op => op.GoPackage.getD ""
  | none => ""

/-! ## The generator -/

/-- The Go struct `importSpec`: a package path and its local alias. -/
structure importSpec where
  path : String := ""
  name : String := ""
  deriving DecidableEq, Repr

/-- One entry of `plugin.CodeGeneratorResponse.File`. -/
structure ResponseFile where
  Name : Option String := none
  Content : String := ""
  deriving DecidableEq, Repr

/-- The Go struct `generator`.  The field `in` is spelled `in_`; `imports` is the key set of
`map[importSpec]bool`. -/
structure generator where
  sb : String := ""
  in_ : Int := 0
  resp : List ResponseFile := []
  parentFile : List (ProtoMessage × FileDescriptorProto) := []
  types : List (String × DescriptorProto) := []
  comments : List (ProtoMessage × String) := []
  imports : List importSpec := []
  deriving DecidableEq, Repr

/-- The `for` loop of `generator.importSpec`, one unit of fuel per iteration. -/
def importSpecLoop : Nat → String → Option importSpec
  | 0, _ => none
  | fuel + 1, pkg =>
    match lastIndexByte pkg.data '/' with
    | none => some { path := pkg, name := pkg ++ "pb" }
    | some p =>
      let elem := sliceFrom pkg (p + 1)
      if elem.length ≥ 2 ∧ byteAt elem 0 = 'v' ∧ byteAt elem 1 ≥ '0' ∧ byteAt elem 1 ≤ '9' then
        -- It's a version number; skip so we get a more meaningful name
        importSpecLoop fuel (sliceTo pkg p)
      else
        some { path := pkg, name := elem ++ "pb" }

/-- Go `generator.importSpec`: the importSpec for the package containing protobuf element
`e` (`none` is a nil pointer, which owns no file).  The loop gets `len(pkg) + 1` units of
fuel. -/
def generator.importSpec (g : generator) (e : Option ProtoMessage) :
    Option (Except error importSpec) :=
  let fdesc := e.bind fun k => g.parentFile.lookup k
  let pkg := GetGoPackage (GetOptions fdesc)
  if pkg = "" then
    some (.error (errors.E none
      "can't determine import path, file %q missing `option go_package`" [GetName fdesc]))
  else
    match indexByte pkg.data ';' with
    | some p => some (.ok { path := sliceTo pkg p, name := sliceFrom pkg (p + 1) ++ "pb" })
    | none => (importSpecLoop (pkg.length + 1) pkg).map .ok

/-! ## Collaborators that are not part of `gengapic.go` -/

/-- The functions of the Go standard library whose tables the generator relies on:
`fmt.Sprintf` (every argument the generator formats is a string), `unicode.IsDigit`,
`unicode.IsUpper`, `unicode.ToLower`, `unicode.ToUpper` and `strings.EqualFold`. -/
structure GoLib where
  Sprintf : String → List String → String
  IsDigit : Char → Bool
  IsUpper : Char → Bool
  ToLower : Char → Char
  ToUpper : Char → Char
  EqualFold : String → String → Bool

/-- The Go struct `iterType` of the paging renderer: the name of the iterator type and the
type of its elements. -/
structure iterType where
  iterTypeName : String
  elemTypeName : String := ""
  deriving DecidableEq, Repr

/-- The functions of package `gengapic` that `gengapic.go` calls and that live in its other
files.  A renderer takes the generator and yields the new generator with the `error` it
returns (`none` is nil), or nothing when it does not return.  `pagingField` and `iterTypeOf`
only read the type registry, which is built once by `init` and not changed by `gen`, so they
are functions of the method and of the field. -/
structure Collab where
  MDPlain : String → String
  clientOptions : ServiceDescriptorProto → String → generator → Option (generator × Option error)
  clientInit : ServiceDescriptorProto → String → generator → Option (generator × Option error)
  pagingField : MethodDescriptorProto → Except error (Option FieldDescriptorProto)
  iterTypeOf : FieldDescriptorProto → Except error iterType
  lroCall : String → MethodDescriptorProto → generator → Option (generator × Option error)
  pagingCall : String → MethodDescriptorProto → FieldDescriptorProto → iterType → generator →
    Option (generator × Option error)
  bidiCall : String → ServiceDescriptorProto → MethodDescriptorProto → generator →
    Option (generator × Option error)
  lroType : String → MethodDescriptorProto → generator → Option generator
  pagingIter : iterType → generator → Option generator

/-! ## Text helpers -/

/-- protoc puts a dot in front of name, signaling that the name is fully qualified. -/
def emptyType : String := ".google.protobuf.Empty"

/-- The output type of a long-running method. -/
def lroType : String := ".google.longrunning.Operation"

/-- Go `tabsCache = strings.Repeat("\t", 20)`. -/
def tabsCache : String := ⟨List.replicate 20 '\t'⟩

/-- Go `unicode.IsSpace`: the code points with the White_Space property. -/
def IsSpace (c : Char) : Bool :=
  let n := c.toNat
  (0x09 ≤ n && n ≤ 0x0D) || n == 0x20 || n == 0x85 || n == 0xA0 || n == 0x1680 ||
  (0x2000 ≤ n && n ≤ 0x200A) || n == 0x2028 || n == 0x2029 || n == 0x202F || n == 0x205F ||
  n == 0x3000

/-- Go `strings.TrimSpace`. -/
def TrimSpace (s : String) : String := ⟨(s.data.dropWhile IsSpace).rdropWhile IsSpace⟩

/-- Go `strings.Split(s, sep)` for a separator of one character, on lists of characters. -/
def splitChars : List Char → Char → List (List Char)
  | [], _ => [[]]
  | a :: as, c =>
    if a = c then [] :: splitChars as c
    else
      match splitChars as c with
      | [] => [[a]]
      | x :: xs => (a :: x) :: xs

/-- Go `strings.Split(s, "\n")`. -/
def SplitLines (s : String) : List String := (splitChars s.data '\n').map String.mk

/-- Go `strings.TrimSuffix`. -/
def TrimSuffix (s suffix : String) : String :=
  if suffix.data.isSuffixOf s.data then ⟨s.data.take (s.data.length - suffix.data.length)⟩ else s

/-- Go `lowerFirst`. -/
def lowerFirst (L : GoLib) (s : String) : String :=
  match s.data with
  | [] => ""
  | r :: rest => ⟨L.ToLower r :: rest⟩

/-- Go `upperFirst`. -/
def upperFirst (L : GoLib) (s : String) : String :=
  match s.data with
  | [] => ""
  | r :: rest => ⟨L.ToUpper r :: rest⟩

/-- Go `reduceServName`: removes redundant components from the service name. -/
def reduceServName (L : GoLib) (svc pkg : String) : String :=
  -- remove trailing version
  let svc :=
    match lastIndexByte svc.data 'V' with
    | some p => if (sliceFrom svc (p + 1)).data.all L.IsDigit then sliceTo svc p else svc
    | none => svc
  let svc := TrimSuffix svc "Service"
  if L.EqualFold svc pkg then "" else svc

/-- Go `grpcClientField`: the field name to store the gRPC client. -/
def grpcClientField (L : GoLib) (reducedServName : String) : String :=
  lowerFirst L (reducedServName ++ "Client")

/-- Go `grpcClientCall`. -/
def grpcClientCall (L : GoLib) (reducedServName methName : String) : String :=
  L.Sprintf "c.%s.%s(ctx, req, settings.GRPC...)" [grpcClientField L reducedServName, methName]

/-! ## Printing -/

/-- The number of leading characters of `s` equal to `c`. -/
def countLeading (s : List Char) (c : Char) : Nat := (s.takeWhile (· == c)).length

/-- The number of trailing characters of `s` equal to `c`. -/
def countTrailing (s : List Char) (c : Char) : Nat := (s.reverse.takeWhile (· == c)).length

/-- The loop `for in > len(tabsCache)` of `printf`, one unit of fuel per iteration: the
buffer and what is left of `in`. -/
def tabsLoop : Nat → String → Int → String × Int
  | 0, sb, i => (sb, i)
  | fuel + 1, sb, i => if i > 20 then tabsLoop fuel (sb ++ tabsCache) (i - 20) else (sb, i)

/-- Go `generator.printf`: formatted-prints to sb, keeping track of indentation caused by
curly braces.  `tabsCache[:in]` panics when the indentation is negative. -/
def generator.printf (L : GoLib) (g : generator) (s : String) (a : List String) :
    Option generator :=
  let s := TrimSpace s
  if s = "" then
    some { g with sb := g.sb.push '\n' }
  else
    let in1 := g.in_ - (countLeading s.data '\x7d' : Nat)
    let (sb, i) := tabsLoop in1.toNat g.sb in1
    if i < 0 then none
    else
      let sb := sb ++ sliceTo tabsCache i.toNat
      let sb := (sb ++ L.Sprintf s a).push '\n'
      some { g with sb := sb, in_ := in1 + (countTrailing s.data '\x7b' : Nat) }

/-- Go `generator.comment`. -/
def generator.comment (L : GoLib) (C : Collab) (g : generator) (s : String) : Option generator :=
  let s := TrimSpace s
  if s = "" then some g
  else
    let s := C.MDPlain s
    (SplitLines s).foldlM (fun g l =>
      let l := TrimSpace l
      if l = "" then g.printf L "//" [] else g.printf L "// %s" [l]) g

/-- Go `generator.methodDoc`. -/
def generator.methodDoc (L : GoLib) (C : Collab) (g : generator) (m : MethodDescriptorProto) :
    Option generator :=
  let com := (g.comments.lookup (.method m)).getD ""
  let com := TrimSpace com
  -- If there's no comment, adding method name is just confusing.
  if com = "" then some g
  else g.comment L C (m.Name ++ " " ++ lowerFirst L com)

/-- Go `generator.insertMetadata`. -/
def generator.insertMetadata (L : GoLib) (g : generator) : Option generator :=
  g.printf L "ctx = insertMetadata(ctx, c.xGoogMetadata)" []

/-- Go `generator.appendCallOpts`. -/
def generator.appendCallOpts (L : GoLib) (g : generator) (m : MethodDescriptorProto) :
    Option generator :=
  g.printf L "opts = append(%[1]s[0:len(%[1]s):len(%[1]s)], opts...)" ["c.CallOptions." ++ m.Name]

/-- Go `g.imports[spec] = true`. -/
def addImport (imports : List importSpec) (spec : importSpec) : List importSpec :=
  if spec ∈ imports then imports else imports ++ [spec]

/-! ## Renderers of `gengapic.go` -/

/-- A run of consecutive calls `p(format, args...)` of `printf`, in order. -/
def generator.printLines (L : GoLib) (g : generator) (lines : List (String × List String)) :
    Option generator :=
  lines.foldlM (fun g l => g.printf L l.1 l.2) g

/-- Go `generator.unaryCall`.  `*inType.Name` and `*outType.Name` dereference the registry
entries, which panics on a type that is not registered. -/
def generator.unaryCall (L : GoLib) (g : generator) (servName : String)
    (m : MethodDescriptorProto) : Option (generator × Option error) :=
  let inType := g.types.lookup m.InputType
  let outType := g.types.lookup m.OutputType
  match g.importSpec (inType.map .message) with
  | none => none
  | some (.error err) => some (g, some err)
  | some (.ok inSpec) =>
  match g.importSpec (outType.map .message) with
  | none => none
  | some (.error err) => some (g, some err)
  | some (.ok outSpec) =>
  match inType, outType with
  | some inT, some outT =>
    let g1 := g.printf L
      "func (c *%sClient) %s(ctx context.Context, req *%s.%s, opts ...gax.CallOption) (*%s.%s, error) \x7b"
      [servName, m.Name, inSpec.name, inT.Name, outSpec.name, outT.Name]
    let g2 := g1.bind fun g => g.insertMetadata L
    let g3 := g2.bind fun g => g.appendCallOpts L m
    let g4 := g3.bind fun g => g.printLines L
      [("var resp *%s.%s", [outSpec.name, outT.Name]),
       ("err := gax.Invoke(ctx, func(ctx context.Context, settings gax.CallSettings) error \x7b",
        []),
       ("  var err error", []),
       ("  resp, err = %s", [grpcClientCall L servName m.Name]),
       ("  return err", []),
       ("\x7d, opts...)", []),
       ("if err != nil \x7b", []),
       ("  return nil, err", []),
       ("\x7d", []),
       ("return resp, nil", []),
       ("\x7d", []),
       ("", [])]
    g4.map fun g => ({ g with imports := addImport (addImport g.imports inSpec) outSpec }, none)
  | _, _ => none

/-- Go `generator.emptyUnaryCall`.  The input type's name is read through the nil-safe
getter `GetName`. -/
def generator.emptyUnaryCall (L : GoLib) (g : generator) (servName : String)
    (m : MethodDescriptorProto) : Option (generator × Option error) :=
  let inType := g.types.lookup m.InputType
  match g.importSpec (inType.map .message) with
  | none => none
  | some (.error err) => some (g, some err)
  | some (.ok inSpec) =>
    let g1 := g.printf L
      "func (c *%sClient) %s(ctx context.Context, req *%s.%s, opts ...gax.CallOption) error \x7b"
      [servName, m.Name, inSpec.name, (inType.map (·.Name)).getD ""]
    let g2 := g1.bind fun g => g.insertMetadata L
    let g3 := g2.bind fun g => g.appendCallOpts L m
    let g4 := g3.bind fun g => g.printLines L
      [("err := gax.Invoke(ctx, func(ctx context.Context, settings gax.CallSettings) error \x7b",
        []),
       ("  var err error", []),
       ("  _, err = %s", [grpcClientCall L servName m.Name]),
       ("  return err", []),
       ("\x7d, opts...)", []),
       ("return err", []),
       ("\x7d", []),
       ("", [])]
    g4.map fun g => ({ g with imports := addImport g.imports inSpec }, none)

/-! ## `generator.gen` -/

/-- Go `m[k] = v` on a map kept as an association list. -/
def mapSet {β : Type} (m : List (String × β)) (k : String) (v : β) : List (String × β) :=
  match m with
  | [] => [(k, v)]
  | (k1, v1) :: rest => if k1 = k then (k, v) :: rest else (k1, v1) :: mapSet rest k v

/-- Go `sort.Slice(l, less)`: `l` put in an order in which no element is `less` than one
before it.  Go leaves the order of elements that `less` does not tell apart open; the model
keeps them in their input order. -/
def sortSlice {α : Type} (less : α → α → Bool) (l : List α) : List α :=
  l.insertionSort (fun a b => less b a = false)

/-- The variables of `gen` that its loop over the methods updates: the generator, `err`,
`lroMethods` and `iterTypes`. -/
structure genVars where
  g : generator
  err : Option error := none
  lroMethods : List MethodDescriptorProto := []
  iterTypes : List (String × iterType) := []

/-- How one iteration of the loop of `gen` ends: it goes on to the next method, or `gen`
returns an error from inside the loop. -/
inductive genFlow where
  | next (v : genVars)
  | ret (g : generator) (err : error)

/-- The body of `for _, m := range serv.Method` in `gen`. -/
def genLoopBody (L : GoLib) (C : Collab) (servName : String) (serv : ServiceDescriptorProto)
    (m : MethodDescriptorProto) (v : genVars) : Option genFlow :=
  match v.err with
  | some err => some (.ret v.g err)
  | none =>
  match v.g.methodDoc L C m with
  | none => none
  | some g =>
  if m.OutputType = lroType then
    (C.lroCall servName m g).map fun r =>
      .next { v with g := r.1, err := r.2, lroMethods := v.lroMethods ++ [m] }
  else if m.OutputType = emptyType then
    (g.emptyUnaryCall L servName m).map fun r => .next { v with g := r.1, err := r.2 }
  else
    match C.pagingField m with
    | .error err => some (.ret g err)
    | .ok (some pf) =>
      match C.iterTypeOf pf with
      | .error err => some (.ret g err)
      | .ok iter =>
        -- `err = g.pagingCall(...)` assigns the `err` declared by `iter, err :=` in this
        -- block, not the `err` of `gen` that the loop tests
        (C.pagingCall servName m pf iter g).map fun r =>
          .next { v with g := r.1, iterTypes := mapSet v.iterTypes iter.iterTypeName iter }
    | .ok none =>
      if m.ClientStreaming && m.ServerStreaming then
        (C.bidiCall servName serv m g).map fun r => .next { v with g := r.1, err := r.2 }
      else
        (g.unaryCall L servName m).map fun r => .next { v with g := r.1, err := r.2 }

/-- The loop `for _, m := range serv.Method` of `gen`. -/
def genLoop (L : GoLib) (C : Collab) (servName : String) (serv : ServiceDescriptorProto) :
    List MethodDescriptorProto → genVars → Option genFlow
  | [], v => some (.next v)
  | m :: ms, v =>
    match genLoopBody L C servName serv m v with
    | none => none
    | some (.ret g err) => some (.ret g err)
    | some (.next v1) => genLoop L C servName serv ms v1

/-- The methods `gen` hands to `lroType`, in the order of the calls: `lroMethods` after
`sort.Slice` by method name. -/
def genLros (lroMethods : List MethodDescriptorProto) : List MethodDescriptorProto :=
  sortSlice (fun a b => decide (a.Name < b.Name)) lroMethods

/-- The iterator types `gen` hands to `pagingIter`, in the order of the calls: the values of
the map `iterTypes` after `sort.Slice` by `iterTypeName`. -/
def genIters (iterTypes : List (String × iterType)) : List iterType :=
  sortSlice (fun a b => decide (a.iterTypeName < b.iterTypeName)) (iterTypes.map Prod.snd)

/-- The end of `gen`, after the loop has left `err` nil: the LRO types, then the iterator
types. -/
def genAux (C : Collab) (servName : String) (v : genVars) : Option generator :=
  ((genLros v.lroMethods).foldlM (fun g m => C.lroType servName m g) v.g).bind fun g =>
    (genIters v.iterTypes).foldlM (fun g iter => C.pagingIter iter g) g

/-- Go `generator.gen`. -/
def generator.gen (L : GoLib) (C : Collab) (g : generator) (serv : ServiceDescriptorProto)
    (pkgName : String) : Option (generator × Option error) :=
  let servName := reduceServName L serv.Name pkgName
  match C.clientOptions serv servName g with
  | none => none
  | some (g, some err) => some (g, some err)
  | some (g, none) =>
  match C.clientInit serv servName g with
  | none => none
  | some (g, some err) => some (g, some err)
  | some (g, none) =>
  -- Methods to generate LRO and iterator types for. Populated as we go.
  match genLoop L C servName serv serv.Method { g := g } with
  | none => none
  | some (.ret g err) => some (g, some err)
  | some (.next v) =>
    match v.err with
    | some err => some (v.g, some err)
    | none => (genAux C servName v).map fun g => (g, none)

/-! ## Definitions that follow the specification -/

/-- A decimal digit `0` to `9`. -/
def isDecimalDigit (c : Char) : Bool := decide ('0' ≤ c) && decide (c ≤ '9')

/-- A version marker as the specification words it: the single letter `v` followed by
digits, and nothing else. -/
def isVersionMarker (seg : List Char) : Bool :=
  match seg with
  | c :: ds => c == 'v' && !ds.isEmpty && ds.all isDecimalDigit
  | [] => false

/-- A version marker in the wider sense: the letter `v` followed by a decimal digit, whatever
comes after that digit (`v1`, `v1beta1`, `v2alpha`). -/
def isVersionElem (seg : List Char) : Bool :=
  match seg with
  | c0 :: c1 :: _ => c0 == 'v' && isDecimalDigit c1
  | _ => false

/-- The segment of a `/`-separated path that names the package: the last segment that is not
a version marker, or the first segment when every later segment is a version marker. -/
def aliasSegment (isVer : List Char → Bool) (segs : List (List Char)) : List Char :=
  match segs with
  | [] => []
  | first :: later => ((later.rdropWhile isVer).getLast?).getD first

/-- The alias the specification gives to the package path `pkg`: its alias segment followed
by `pb`. -/
def aliasOf (isVer : List Char → Bool) (pkg : String) : String :=
  ⟨aliasSegment isVer (splitChars pkg.data '/')⟩ ++ "pb"

/-- The five renderers among which `gen` chooses for a method. -/
inductive Renderer where
  | lroCall
  | emptyUnaryCall
  | pagingCall
  | bidiCall
  | unaryCall
  deriving DecidableEq, Repr

/-- The renderer of a method as a function of its output type name, of the result of
`pagingField` and of its client-streaming and server-streaming flags. -/
def selectRenderer (outputType : String) (pf : Option FieldDescriptorProto)
    (clientStreaming serverStreaming : Bool) : Renderer :=
  if outputType = lroType then .lroCall
  else if outputType = emptyType then .emptyUnaryCall
  else if pf.isSome then .pagingCall
  else if clientStreaming && serverStreaming then .bidiCall
  else .unaryCall

/-- One call of the renderer `r` for the method `m` on the generator `g`, with what `gen`
records for it: the error of the call, the method when it is long-running, the iterator type
when it is paging.  `pf` and `iter` are the paging field and the iterator type handed to
`pagingCall`. -/
def runRenderer (L : GoLib) (C : Collab) (servName : String) (serv : ServiceDescriptorProto)
    (m : MethodDescriptorProto) (pf : Option FieldDescriptorProto) (iter : iterType)
    (v : genVars) (g : generator) : Renderer → Option genFlow
  | .lroCall =>
    (C.lroCall servName m g).map fun r =>
      .next { v with g := r.1, err := r.2, lroMethods := v.lroMethods ++ [m] }
  | .emptyUnaryCall =>
    (g.emptyUnaryCall L servName m).map fun r => .next { v with g := r.1, err := r.2 }
  | .pagingCall =>
    match pf with
    | some f =>
      (C.pagingCall servName m f iter g).map fun r =>
        .next { v with g := r.1, iterTypes := mapSet v.iterTypes iter.iterTypeName iter }
    | none => none
  | .bidiCall =>
    (C.bidiCall servName serv m g).map fun r => .next { v with g := r.1, err := r.2 }
  | .unaryCall =>
    (g.unaryCall L servName m).map fun r => .next { v with g := r.1, err := r.2 }

/-- The iterator type of a method that `gen` renders as a paging call: its output type is
neither sentinel, `pagingField` finds a field and `iterTypeOf` gives its iterator type. -/
def pagingIterOf (C : Collab) (m : MethodDescriptorProto) : Option iterType :=
  if m.OutputType = lroType ∨ m.OutputType = emptyType then none
  else
    match C.pagingField m with
    | .ok (some pf) =>
      match C.iterTypeOf pf with
      | .ok iter => some iter
      | .error _ => none
    | _ => none

/-! ## Sample inputs -/

/-- The message `Thing` as a map key. -/
def thing : Option ProtoMessage := some (.message { Name := "Thing" })

/-- A generator whose registry holds the one message `Thing`, declared in package `my.pkg`
by a file with the go_package option `pkg`. -/
def generatorFor (pkg : String) : generator :=
  { parentFile := [(.message { Name := "Thing" }, { Options := some { GoPackage := some pkg } })],
    types := [(".my.pkg.Thing", { Name := "Thing" })] }

/-- Go `fmt.Sprintf` on the characters of the format, for the verbs the generator uses
(`%s`, `%q`, `%d`, `%[n]s`, `%[n]q`, `%%`) and arguments that need no escaping; `i` is the index of the next
argument. -/
def sprintfChars : List Char → List String → Nat → List Char
  | [], _, _ => []
  | '%' :: 's' :: rest, a, i => (a.getD i "").data ++ sprintfChars rest a (i + 1)
  | '%' :: 'q' :: rest, a, i =>
    '\x22' :: (a.getD i "").data ++ '\x22' :: sprintfChars rest a (i + 1)
  | '%' :: '[' :: d :: ']' :: 's' :: rest, a, _ =>
    (a.getD (d.toNat - 49) "").data ++ sprintfChars rest a (d.toNat - 48)
  | '%' :: '[' :: d :: ']' :: 'q' :: rest, a, _ =>
    '\x22' :: (a.getD (d.toNat - 49) "").data ++ '\x22' :: sprintfChars rest a (d.toNat - 48)
  | '%' :: 'd' :: rest, a, i => (a.getD i "").data ++ sprintfChars rest a (i + 1)
  | '%' :: '%' :: rest, a, i => '%' :: sprintfChars rest a i
  | c :: rest, a, i => c :: sprintfChars rest a i

/-- The Go library on ASCII text. -/
def asciiLib : GoLib where
  Sprintf := fun format a => ⟨sprintfChars format.data a 0⟩
  IsDigit := Char.isDigit
  IsUpper := Char.isUpper
  ToLower := Char.toLower
  ToUpper := Char.toUpper
  EqualFold := fun s t => s.data.map Char.toLower = t.data.map Char.toLower

/-- Stand-ins for the functions of the other files: a method whose input type is
`.my.pkg.PageInputType` has the paging field `items` with the iterator type `StringIterator`,
and every renderer writes one line that names it and returns no error. -/
def stubCollab : Collab where
  MDPlain := id
  clientOptions := fun _ _ g => some (g, none)
  clientInit := fun _ _ g => some (g, none)
  pagingField := fun m =>
    if m.InputType = ".my.pkg.PageInputType" then .ok (some { Name := "items" }) else .ok none
  iterTypeOf := fun _ => .ok { iterTypeName := "StringIterator", elemTypeName := "string" }
  lroCall := fun _ m g => some ({ g with sb := g.sb ++ "lroCall " ++ m.Name ++ "\n" }, none)
  pagingCall := fun _ m _ _ g =>
    some ({ g with sb := g.sb ++ "pagingCall " ++ m.Name ++ "\n" }, none)
  bidiCall := fun _ _ m g => some ({ g with sb := g.sb ++ "bidiCall " ++ m.Name ++ "\n" }, none)
  lroType := fun _ m g => some { g with sb := g.sb ++ "lroType " ++ m.Name ++ "\n" }
  pagingIter := fun iter g =>
    some { g with sb := g.sb ++ "pagingIter " ++ iter.iterTypeName ++ "\n" }

/-- The stand-ins with a `pagingCall` that fails. -/
def failingPagingCollab : Collab :=
  { stubCollab with
    pagingCall := fun _ _ _ _ g => some (g, some (errors.E none "paging call failed" [])) }

/-- The generator of `TestGenMethod`: the messages `InputType`, `OutputType`,
`PageInputType` and `PageOutputType` of package `my.pkg`, declared by a file with the
go_package option `mypackage`. -/
def testGenerator : generator :=
  { parentFile :=
      [(.message { Name := "InputType" }, { Options := some { GoPackage := some "mypackage" } }),
       (.message { Name := "OutputType" }, { Options := some { GoPackage := some "mypackage" } }),
       (.message { Name := "PageInputType" },
          { Options := some { GoPackage := some "mypackage" } }),
       (.message { Name := "PageOutputType" },
          { Options := some { GoPackage := some "mypackage" } })],
    types :=
      [(".my.pkg.InputType", { Name := "InputType" }),
       (".my.pkg.OutputType", { Name := "OutputType" }),
       (".my.pkg.PageInputType", { Name := "PageInputType" }),
       (".my.pkg.PageOutputType", { Name := "PageOutputType" })] }

/-- The method `GetOneThing` of `TestGenMethod`. -/
def getOneThing : MethodDescriptorProto :=
  { Name := "GetOneThing", InputType := ".my.pkg.InputType", OutputType := ".my.pkg.OutputType" }

/-- The method `GetManyThings` of `TestGenMethod`. -/
def getManyThings : MethodDescriptorProto :=
  { Name := "GetManyThings", InputType := ".my.pkg.PageInputType",
    OutputType := ".my.pkg.PageOutputType" }

/-- The method `ServerThings` of `TestGenMethod`. -/
def serverThings : MethodDescriptorProto :=
  { Name := "ServerThings", InputType := ".my.pkg.InputType", OutputType := ".my.pkg.OutputType",
    ServerStreaming := true }

/-- The method `ClientThings` of `TestGenMethod`. -/
def clientThings : MethodDescriptorProto :=
  { Name := "ClientThings", InputType := ".my.pkg.InputType", OutputType := ".my.pkg.OutputType",
    ClientStreaming := true }

/-- A long-running method whose input has the paging shape and whose streaming flags are
both set. -/
def pagedStreamingLro : MethodDescriptorProto :=
  { Name := "GetBigThings", InputType := ".my.pkg.PageInputType", OutputType := lroType,
    ClientStreaming := true, ServerStreaming := true }

/-- An empty-returning method whose input has the paging shape and whose streaming flags are
both set. -/
def pagedStreamingEmpty : MethodDescriptorProto :=
  { Name := "DropThings", InputType := ".my.pkg.PageInputType", OutputType := emptyType,
    ClientStreaming := true, ServerStreaming := true }

/-- A second paging method, with the same iterator type as `GetManyThings`. -/
def listThings : MethodDescriptorProto :=
  { Name := "ListThings", InputType := ".my.pkg.PageInputType",
    OutputType := ".my.pkg.PageOutputType" }

/-- The long-running method `GetBigThing` of `TestGenMethod`. -/
def getBigThing : MethodDescriptorProto :=
  { Name := "GetBigThing", InputType := ".my.pkg.InputType", OutputType := lroType }

/-- The long-running method `Get`. -/
def getThing : MethodDescriptorProto :=
  { Name := "Get", InputType := ".my.pkg.InputType", OutputType := lroType }

/-- The long-running method `GetAll`. -/
def getAllThings : MethodDescriptorProto :=
  { Name := "GetAll", InputType := ".my.pkg.InputType", OutputType := lroType }

/-- A naming of the wrapper type of a long-running method, the one that `lroType`, whose code
is in another file of the package, is taken to use: the name of the method followed by
`Operation` (`GetBigThingOperation` for `GetBigThing`). -/
def operationName (m : MethodDescriptorProto) : String := m.Name ++ "Operation"

/-- The stand-ins with an `lroType` that writes the wrapper type under its name. -/
def operationCollab : Collab :=
  { stubCollab with
    lroType := fun _ m g => some { g with sb := g.sb ++ "type " ++ operationName m ++ "\n" } }

/-! ## `generator.commit` -/

/-- What `commit` takes from outside `gengapic.go`: the constant `apacheLicense` (a format
with one `%d`), the year `time.Now().Year()` written in decimal, and the function
`sortImports`, which sorts the import specs in place and returns the index that divides the
standard-library group from the rest. -/
structure CommitEnv where
  apacheLicense : String
  year : String
  sortImports : List importSpec → List importSpec × Nat

/-- The loop `for i := len(body) - 1; i >= 0; i--` of `commit`; the second argument is
`i + 1`. -/
def trimLoop (body : List Char) : Nat → List Char
  | 0 => body
  | i + 1 => if body.getD i '\n' ≠ '\n' then body.take (i + 2) else trimLoop body i

/-- The body segment that `commit` appends: the buffer, with a newline added when it does not
end in one, cut behind the newline that follows its last character other than a newline. -/
def commitBody (sb : String) : String :=
  let body := if "\n".data.isSuffixOf sb.data then sb else sb ++ "\n"
  ⟨trimLoop body.data body.data.length⟩

/-- The closure `writeImp` of `commit`: one line of the import block. -/
def writeImp (L : GoLib) (is : importSpec) : String :=
  L.Sprintf (if is.name ≠ "" then "\t%s %q\n" else "\t%[2]q\n") [is.name, is.path]

/-- Go `generator.commit`.  `imps[:impDiv]` panics when `sortImports` returns an index
beyond the slice. -/
def generator.commit (L : GoLib) (E : CommitEnv) (g : generator) (fileName pkgName : String) :
    Option generator :=
  let header := L.Sprintf E.apacheLicense [E.year]
  let header := header ++ L.Sprintf "package %s\n\n" [pkgName]
  let imps := (E.sortImports g.imports).1
  let impDiv := (E.sortImports g.imports).2
  if impDiv > imps.length then none
  else
    let header := header ++ "import (\n"
    let header := (imps.take impDiv).foldl (fun h imp => h ++ writeImp L imp) header
    let header := if impDiv ≠ 0 ∧ impDiv ≠ imps.length then header.push '\n' else header
    let header := (imps.drop impDiv).foldl (fun h imp => h ++ writeImp L imp) header
    let header := header ++ ")\n\n"
    let resp := g.resp ++ [{ Name := some fileName, Content := header }]
    -- Trim trailing newlines so we have only one.
    some { g with resp := resp ++ [{ Content := commitBody g.sb }] }

/-- Stand-ins for what `commit` takes from outside: a one-line licence, the year 2018 and a
`sortImports` that leaves the specs in place and puts them all in the second group. -/
def stubCommitEnv : CommitEnv where
  apacheLicense := "// Copyright %d Google LLC\n\n"
  year := "2018"
  sortImports := fun imps => (imps, 0)

/-! ## The initialization tree of `cmd/gen-go-sample/inittree.go` -/

namespace GenGoSample

/-- The `descriptor.EnumDescriptorProto` fields read by the sample generator. -/
structure EnumDescriptorProto where
  Name : String
  Value : List String := []
  deriving DecidableEq, Repr

/-- Go `pbinfo.ProtoType`: a message descriptor or an enum descriptor. -/
inductive ProtoType where
  | message (d : DescriptorProto)
  | enum (e : EnumDescriptorProto)
  deriving DecidableEq, Repr

/-- Go `desc.GetName()` on a descriptor that is not nil. -/
def ProtoType.GetName : ProtoType → String
  | .message d => d.Name
  | .enum e => e.Name

/-- Nil-safe getter `(*FieldDescriptorProto).GetType`: an unset type reads as
`TYPE_DOUBLE`, which is 1. -/
def GetType (f : FieldDescriptorProto) : Nat := f.Type_.getD 1

/-- Go `pbinfo.Info` as far as the initialization tree uses it: the registry `Type` (here
`Type_`) of the
descriptors by fully-qualified name, and the method `ImportSpec`, whose code is in
`internal/pbinfo`. -/
structure Info where
  Type_ : List (String × ProtoType) := []
  ImportSpec : Option ProtoType → Except error importSpec

/-- The Go struct `generator` of package `main` of `gen-go-sample`, as far as the
initialization tree uses it. -/
structure generator where
  descInfo : Info
  imports : List importSpec := []

/-- The type of `initType.valFmt`: it post-processes a value, may change the generator and
may fail. -/
abbrev valFmtFunc := generator → String → generator × Except error String

/-- The Go struct `initType`: the type of a value in the initialization tree.  `desc` is nil
(`none`) and `prim` is set for a primitive; `prim` 0 is unset. -/
structure initType where
  desc : Option ProtoType := none
  prim : Nat := 0
  valFmt : Option valFmtFunc := none

/-- The Go struct `initTree`: a node of the initialization tree.  The nodes live in a heap
and `vals` holds the addresses of the children. -/
structure initTree where
  typ : initType := {}
  keys : List String := []
  vals : List Nat := []
  leafVal : String := ""

/-- The heap of the nodes: `*initTree` is an index into it. -/
abbrev Heap := List initTree

/-- The rune that `scanner.Scan` returns under the mode of `initScanner`: the end of the
text, one of the token classes, or the character itself. -/
inductive Token where
  | EOF
  | Ident
  | Int
  | Float
  | String
  | Char (c : Char)
  deriving DecidableEq, Repr

/-- What one call of `scanner.Scan` yields: the rune, the token text, and the messages it
hands to `sc.Error` on the way. -/
structure ScannedToken where
  tok : Token
  text : String
  errs : List String := []
  deriving DecidableEq, Repr

/-- What the initialization tree takes from outside `inittree.go`: the tokens that a
`text/scanner.Scanner` in the mode of `initScanner` reads off a text, the table `validPrims`
of the validators by primitive type, and the function `describeEnum`. -/
structure Env where
  tokenize : String → List ScannedToken
  validPrims : Nat → Option (String → Bool)
  describeEnum : Info → EnumDescriptorProto → (String → Bool) × valFmtFunc

/-- The scanner of `initScanner` together with the variable `err` that its closures share:
the text, the tokens not yet scanned, the text of the last token and the first error
reported. -/
structure Scanner where
  src : String
  toks : List ScannedToken
  text : String := ""
  err : Option error := none

/-- The closure `report` of `initScanner`: it keeps the first error and returns it. -/
def Scanner.report (sc : Scanner) (e : Option error) : Scanner × Option error :=
  match sc.err with
  | none => ({ sc with err := e }, e)
  | some err => (sc, some err)

/-- The closure `sc.Error` of `initScanner`. -/
def Scanner.Error (sc : Scanner) (msg : String) : Scanner :=
  let e := errors.E none msg []
  let e := errors.E (some e) "while scaning: %q" [sc.src]
  (sc.report (some e)).1

/-- Go `sc.Scan()`: the next token; at the end of the text it is `EOF` for good. -/
def Scanner.Scan (sc : Scanner) : Token × Scanner :=
  match sc.toks with
  | [] => (.EOF, { sc with text := "" })
  | t :: rest => (t.tok, t.errs.foldl Scanner.Error { sc with toks := rest, text := t.text })

/-- Go `initScanner`. -/
def initScanner (E : Env) (s : String) : Scanner :=
  { src := s, toks := E.tokenize s }

/-- The `%T` of a `pbinfo.ProtoType`. -/
def typeString : Option ProtoType → String
  | none => "<nil>"
  | some (.message _) => "*descriptor.DescriptorProto"
  | some (.enum _) => "*descriptor.EnumDescriptorProto"

/-- Go `initTree.get`: the child of the node at `t` under the key `k`, made on first use.
`h[t]` is the node that `t` points to; a nil or dangling `t` and `t.vals[i]` out of range
do not return. -/
def initTree.get (h : Heap) (t : Nat) (k : String) (info : Info) :
    Option (Heap × Except error Nat) :=
  match h[t]? with
  | none => none
  | some node =>
    match node.keys.indexOf? k with
    | some i => (node.vals[i]?).map fun v => (h, .ok v)
    | none =>
      match node.typ.desc with
      | some (.message msg) =>
        match msg.Field.find? (fun f => f.Name == k) with
        | none =>
          some (h, .error (errors.E none "type %q does not have field %q" [msg.Name, k]))
        | some f =>
          if f.TypeName = "" then
            -- We're a primitive type.
            if GetType f = 0 then
              some (h, .error (errors.E none "type %q does not have field %q" [msg.Name, k]))
            else
              some ((h.set t { node with keys := node.keys ++ [k], vals := node.vals ++ [h.length] })
                ++ [{ typ := { prim := GetType f } }], .ok h.length)
          else
            match info.Type_.lookup f.TypeName with
            | none =>
              some (h, .error (errors.E none "cannot find descriptor of %q" [f.TypeName]))
            | some typ =>
              -- type is a message
              some ((h.set t { node with keys := node.keys ++ [k], vals := node.vals ++ [h.length] })
                ++ [{ typ := { desc := some typ } }], .ok h.length)
      | d => some (h, .error (errors.E none "type does not have fields: %T" [typeString d]))

/-- Go `initTree.parsePath`, one unit of fuel per iteration of its loop: the subtree
specified by the path and the last scanned token, or an error. -/
def parsePathLoop (info : Info) :
    Nat → Heap → Nat → Scanner → Option (Heap × Scanner × Except error (Nat × Token))
  | 0, _, _, _ => none
  | fuel + 1, h, t, sc =>
    let r := sc.Scan.1
    let sc := sc.Scan.2
    if r = .Char '.' then
      let r := sc.Scan.1
      let sc := sc.Scan.2
      if r ≠ .Ident then
        some (h, sc, .error (errors.E none "expected ident, found %q" [sc.text]))
      else
        match initTree.get h t sc.text info with
        | none => none
        | some (h, .error err) => some (h, sc, .error err)
        | some (h, .ok t2) => parsePathLoop info fuel h t2 sc
    else
      some (h, sc, .ok (t, r))

/-- Go `initTree.parsePath`; every iteration scans a token, so one unit of fuel per token
and one more are enough. -/
def initTree.parsePath (h : Heap) (t : Nat) (sc : Scanner) (info : Info) :
    Option (Heap × Scanner × Except error (Nat × Token)) :=
  parsePathLoop info (sc.toks.length + 1) h t sc

/-- The part of `parseInit` behind the `=`: it scans the value, checks it against the type of
the node at `t`, stores it, and expects the end of the text.  What it returns went through
`report`. -/
def parseValue (E : Env) (h : Heap) (t : Nat) (sc : Scanner) (info : Info) :
    Option (Heap × Option error) :=
  let r := sc.Scan.1
  let sc := sc.Scan.2
  match h[t]? with
  | none => none
  | some node =>
    if r = .Int ∨ r = .Float ∨ r = .String ∨ r = .Ident then
      if node.leafVal ≠ "" then
        some (h, (sc.report (some (errors.E none "value already set to %q" [node.leafVal]))).2)
      else
        let tok := sc.text
        let checked : Except error initType :=
          match node.typ.desc with
          | some (.enum enum) =>
            if (E.describeEnum info enum).1 tok then
              .ok { node.typ with valFmt := some (E.describeEnum info enum).2 }
            else
              .error (errors.E none "invalid value for type %q: %q" [enum.Name, tok])
          | _ =>
            match E.validPrims node.typ.prim with
            | none => .error (errors.E none "not a primitive type? %q" [toString node.typ.prim])
            | some validPrim =>
              if validPrim tok then .ok node.typ
              else
                .error (errors.E none "invalid value for type %q: %q"
                  [toString node.typ.prim, tok])
        match checked with
        | .error err => some (h, (sc.report (some err)).2)
        | .ok typ =>
          let h := h.set t { node with typ := typ, leafVal := tok }
          let r := sc.Scan.1
          let sc := sc.Scan.2
          if r ≠ .EOF then
            some (h, (sc.report (some (errors.E none "expected EOF, found %q" [sc.text]))).2)
          else
            some (h, (sc.report none).2)
    else
      some (h, (sc.report (some (errors.E none "expected value, found %q" [sc.text]))).2)

/-- Go `initTree.parseInit` on the tree rooted at `t`: the new heap and the error returned
(`none` is nil).  `spec = path [ '=' value ]`. -/
def initTree.parseInit (E : Env) (h : Heap) (t : Nat) (txt : String) (info : Info) :
    Option (Heap × Option error) :=
  -- The first ident is treated specially to be a member of the root: insert a dot.
  let sc := initScanner E ("." ++ txt)
  match initTree.parsePath h t sc info with
  | none => none
  | some (h, sc, .error err) => some (h, (sc.report (some err)).2)
  | some (h, sc, .ok (t, r)) =>
    if r ≠ .Char '=' then
      some (h, (sc.report (some (errors.E none "expected '='" []))).2)
    else
      parseValue E h t sc info

/-- Go `snakeToCapCamel`, the loop over the runes with its flag `cap`. -/
def snakeToCapCamelLoop (L : GoLib) : List Char → Bool → List Char
  | [], _ => []
  | r :: rs, cap =>
    if r = '_' then snakeToCapCamelLoop L rs true
    else if cap then L.ToUpper r :: snakeToCapCamelLoop L rs false
    else r :: snakeToCapCamelLoop L rs false

/-- Go `snakeToCapCamel`. -/
def snakeToCapCamel (L : GoLib) (s : String) : String := ⟨snakeToCapCamelLoop L s.data true⟩

/-- The closure `indent` of `print`: `j` tabs. -/
def indent (w : String) (j : Nat) : String := ⟨w.data ++ List.replicate j '\t'⟩

/-- The map `oneofs` of `print`, from field name to oneof name, filled field by field.
`msg.OneofDecl[*f.OneofIndex]` does not return when the index is out of range. -/
def oneofsOf (msg : DescriptorProto) : Option (List (String × String)) :=
  msg.Field.foldlM (fun oneofs f =>
    match f.OneofIndex with
    | none => some oneofs
    | some i => (msg.OneofDecl[i]?).map fun name => mapSet oneofs f.Name name) []

/-- The loop `for i, k := range t.keys` of `print` from the entry `i` on; `printChild` prints
the child at an address, `vals` are the children of the node and `name` is
`desc.GetName()`. -/
def printFields (L : GoLib)
    (printChild : Nat → String → generator → Nat → Option (String × generator × Option error))
    (vals : List Nat) (impSpec : importSpec) (name : String) (oneofs : List (String × String))
    (ind : Nat) : List String → Nat → String → generator →
    Option (String × generator × Option error)
  | [], _, w, g => some (w, g, none)
  | k :: ks, i, w, g =>
    let w := indent w (ind + 1)
    let closeBrace := (oneofs.lookup k).isSome
    let w :=
      match oneofs.lookup k with
      | some oneof =>
        indent (w ++ L.Sprintf "%s: &%s.%s_%s\x7b\n"
          [snakeToCapCamel L oneof, impSpec.name, name, snakeToCapCamel L k]) (ind + 2)
      | none => w
    let w := w ++ snakeToCapCamel L k
    let w := w ++ ": "
    match vals[i]? with
    | none => none
    | some child =>
      match printChild child w g (ind + 1) with
      | none => none
      | some (w, g, some err) => some (w, g, some err)
      | some (w, g, none) =>
        let w := if closeBrace then (indent (w ++ ",\n") (ind + 1)).push '\x7d' else w
        let w := w ++ ",\n"
        printFields L printChild vals impSpec name oneofs ind ks (i + 1) w g

/-- Go `initTree.print` for the node at `t`, with one unit of fuel per level of the tree: the
text written to `w`, the generator and the error returned. -/
def initTree.print (L : GoLib) (h : Heap) :
    Nat → Nat → String → generator → Nat → Option (String × generator × Option error)
  | 0, _, _, _, _ => none
  | fuel + 1, t, w, g, ind =>
    match h[t]? with
    | none => none
    | some node =>
      if node.leafVal ≠ "" then
        match node.typ.valFmt with
        | some vf =>
          match (vf g node.leafVal).2 with
          | .error err => some (w, (vf g node.leafVal).1, some err)
          | .ok v2 => some (w ++ v2, (vf g node.leafVal).1, none)
        | none => some (w ++ node.leafVal, g, none)
      else
        match g.descInfo.ImportSpec node.typ.desc with
        | .error err => some (w, g, some err)
        | .ok impSpec =>
          let g := { g with imports := addImport g.imports impSpec }
          -- map field name to oneof name
          let oneofs : Option (List (String × String)) :=
            match node.typ.desc with
            | some (.message msg) => oneofsOf msg
            | _ => some []
          match oneofs, node.typ.desc with
          | some oneofs, some desc =>
            let w := w ++ L.Sprintf "&%s.%s\x7b\n" [impSpec.name, desc.GetName]
            match printFields L (initTree.print L h fuel) node.vals impSpec desc.GetName oneofs
                ind node.keys 0 w g with
            | none => none
            | some (w, g, some err) => some (w, g, some err)
            | some (w, g, none) => some ((indent w ind).push '\x7d', g, none)
          | _, _ => none

/-- Go `initTree.Print` into a writer that does not fail, here a string; the fuel covers a
tree as deep as the heap is large. -/
def initTree.Print (L : GoLib) (h : Heap) (t : Nat) (g : generator) :
    Option (String × generator × Option error) :=
  initTree.print L h (h.length + 1) t "" g 0

/-- The node that the path `names` leads to from the node at `t`, along the recorded keys. -/
def resolve (h : Heap) (t : Nat) : List String → Option Nat
  | [] => some t
  | k :: ks =>
    match h[t]? with
    | none => none
    | some node =>
      match node.keys.indexOf? k with
      | none => none
      | some i =>
        match node.vals[i]? with
        | none => none
        | some child => resolve h child ks

end GenGoSample

namespace GenGoSample

/-! ### Definitions that follow the specification -/

/-- The invariant of the nodes: the field names in `keys` are pairwise distinct, and `keys`
and `vals` have equal length. -/
def treeInvariant (h : Heap) : Prop :=
  ∀ (t : Nat) (node : initTree), h[t]? = some node →
    node.keys.Nodup ∧ node.keys.length = node.vals.length

/-- From the heap `h1` to the heap `h2` every node keeps its entries in their order: its
`keys` and `vals` at most grow at the end. -/
def grows (h1 h2 : Heap) : Prop :=
  ∀ (t : Nat) (node : initTree), h1[t]? = some node →
    ∃ node2 : initTree, h2[t]? = some node2 ∧ node.keys <+: node2.keys ∧ node.vals <+: node2.vals

/-- The token `.` without a scanner error. -/
def dotToken : ScannedToken := { tok := .Char '.', text := "." }

/-- The token `=` without a scanner error. -/
def eqToken : ScannedToken := { tok := .Char '=', text := "=" }

/-- The tokens of a path under the dot that `parseInit` puts in front: for every name a dot
and the identifier, without scanner errors. -/
def pathTokens (names : List String) : List ScannedToken :=
  names.flatMap fun name => [dotToken, { tok := .Ident, text := name }]

/-! ### Sample inputs -/

/-- A character of an identifier or a number. -/
def isWordChar (c : Char) : Bool := c.isAlphanum || c == '_'

/-- The text cut into runs of word characters and single other characters. -/
def groupRuns : List Char → List (List Char)
  | [] => []
  | c :: cs =>
    match groupRuns cs with
    | (d :: ds) :: rest =>
      if isWordChar c && isWordChar d then (c :: d :: ds) :: rest else [c] :: (d :: ds) :: rest
    | rest => [c] :: rest

/-- The token of a run: a number when it starts with a digit, an identifier when it starts
with another word character, nothing for a blank, the character itself otherwise. -/
def tokenOfRun (run : List Char) : Option ScannedToken :=
  match run with
  | [] => none
  | c :: _ =>
    if c.isDigit then some { tok := .Int, text := ⟨run⟩ }
    else if isWordChar c then some { tok := .Ident, text := ⟨run⟩ }
    else if c.isWhitespace then none
    else some { tok := .Char c, text := ⟨[c]⟩ }

/-- A stand-in for `text/scanner` on texts made of identifiers, decimal integers,
punctuation and blanks. -/
def plainTokenize (s : String) : List ScannedToken := (groupRuns s.data).filterMap tokenOfRun

/-- Stand-ins for what the tree takes from outside: the plain scanner, a validator for
`TYPE_INT32` (5) that accepts the decimal numbers and one for `TYPE_STRING` (9) that accepts
everything, and enums described by their value names. -/
def stubEnv : Env where
  tokenize := plainTokenize
  validPrims := fun p =>
    if p = 5 then some fun tok => tok.data.all Char.isDigit && !tok.data.isEmpty
    else if p = 9 then some fun _ => true
    else none
  describeEnum := fun _ enum => (fun tok => enum.Value.contains tok, fun g v => (g, .ok v))

/-- The message `A` with the int32 field `b`. -/
def msgA : DescriptorProto :=
  { Name := "A", Field := [{ Name := "b", Type_ := some 5 }] }

/-- The message `R` with the field `a` of type `A`. -/
def msgR : DescriptorProto :=
  { Name := "R", Field := [{ Name := "a", TypeName := ".my.pkg.A", Type_ := some 11 }] }

/-- The message `R` with the field `a` of type `A` in the one-of group `choice`. -/
def msgROneof : DescriptorProto :=
  { Name := "R",
    Field := [{ Name := "a", TypeName := ".my.pkg.A", Type_ := some 11, OneofIndex := some 0 }],
    OneofDecl := ["choice"] }

/-- The registry with the message `A`, and every descriptor imported under the alias
`pkg`. -/
def stubInfo : Info where
  Type_ := [(".my.pkg.A", .message msgA)]
  ImportSpec := fun _ => .ok { path := "example.com/pkg", name := "pkg" }

end GenGoSample

/-! ## `generator.init` and `generator.reset` -/

/-- Go `m[k] = v` on a map with keys of any comparable type, kept as an association list.
A key of type `proto.Message` is a pointer to a descriptor; the model compares the
descriptors themselves, which tells the keys apart as long as no two descriptors handed over
by protoc agree in every field. -/
def mapPut {α β : Type} [DecidableEq α] (m : List (α × β)) (k : α) (v : β) : List (α × β) :=
  match m with
  | [] => [(k, v)]
  | (k1, v1) :: rest => if k1 = k then (k, v) :: rest else (k1, v1) :: mapPut rest k v

/-- Go `l[x]` for an index `x` of type `int32`: it panics when the index is out of range. -/
def indexInt {α : Type} (l : List α) (x : Int) : Option α :=
  if x < 0 then none else l[x.toNat]?

/-- The body of the loop `for _, loc := range f.GetSourceCodeInfo().GetLocation()` of `init`.
`[6, x]` refers to the xth service defined in the file and `[6, x, 2, y]` to the yth method in
that service.  `f.Service[p[1]]` and `.Method[p[3]]` panic on an index out of range, and
`*loc.LeadingComments` panics on a nil pointer. -/
def initComment (f : FileDescriptorProto) (comments : List (ProtoMessage × String))
    (loc : Location) : Option (List (ProtoMessage × String)) :=
  match loc.Path with
  | [p0, p1] =>
    if p0 = 6 then
      match indexInt f.Service p1, loc.LeadingComments with
      | some s, some c => some (mapPut comments (.service s) c)
      | _, _ => none
    else some comments
  | [p0, p1, p2, p3] =>
    if p0 = 6 ∧ p2 = 2 then
      match (indexInt f.Service p1).bind (fun s => indexInt s.Method p3), loc.LeadingComments with
      | some m, some c => some (mapPut comments (.method m) c)
      | _, _ => none
    else some comments
  | _ => some comments

/-- The body of the loop `for _, f := range files` of `init`. -/
def initFile (L : GoLib) (g : generator) (f : FileDescriptorProto) : Option generator :=
  -- parentFile
  let parentFile := f.MessageType.foldl (fun pf m => mapPut pf (.message m) f) g.parentFile
  let parentFile := f.Service.foldl (fun pf s => mapPut pf (.service s) f) parentFile
  -- types
  let types := f.MessageType.foldl (fun ty m =>
    -- In descriptors, putting the dot in front means the name is fully-qualified.
    mapSet ty (L.Sprintf ".%s.%s" [GetPackage f, m.Name]) m) g.types
  -- comment
  ((GetLocation f).foldlM (initComment f) g.comments).map fun comments =>
    { g with parentFile := parentFile, types := types, comments := comments }

/-- Go `generator.init`. -/
def generator.init (L : GoLib) (g : generator) (files : List FileDescriptorProto) :
    Option generator :=
  files.foldlM (initFile L) { g with parentFile := [], types := [], comments := [], imports := [] }

/-- Go `delete(g.imports, k)`. -/
def deleteImport (imports : List importSpec) (k : importSpec) : List importSpec :=
  imports.filter (· ≠ k)

/-- Go `generator.reset`, with the loop `for k := range g.imports` visiting the keys in the
order `order`, which Go leaves open. -/
def generator.resetIn (g : generator) (order : List Gengapic.importSpec) : generator :=
  { g with sb := "", in_ := 0, imports := order.foldl deleteImport g.imports }

/-- Go `generator.reset`, the keys visited in the order in which the model keeps them. -/
def generator.reset (g : generator) : generator := g.resetIn g.imports

/-! ## `camelToSnake` and `snakeToCamel` -/

/-- The loop `for i, r := range s` of `camelToSnake`; `i` is the byte offset of `r`. -/
def camelToSnakeLoop (L : GoLib) : List Char → Nat → List Char
  | [], _ => []
  | r :: rs, i =>
    (if L.IsUpper r = true ∧ i ≠ 0 then ['_'] else []) ++
      L.ToLower r :: camelToSnakeLoop L rs (i + r.utf8Size)

/-- Go `camelToSnake`. -/
def camelToSnake (L : GoLib) (s : String) : String := ⟨camelToSnakeLoop L s.data 0⟩

/-- The loop `for _, r := range s` of `snakeToCamel` with its flag `up`. -/
def snakeToCamelLoop (L : GoLib) : List Char → Bool → List Char
  | [], _ => []
  | r :: rs, up =>
    if r = '_' then snakeToCamelLoop L rs true
    else if up then L.ToUpper r :: snakeToCamelLoop L rs false
    else r :: snakeToCamelLoop L rs false

/-- Go `snakeToCamel`. -/
def snakeToCamel (L : GoLib) (s : String) : String := ⟨snakeToCamelLoop L s.data true⟩

/-- The conversion as the specification words it, character by character with the character
before it (`none` at the start): an underscore is dropped, the first character and every
character that directly follows an underscore is upper-cased, every other character is
kept. -/
def capCamelSpec (L : GoLib) : Option Char → List Char → List Char
  | _, [] => []
  | prev, c :: cs =>
    (if c = '_' then [] else if prev = none ∨ prev = some '_' then [L.ToUpper c] else [c]) ++
      capCamelSpec L (some c) cs

/-! ## The lines of `unaryCall` and the inputs of `TestMethodDoc` -/

/-- The calls of `printf` that `unaryCall` makes, in order, for the import specs and the
descriptors of the input and output types. -/
def unaryCallLines (L : GoLib) (servName : String) (m : MethodDescriptorProto)
    (inSpec outSpec : importSpec) (inT outT : DescriptorProto) : List (String × List String) :=
  [("func (c *%sClient) %s(ctx context.Context, req *%s.%s, opts ...gax.CallOption) (*%s.%s, error) \x7b",
      [servName, m.Name, inSpec.name, inT.Name, outSpec.name, outT.Name]),
   ("ctx = insertMetadata(ctx, c.xGoogMetadata)", []),
   ("opts = append(%[1]s[0:len(%[1]s):len(%[1]s)], opts...)", ["c.CallOptions." ++ m.Name]),
   ("var resp *%s.%s", [outSpec.name, outT.Name]),
   ("err := gax.Invoke(ctx, func(ctx context.Context, settings gax.CallSettings) error \x7b",
    []),
   ("  var err error", []),
   ("  resp, err = %s", [grpcClientCall L servName m.Name]),
   ("  return err", []),
   ("\x7d, opts...)", []),
   ("if err != nil \x7b", []),
   ("  return nil, err", []),
   ("\x7d", []),
   ("return resp, nil", []),
   ("\x7d", []),
   ("", [])]

/-- The method `MyMethod` of `TestMethodDoc`. -/
def myMethod : MethodDescriptorProto := { Name := "MyMethod", InputType := "", OutputType := "" }

/-- The generator of `TestMethodDoc` with the second comment of its table. -/
def docGenerator : generator :=
  { comments := [(.method myMethod, "Does stuff.\n It also does other stuffs.")] }

/-! ## Indentation and comments as the specification words them -/

/-- What a call of `printf` with the format `s` adds to the indentation level: the trailing
opening braces of the trimmed format less its leading closing braces. -/
def fmtDelta (s : String) : Int :=
  (countTrailing (TrimSpace s).data '\x7b' : Int) - (countLeading (TrimSpace s).data '\x7d' : Int)

/-- Whether a run of calls of `printf` with the formats `lines`, started at the level `k`,
never meets more leading closing braces than the level it has reached. -/
def levelsOk : Int → List String → Bool
  | _, [] => true
  | k, s :: rest =>
    decide ((countLeading (TrimSpace s).data '\x7d' : Int) ≤ k) && levelsOk (k + fmtDelta s) rest

/-- The output line of `comment` for one line of the text at the indentation level `ind`: the
tabs, then `//` for a line that is empty once trimmed and `// ` with the trimmed line
otherwise. -/
def commentLine (ind : Nat) (l : String) : String :=
  ⟨List.replicate ind '\t'⟩ ++ (if TrimSpace l = "" then "//" else "// " ++ TrimSpace l) ++ "\n"

/-- The output of `comment` for a text: one output line per line of the text. -/
def commentText (ind : Nat) (s : String) : String :=
  ((SplitLines s).map (commentLine ind)).foldr (· ++ ·) ""


namespace GenGoSample

/-! ### `parseSampleArgPath` -/

/-- Go `initTree.parseSampleArgPath` on the tree rooted at `t`: the new heap, the node
returned (a copy of the node the path leads to; `none` is nil) and the error returned. -/
def initTree.parseSampleArgPath (E : Env) (h : Heap) (t : Nat) (txt : String) (info : Info)
    (varName : String) : Option (Heap × Option initTree × Option error) :=
  let sc := initScanner E ("." ++ txt)
  match initTree.parsePath h t sc info with
  | none => none
  | some (h, sc, .error err) => some (h, none, (sc.report (some err)).2)
  | some (h, sc, .ok (t, _)) =>
    match h[t]? with
    | none => none
    | some cp => some (h.set t { leafVal := varName }, some cp, (sc.report none).2)

/-- The type that the schema gives to the field `k` of a value of the type `desc`: the
primitive type of the field, or the descriptor registered under its type name. -/
def fieldType (info : Info) (desc : Option ProtoType) (k : String) : Option initType :=
  match desc with
  | some (.message msg) =>
    match msg.Field.find? (fun f => f.Name == k) with
    | none => none
    | some f =>
      if f.TypeName = "" then
        if GetType f = 0 then none else some { prim := GetType f }
      else (info.Type_.lookup f.TypeName).map fun typ => { desc := some typ }
  | _ => none

/-- The type that the schema gives to the path `names` from a value of the type `ty`; `none`
when the path does not resolve against the schema. -/
def schemaType (info : Info) : initType → List String → Option initType
  | ty, [] => some ty
  | ty, k :: ks => (fieldType info ty.desc k).bind fun ty2 => schemaType info ty2 ks

/-- The type of the node that the path `names` leads to from the node at `t`: along the
recorded children as long as there is one, then along the schema from the type of the last
node reached; `none` when the path does not resolve in the tree. -/
def pathType (info : Info) (h : Heap) (t : Nat) : List String → Option initType
  | [] => (h[t]?).map (·.typ)
  | k :: ks =>
    match h[t]? with
    | none => none
    | some node =>
      match node.keys.indexOf? k with
      | some i =>
        match node.vals[i]? with
        | none => none
        | some child => pathType info h child ks
      | none => (fieldType info node.typ.desc k).bind fun ty => schemaType info ty ks

/-! ### The text of a composite node as the specification words it -/

/-- The name of the one-of group that the field `k` of the message `msg` belongs to. -/
def groupOf (msg : DescriptorProto) (k : String) : Option String :=
  (msg.Field.find? (fun f => f.Name == k)).bind fun f =>
    f.OneofIndex.bind fun i => msg.OneofDecl[i]?

/-- The text of one recorded field `k` with the text `value` of its child, in a literal of
the message `msg` imported as `pkg` at the indentation `ind`: `F: value,` on a line of its
own, inside the constructor `G: &pkg.M_F` of its one-of group when it belongs to one. -/
def fieldText (L : GoLib) (pkg : String) (msg : DescriptorProto) (ind : Nat) (k value : String) :
    String :=
  match groupOf msg k with
  | none =>
    ⟨List.replicate (ind + 1) '\t'⟩ ++ snakeToCapCamel L k ++ ": " ++ value ++ ",\n"
  | some grp =>
    ⟨List.replicate (ind + 1) '\t'⟩ ++ snakeToCapCamel L grp ++ ": &" ++ pkg ++ "." ++ msg.Name ++
      "_" ++ snakeToCapCamel L k ++ "\x7b\n" ++
      ⟨List.replicate (ind + 2) '\t'⟩ ++ snakeToCapCamel L k ++ ": " ++ value ++ ",\n" ++
      ⟨List.replicate (ind + 1) '\t'⟩ ++ "\x7d,\n"

/-- The texts of the recorded fields `keys` with the texts `values` of their children, one
after the other. -/
def fieldsText (L : GoLib) (pkg : String) (msg : DescriptorProto) (ind : Nat) :
    List String → List String → String
  | k :: ks, v :: vs => fieldText L pkg msg ind k v ++ fieldsText L pkg msg ind ks vs
  | _, _ => ""

/-- The text of a composite node of the message type `msg` imported as `pkg`: `&pkg.M`, an
opening brace, the recorded fields in their order, and the closing brace. -/
def compositeText (L : GoLib) (pkg : String) (msg : DescriptorProto) (ind : Nat)
    (keys values : List String) : String :=
  "&" ++ pkg ++ "." ++ msg.Name ++ "\x7b\n" ++ fieldsText L pkg msg ind keys values ++
    ⟨List.replicate ind '\t'⟩ ++ "\x7d"

/-- The children at the addresses `cs` printed one after the other by `printChild`, each on
its own: their texts and the generator after the last one; `none` when one of them fails or
does not return. -/
def printChildren
    (printChild : Nat → String → generator → Nat → Option (String × generator × Option error))
    (ind : Nat) : List Nat → generator → Option (List String × generator)
  | [], g => some ([], g)
  | c :: cs, g =>
    match printChild c "" g ind with
    | some (v, g1, none) => (printChildren printChild ind cs g1).map fun r => (v :: r.1, r.2)
    | _ => none

end GenGoSample

namespace GenGoSample

/-- The tree after `a.b=5` on the empty tree rooted at the message `R` with the one-of
group. -/
def oneofTree : Heap :=
  [{ typ := { desc := some (.message msgROneof) }, keys := ["a"], vals := [1] },
   { typ := { desc := some (.message msgA) }, keys := ["b"], vals := [2] },
   { typ := { prim := 5 }, leafVal := "5" }]

end GenGoSample

namespace GenGoSample

/-- The tree rooted at `R` after its field `a` has been bound to the variable `x`. -/
def boundTree : Heap :=
  [{ typ := { desc := some (.message msgR) }, keys := ["a"], vals := [1] }, { leafVal := "x" }]

end GenGoSample

/-! ## Facts about the string helpers -/

theorem indexByte_eq_none {l : List Char} {c : Char} : indexByte l c = none ↔ c ∉ l := by
  induction l with
  | nil => simp [indexByte]
  | cons a as ih =>
    by_cases h : a = c
    · simp [indexByte, h]
    · simp [indexByte, h, ih, Ne.symm h]

theorem indexByte_append {a : List Char} {c : Char} (b : List Char) (h : c ∉ a) :
    indexByte (a ++ c :: b) c = some a.length := by
  induction a with
  | nil => simp [indexByte]
  | cons x xs ih =>
    have hx : x ≠ c := fun e => h (by simp [e])
    have hxs : c ∉ xs := fun e => h (by simp [e])
    simp [indexByte, hx, ih hxs]

theorem lastIndexByte_eq_none {l : List Char} {c : Char} : lastIndexByte l c = none ↔ c ∉ l := by
  induction l with
  | nil => simp [lastIndexByte]
  | cons a as ih =>
    by_cases hm : c ∈ as
    · have : lastIndexByte as c ≠ none := fun e => (ih.mp e) hm
      obtain ⟨i, hi⟩ := Option.ne_none_iff_exists'.mp this
      simp [lastIndexByte, hi, hm]
    · have hn := ih.mpr hm
      by_cases h : a = c
      · simp [lastIndexByte, hn, h]
      · simp [lastIndexByte, hn, h, hm, Ne.symm h]

theorem lastIndexByte_eq_some {l : List Char} {c : Char} {p : Nat} (h : lastIndexByte l c = some p) :
    l = l.take p ++ c :: l.drop (p + 1) ∧ c ∉ l.drop (p + 1) ∧ p < l.length := by
  induction l generalizing p with
  | nil => simp [lastIndexByte] at h
  | cons a as ih =>
    unfold lastIndexByte at h
    cases hr : lastIndexByte as c with
    | some i =>
      rw [hr] at h
      simp only [Option.some.injEq] at h
      subst h
      obtain ⟨h1, h2, h3⟩ := ih hr
      refine ⟨?_, ?_, ?_⟩
      · simp only [List.take_succ_cons, List.drop_succ_cons, List.cons_append]
        rw [← h1]
      · simpa using h2
      · simpa using h3
    | none =>
      rw [hr] at h
      by_cases hac : a = c
      · simp [hac] at h
        subst h
        subst hac
        simp [lastIndexByte_eq_none.mp hr]
      · simp [hac] at h

theorem splitChars_ne_nil (l : List Char) (c : Char) : splitChars l c ≠ [] := by
  cases l with
  | nil => simp [splitChars]
  | cons a as =>
    unfold splitChars
    split
    · simp
    · split <;> simp

theorem splitChars_of_not_mem {l : List Char} {c : Char} (h : c ∉ l) : splitChars l c = [l] := by
  induction l with
  | nil => simp [splitChars]
  | cons a as ih =>
    have ha : a ≠ c := fun e => h (by simp [e])
    have has : c ∉ as := fun e => h (by simp [e])
    simp [splitChars, ha, ih has]

theorem splitChars_append (a b : List Char) (c : Char) :
    splitChars (a ++ c :: b) c = splitChars a c ++ splitChars b c := by
  induction a with
  | nil => simp [splitChars]
  | cons x xs ih =>
    by_cases hx : x = c
    · simp [splitChars, hx, ih]
    · cases hs : splitChars xs c with
      | nil => exact absurd hs (splitChars_ne_nil _ _)
      | cons y ys =>
        rw [hs] at ih
        simp [splitChars, hx, ih, hs]

/-! ## `generator.importSpec` -/

theorem versionTest_iff (e : List Char) :
    ((String.mk e).length ≥ 2 ∧ byteAt ⟨e⟩ 0 = 'v' ∧ byteAt ⟨e⟩ 1 ≥ '0' ∧ byteAt ⟨e⟩ 1 ≤ '9') ↔
      isVersionElem e = true := by
  match e with
  | [] => simp [isVersionElem, String.length]
  | [a] => simp [isVersionElem, String.length]
  | a :: b :: rest =>
    simp [isVersionElem, String.length, byteAt, isDecimalDigit]

theorem aliasSegment_snoc_of_ver {isVer : List Char → Bool} {segs : List (List Char)}
    {seg : List Char} (hne : segs ≠ []) (h : isVer seg = true) :
    aliasSegment isVer (segs ++ [seg]) = aliasSegment isVer segs := by
  cases segs with
  | nil => exact absurd rfl hne
  | cons first later =>
    simp only [aliasSegment, List.cons_append]
    rw [List.rdropWhile_concat_pos _ _ _ h]

theorem aliasSegment_snoc_of_not_ver {isVer : List Char → Bool} {segs : List (List Char)}
    {seg : List Char} (hne : segs ≠ []) (h : ¬ isVer seg = true) :
    aliasSegment isVer (segs ++ [seg]) = seg := by
  cases segs with
  | nil => exact absurd rfl hne
  | cons first later =>
    simp only [aliasSegment, List.cons_append]
    rw [List.rdropWhile_concat_neg _ _ _ h]
    simp

/-- With more fuel than the path has characters the loop of `importSpec` returns, and the
alias it returns is the alias segment of the path followed by `pb`. -/
theorem importSpecLoop_alias (fuel : Nat) (l : List Char) (h : l.length < fuel) :
    ∃ path, importSpecLoop fuel ⟨l⟩ =
      some { path := path, name := ⟨aliasSegment isVersionElem (splitChars l '/')⟩ ++ "pb" } := by
  induction fuel generalizing l with
  | zero => omega
  | succ n ih =>
    unfold importSpecLoop
    cases hp : lastIndexByte l '/' with
    | none =>
      have hnm := lastIndexByte_eq_none.mp hp
      simp only [hp]
      exact ⟨⟨l⟩, by simp [splitChars_of_not_mem hnm, aliasSegment]⟩
    | some p =>
      obtain ⟨hdec, hnot, hlt⟩ := lastIndexByte_eq_some hp
      have hsplit : splitChars l '/' = splitChars (l.take p) '/' ++ [l.drop (p + 1)] := by
        conv_lhs => rw [hdec]
        rw [splitChars_append, splitChars_of_not_mem hnot]
      simp only [hp, sliceFrom, sliceTo]
      by_cases hv : isVersionElem (l.drop (p + 1)) = true
      · rw [if_pos ((versionTest_iff _).mpr hv)]
        have hlen : (l.take p).length < n := by
          rw [List.length_take]; omega
        obtain ⟨path, hpath⟩ := ih (l.take p) hlen
        refine ⟨path, ?_⟩
        rw [hpath, hsplit, aliasSegment_snoc_of_ver (splitChars_ne_nil _ _) hv]
      · rw [if_neg (fun hc => hv ((versionTest_iff _).mp hc))]
        refine ⟨⟨l⟩, ?_⟩
        rw [hsplit, aliasSegment_snoc_of_not_ver (splitChars_ne_nil _ _) hv]

/-- With more fuel than the path has characters the loop of `importSpec` returns. -/
theorem importSpecLoop_isSome (l : List Char) :
    ∃ spec, importSpecLoop (l.length + 1) ⟨l⟩ = some spec := by
  obtain ⟨path, h⟩ := importSpecLoop_alias (l.length + 1) l (Nat.lt_succ_self _)
  exact ⟨_, h⟩

theorem getGoPackage_eq_empty_iff (g : generator) (e : Option ProtoMessage) :
    GetGoPackage (GetOptions (e.bind fun k => g.parentFile.lookup k)) = "" ↔
      ∀ k f o p, e = some k → g.parentFile.lookup k = some f → f.Options = some o →
        o.GoPackage = some p → p = "" := by
  constructor
  · intro h k f o p hk hf ho hp
    subst hk
    simpa [GetGoPackage, GetOptions, hf, ho, hp] using h
  · intro h
    cases e with
    | none => rfl
    | some k =>
      cases hf : g.parentFile.lookup k with
      | none => simp [GetGoPackage, GetOptions, hf]
      | some f =>
        cases ho : f.Options with
        | none => simp [GetGoPackage, GetOptions, hf, ho]
        | some o =>
          cases hp : o.GoPackage with
          | none => simp [GetGoPackage, GetOptions, hf, ho, hp]
          | some p =>
            have := h k f o p rfl hf ho hp
            simp [GetGoPackage, GetOptions, hf, ho, hp, this]

/-- C7 (as amended): for a non-empty go_package option without `;`, `importSpec` returns, and
the alias is `e` followed by `pb`, where `e` is the last `/`-separated segment that is not a
version marker, or the first segment when every later segment is one; a version marker being
the letter `v` followed by a decimal digit, whatever comes after that digit. -/
theorem importSpec_alias (g : generator) (e : Option ProtoMessage) (pkg : String)
    (hpkg : GetGoPackage (GetOptions (e.bind fun k => g.parentFile.lookup k)) = pkg)
    (hne : pkg ≠ "") (hsemi : ';' ∉ pkg.data) :
    ∃ path, g.importSpec e = some (.ok { path := path, name := aliasOf isVersionElem pkg }) := by
  obtain ⟨path, h⟩ := importSpecLoop_alias (pkg.data.length + 1) pkg.data (Nat.lt_succ_self _)
  refine ⟨path, ?_⟩
  have h2 : importSpecLoop (pkg.length + 1) pkg =
      some { path := path, name := aliasOf isVersionElem pkg } := h
  simp only [generator.importSpec, hpkg, if_neg hne, indexByte_eq_none.mpr hsemi, h2,
    Option.map_some']

/-- C7, witness: `example.com/foo/v1` gets the alias `foopb`. -/
theorem importSpec_alias_witness :
    ∃ path, (generatorFor "example.com/foo/v1").importSpec thing =
      some (.ok { path := path, name := aliasOf isVersionElem "example.com/foo/v1" }) :=
  importSpec_alias (generatorFor "example.com/foo/v1") thing "example.com/foo/v1" rfl
    (by decide) (by decide)

/-- C7, counterexample: for the go_package option `a/v1beta1` the last segment is not the
letter `v` followed by digits, so the alias of the claim is `v1beta1pb`; `importSpec` skips
the segment and returns the alias `apb`. -/
theorem importSpec_alias_counterexample :
    ¬ ∃ path, (generatorFor "a/v1beta1").importSpec thing =
      some (.ok { path := path, name := aliasOf isVersionMarker "a/v1beta1" }) := by
  rintro ⟨path, h⟩
  have h2 : (generatorFor "a/v1beta1").importSpec thing =
      some (.ok { path := "a", name := "apb" }) := rfl
  rw [h2] at h
  have h3 : ("apb" : String) = aliasOf isVersionMarker "a/v1beta1" := by
    injection h with h
    injection h with h
    injection h
  revert h3
  decide

/-- C8: for the go_package option `example.com/foo/v1` the returned path is
`example.com/foo`, not the declared package path. -/
theorem importSpec_path_truncated :
    (generatorFor "example.com/foo/v1").importSpec thing =
      some (.ok { path := "example.com/foo", name := "foopb" }) := rfl

/-- C9: for a go_package option `P;A`, where `P` holds no `;`, `importSpec` returns the path
`P` and the alias `A` followed by `pb`, whatever the segments of `P` are. -/
theorem importSpec_explicit_alias (g : generator) (e : Option ProtoMessage) (P A : String)
    (hP : ';' ∉ P.data)
    (hpkg : GetGoPackage (GetOptions (e.bind fun k => g.parentFile.lookup k)) = P ++ ";" ++ A) :
    g.importSpec e = some (.ok { path := P, name := A ++ "pb" }) := by
  have hdata : (P ++ ";" ++ A).data = P.data ++ ';' :: A.data := by
    simp [String.data_append]
  have hne : P ++ ";" ++ A ≠ "" := by
    intro hc
    have := congrArg String.data hc
    rw [hdata] at this
    simp at this
  have hdrop : List.drop (P.data.length + 1) (P.data ++ ';' :: A.data) = A.data := by
    have hsplit : P.data ++ ';' :: A.data = (P.data ++ [';']) ++ A.data := by simp
    rw [hsplit]
    exact List.drop_left' (by simp)
  simp only [generator.importSpec, hpkg, if_neg hne, sliceTo, sliceFrom, hdata,
    indexByte_append _ hP, hdrop, List.take_left']

/-- C9, witness: `example.com/foo/v1;bar` gives the path `example.com/foo/v1` and the alias
`barpb`. -/
theorem importSpec_explicit_alias_witness :
    (generatorFor "example.com/foo/v1;bar").importSpec thing =
      some (.ok { path := "example.com/foo/v1", name := "bar" ++ "pb" }) :=
  importSpec_explicit_alias (generatorFor "example.com/foo/v1;bar") thing
    "example.com/foo/v1" "bar" (by decide) rfl

/-- C10: `importSpec` returns an error exactly when the file owning `e` declares no
go_package option (no owning file, no options, no go_package, or an empty one), and in
every other case it returns an importSpec. -/
theorem importSpec_error_iff (g : generator) (e : Option ProtoMessage) :
    ((∃ err, g.importSpec e = some (.error err)) ↔
      ∀ k f o p, e = some k → g.parentFile.lookup k = some f → f.Options = some o →
        o.GoPackage = some p → p = "") ∧
    ((¬ ∀ k f o p, e = some k → g.parentFile.lookup k = some f → f.Options = some o →
        o.GoPackage = some p → p = "") → ∃ spec, g.importSpec e = some (.ok spec)) := by
  rw [← getGoPackage_eq_empty_iff]
  have hok : GetGoPackage (GetOptions (e.bind fun k => g.parentFile.lookup k)) ≠ "" →
      ∃ spec, g.importSpec e = some (.ok spec) := by
    intro hne
    simp only [generator.importSpec, if_neg hne]
    cases hi : indexByte (GetGoPackage (GetOptions (e.bind fun k => g.parentFile.lookup k))).data
        ';' with
    | some p => exact ⟨_, rfl⟩
    | none =>
      obtain ⟨spec, hs⟩ := importSpecLoop_isSome
        (GetGoPackage (GetOptions (e.bind fun k => g.parentFile.lookup k))).data
      have hs2 : importSpecLoop
          ((GetGoPackage (GetOptions (e.bind fun k => g.parentFile.lookup k))).length + 1)
          (GetGoPackage (GetOptions (e.bind fun k => g.parentFile.lookup k))) = some spec := hs
      exact ⟨spec, by simp [hs2]⟩
  refine ⟨⟨?_, ?_⟩, hok⟩
  · rintro ⟨err, herr⟩
    by_contra hne
    obtain ⟨spec, hs⟩ := hok hne
    rw [hs] at herr
    cases herr
  · intro h
    refine ⟨errors.E none "can't determine import path, file %q missing `option go_package`"
      [GetName (e.bind fun k => g.parentFile.lookup k)], ?_⟩
    simp [generator.importSpec, h]

/-! ## `sort.Slice` -/

theorem sortSlice_perm {α : Type} (less : α → α → Bool) (l : List α) :
    (sortSlice less l).Perm l :=
  List.perm_insertionSort _ l

/-- Sorting by a string key with `<` as `less` puts the keys in ascending order. -/
theorem sortSlice_keys_sorted {α : Type} (f : α → String) (l : List α) :
    ((sortSlice (fun a b => decide (f a < f b)) l).map f).Sorted (· ≤ ·) := by
  have htotal : IsTotal α (fun a b => decide (f b < f a) = false) :=
    ⟨fun a b => by
      simp only [decide_eq_false_iff_not, not_lt]
      exact le_total (f a) (f b)⟩
  have htrans : IsTrans α (fun a b => decide (f b < f a) = false) :=
    ⟨fun a b c h1 h2 => by
      simp only [decide_eq_false_iff_not, not_lt] at h1 h2 ⊢
      exact le_trans h1 h2⟩
  have hs := List.sorted_insertionSort (fun a b => decide (f b < f a) = false) l
  unfold sortSlice
  rw [List.Sorted, List.pairwise_map]
  refine List.Pairwise.imp ?_ hs
  intro a b h
  simpa using h

/-- The keys of a sorted slice are strictly ascending when they are pairwise distinct. -/
theorem sortSlice_keys_strict {α : Type} (f : α → String) (l : List α)
    (hnd : (l.map f).Nodup) :
    ((sortSlice (fun a b => decide (f a < f b)) l).map f).Sorted (· < ·) := by
  refine (sortSlice_keys_sorted f l).lt_of_le ?_
  exact ((sortSlice_perm _ l).map f).nodup_iff.mpr hnd

/-! ## Maps as association lists -/

theorem mapSet_keys {β : Type} (t : List (String × β)) (k : String) (x : β) :
    (mapSet t k x).map Prod.fst =
      if k ∈ t.map Prod.fst then t.map Prod.fst else t.map Prod.fst ++ [k] := by
  induction t with
  | nil => simp [mapSet]
  | cons p rest ih =>
    obtain ⟨k1, v1⟩ := p
    by_cases h : k1 = k
    · simp [mapSet, h]
    · have h2 : ¬ k = k1 := fun e => h e.symm
      simp only [mapSet, if_neg h, List.map_cons, ih, List.mem_cons, h2, false_or]
      split <;> simp

theorem mapSet_keys_mem {β : Type} (t : List (String × β)) (k : String) (x : β) (a : String) :
    a ∈ (mapSet t k x).map Prod.fst ↔ a ∈ t.map Prod.fst ∨ a = k := by
  rw [mapSet_keys]
  split
  · constructor
    · intro h; exact Or.inl h
    · rintro (h | h)
      · exact h
      · subst h; assumption
  · simp

theorem mapSet_keys_nodup {β : Type} (t : List (String × β)) (k : String) (x : β)
    (h : (t.map Prod.fst).Nodup) : ((mapSet t k x).map Prod.fst).Nodup := by
  rw [mapSet_keys]
  split
  · exact h
  · rename_i hk
    exact List.Nodup.append h (List.nodup_singleton k) (by simpa using hk)

theorem mapSet_mem {β : Type} (t : List (String × β)) (k : String) (x : β) (p : String × β)
    (h : p ∈ mapSet t k x) : p ∈ t ∨ p = (k, x) := by
  induction t with
  | nil => simpa [mapSet] using h
  | cons q rest ih =>
    obtain ⟨k1, v1⟩ := q
    by_cases hk : k1 = k
    · simp only [mapSet, if_pos hk, List.mem_cons] at h
      rcases h with h | h
      · exact Or.inr h
      · exact Or.inl (List.mem_cons_of_mem _ h)
    · simp only [mapSet, if_neg hk, List.mem_cons] at h
      rcases h with h | h
      · exact Or.inl (by simp [h])
      · rcases ih h with h | h
        · exact Or.inl (List.mem_cons_of_mem _ h)
        · exact Or.inr h

/-- What the map `iterTypes` holds after the iterator types `its` have been stored one by
one under their names: pairwise distinct keys, every value under its own name, and as keys
the old keys and the names of `its`. -/
theorem iterTypes_fold (its : List iterType) (t : List (String × iterType))
    (hnd : (t.map Prod.fst).Nodup) (hname : ∀ p ∈ t, p.2.iterTypeName = p.1) :
    ((its.foldl (fun t it => mapSet t it.iterTypeName it) t).map Prod.fst).Nodup ∧
    (∀ p ∈ its.foldl (fun t it => mapSet t it.iterTypeName it) t, p.2.iterTypeName = p.1) ∧
    (∀ a, a ∈ (its.foldl (fun t it => mapSet t it.iterTypeName it) t).map Prod.fst ↔
      a ∈ t.map Prod.fst ∨ ∃ it ∈ its, it.iterTypeName = a) := by
  induction its generalizing t with
  | nil => exact ⟨hnd, hname, by simp⟩
  | cons it rest ih =>
    have hnd1 := mapSet_keys_nodup t it.iterTypeName it hnd
    have hname1 : ∀ p ∈ mapSet t it.iterTypeName it, p.2.iterTypeName = p.1 := by
      intro p hp
      rcases mapSet_mem t _ _ p hp with h | h
      · exact hname p h
      · rw [h]
    obtain ⟨h1, h2, h3⟩ := ih (mapSet t it.iterTypeName it) hnd1 hname1
    refine ⟨h1, h2, ?_⟩
    intro a
    simp only [List.foldl_cons]
    rw [h3 a, mapSet_keys_mem]
    constructor
    · rintro ((h | h) | ⟨it2, hit2, h⟩)
      · exact Or.inl h
      · exact Or.inr ⟨it, by simp, h.symm⟩
      · exact Or.inr ⟨it2, by simp [hit2], h⟩
    · rintro (h | ⟨it2, hit2, h⟩)
      · exact Or.inl (Or.inl h)
      · rcases List.mem_cons.mp hit2 with e | e
        · subst e; exact Or.inl (Or.inr h.symm)
        · exact Or.inr ⟨it2, e, h⟩

/-! ## `generator.gen`: the loop over the methods -/

/-- What one iteration of the loop of `gen` that goes on to the next method has recorded. -/
theorem genLoopBody_next (L : GoLib) (C : Collab) (servName : String)
    (serv : ServiceDescriptorProto) (m : MethodDescriptorProto) (v v1 : genVars)
    (h : genLoopBody L C servName serv m v = some (.next v1)) :
    v1.lroMethods = v.lroMethods ++ [m].filter (fun m => m.OutputType = lroType) ∧
    v1.iterTypes =
      ((pagingIterOf C m).toList).foldl (fun t it => mapSet t it.iterTypeName it) v.iterTypes := by
  unfold genLoopBody at h
  cases hv : v.err with
  | some err => rw [hv] at h; simp at h
  | none =>
    rw [hv] at h
    cases hd : v.g.methodDoc L C m with
    | none => rw [hd] at h; simp at h
    | some g =>
      rw [hd] at h
      simp only at h
      by_cases h1 : m.OutputType = lroType
      · rw [if_pos h1] at h
        obtain ⟨r, -, hr⟩ := Option.map_eq_some'.mp h
        cases hr
        simp [h1, pagingIterOf]
      · rw [if_neg h1] at h
        by_cases h2 : m.OutputType = emptyType
        · rw [if_pos h2] at h
          obtain ⟨r, -, hr⟩ := Option.map_eq_some'.mp h
          cases hr
          have hel : ¬ emptyType = lroType := by decide
          simp [h2, hel, pagingIterOf]
        · rw [if_neg h2] at h
          cases hpf : C.pagingField m with
          | error e => rw [hpf] at h; simp at h
          | ok pf =>
            rw [hpf] at h
            cases pf with
            | some f =>
              simp only at h
              cases hit : C.iterTypeOf f with
              | error e => rw [hit] at h; simp at h
              | ok iter =>
                rw [hit] at h
                obtain ⟨r, -, hr⟩ := Option.map_eq_some'.mp h
                cases hr
                simp [h1, h2, pagingIterOf, hpf, hit]
            | none =>
              simp only at h
              split at h
              · obtain ⟨r, -, hr⟩ := Option.map_eq_some'.mp h
                cases hr
                simp [h1, h2, pagingIterOf, hpf]
              · obtain ⟨r, -, hr⟩ := Option.map_eq_some'.mp h
                cases hr
                simp [h1, h2, pagingIterOf, hpf]

/-- What the loop of `gen` has recorded when it has run through all the methods. -/
theorem genLoop_next (L : GoLib) (C : Collab) (servName : String)
    (serv : ServiceDescriptorProto) (ms : List MethodDescriptorProto) (v v1 : genVars)
    (h : genLoop L C servName serv ms v = some (.next v1)) :
    v1.lroMethods = v.lroMethods ++ ms.filter (fun m => m.OutputType = lroType) ∧
    v1.iterTypes =
      (ms.filterMap (pagingIterOf C)).foldl (fun t it => mapSet t it.iterTypeName it)
        v.iterTypes := by
  induction ms generalizing v with
  | nil =>
    simp only [genLoop, Option.some.injEq, genFlow.next.injEq] at h
    subst h
    simp
  | cons m rest ih =>
    unfold genLoop at h
    cases hb : genLoopBody L C servName serv m v with
    | none => rw [hb] at h; simp at h
    | some fl =>
      rw [hb] at h
      cases fl with
      | ret g err => simp at h
      | next v2 =>
        simp only at h
        obtain ⟨hl, hi⟩ := genLoopBody_next L C servName serv m v v2 hb
        obtain ⟨hl2, hi2⟩ := ih v2 h
        refine ⟨?_, ?_⟩
        · rw [hl2, hl, List.append_assoc, ← List.filter_append]
          rfl
        · rw [hi2, hi]
          cases hp : pagingIterOf C m with
          | none => simp [List.filterMap_cons, hp]
          | some it => simp [List.filterMap_cons, hp]

/-! ## `generator.gen`: the choice of the renderer -/

/-- C1: a method whose output type is the long-running sentinel is rendered by `lroCall`
and appended to `lroMethods`, and one whose output type is the empty sentinel is rendered by
`emptyUnaryCall`; neither result refers to `pagingField` or to the streaming flags. -/
theorem gen_sentinel_first (L : GoLib) (C : Collab) (servName : String)
    (serv : ServiceDescriptorProto) (m : MethodDescriptorProto) (v : genVars)
    (hv : v.err = none) :
    (m.OutputType = lroType →
      genLoopBody L C servName serv m v =
        (v.g.methodDoc L C m).bind fun g =>
          (C.lroCall servName m g).map fun r =>
            .next { v with g := r.1, err := r.2, lroMethods := v.lroMethods ++ [m] }) ∧
    (m.OutputType = emptyType →
      genLoopBody L C servName serv m v =
        (v.g.methodDoc L C m).bind fun g =>
          (g.emptyUnaryCall L servName m).map fun r => .next { v with g := r.1, err := r.2 }) := by
  constructor
  · intro h
    unfold genLoopBody
    rw [hv]
    cases v.g.methodDoc L C m with
    | none => rfl
    | some g => simp [h]
  · intro h
    have hel : ¬ emptyType = lroType := by decide
    unfold genLoopBody
    rw [hv]
    cases v.g.methodDoc L C m with
    | none => rfl
    | some g => simp [h, hel]

/-- C1, witness: a long-running method and an empty-returning method whose inputs have the
paging shape and whose streaming flags are both set. -/
theorem gen_sentinel_first_witness :
    genLoopBody asciiLib stubCollab "Foo" { Name := "FooService" } pagedStreamingLro
        { g := testGenerator } =
      (testGenerator.methodDoc asciiLib stubCollab pagedStreamingLro).bind (fun g =>
        (stubCollab.lroCall "Foo" pagedStreamingLro g).map fun r =>
          .next { g := r.1, err := r.2, lroMethods := [] ++ [pagedStreamingLro] }) ∧
    genLoopBody asciiLib stubCollab "Foo" { Name := "FooService" } pagedStreamingEmpty
        { g := testGenerator } =
      (testGenerator.methodDoc asciiLib stubCollab pagedStreamingEmpty).bind (fun g =>
        (g.emptyUnaryCall asciiLib "Foo" pagedStreamingEmpty).map fun r =>
          .next { g := r.1, err := r.2 }) :=
  ⟨(gen_sentinel_first asciiLib stubCollab "Foo" { Name := "FooService" } pagedStreamingLro
      { g := testGenerator } rfl).1 rfl,
   (gen_sentinel_first asciiLib stubCollab "Foo" { Name := "FooService" } pagedStreamingEmpty
      { g := testGenerator } rfl).2 rfl⟩

/-- The loop body of `gen` as a doc comment followed by the call of the selected renderer. -/
theorem genLoopBody_eq_runRenderer (L : GoLib) (C : Collab) (servName : String)
    (serv : ServiceDescriptorProto) (m : MethodDescriptorProto) (v : genVars)
    (pf : Option FieldDescriptorProto) (iter : iterType)
    (hv : v.err = none) (hpf : C.pagingField m = .ok pf)
    (hiter : ∀ f, pf = some f → C.iterTypeOf f = .ok iter) :
    genLoopBody L C servName serv m v =
      (v.g.methodDoc L C m).bind fun g =>
        runRenderer L C servName serv m pf iter v g
          (selectRenderer m.OutputType pf m.ClientStreaming m.ServerStreaming) := by
  unfold genLoopBody
  rw [hv]
  cases v.g.methodDoc L C m with
  | none => rfl
  | some g =>
    simp only [Option.some_bind, selectRenderer]
    by_cases h1 : m.OutputType = lroType
    · rw [if_pos h1, if_pos h1]; rfl
    · rw [if_neg h1, if_neg h1]
      by_cases h2 : m.OutputType = emptyType
      · rw [if_pos h2, if_pos h2]; rfl
      · rw [if_neg h2, if_neg h2]
        simp only [hpf]
        cases pf with
        | some f =>
          simp only [hiter f rfl, Option.isSome_some, if_true, runRenderer, hv]
        | none =>
          by_cases h3 : (m.ClientStreaming && m.ServerStreaming) = true
          · simp [h3, runRenderer]
          · simp [h3, runRenderer]

/-- C2: when `pagingField` and `iterTypeOf` do not fail for a method, the loop body of `gen`
writes the method's doc comment and then makes exactly one renderer call, and the renderer is
`selectRenderer` of the output type name, the result of `pagingField` and the two streaming
flags. -/
theorem gen_selects_one_renderer (L : GoLib) (C : Collab) (servName : String)
    (serv : ServiceDescriptorProto) (m : MethodDescriptorProto) (v : genVars)
    (pf : Option FieldDescriptorProto) (iter : iterType)
    (hv : v.err = none) (hpf : C.pagingField m = .ok pf)
    (hiter : ∀ f, pf = some f → C.iterTypeOf f = .ok iter) :
    genLoopBody L C servName serv m v =
      (v.g.methodDoc L C m).bind fun g =>
        runRenderer L C servName serv m pf iter v g
          (selectRenderer m.OutputType pf m.ClientStreaming m.ServerStreaming) :=
  genLoopBody_eq_runRenderer L C servName serv m v pf iter hv hpf hiter

/-- C2, witness: `GetManyThings` is rendered by `pagingCall`. -/
theorem gen_selects_one_renderer_witness :
    genLoopBody asciiLib stubCollab "Foo" { Name := "FooService" } getManyThings
        { g := testGenerator } =
      (testGenerator.methodDoc asciiLib stubCollab getManyThings).bind fun g =>
        runRenderer asciiLib stubCollab "Foo" { Name := "FooService" } getManyThings
          (some { Name := "items" }) { iterTypeName := "StringIterator", elemTypeName := "string" }
          { g := testGenerator } g
          (selectRenderer getManyThings.OutputType (some { Name := "items" })
            getManyThings.ClientStreaming getManyThings.ServerStreaming) :=
  gen_selects_one_renderer asciiLib stubCollab "Foo" { Name := "FooService" } getManyThings
    { g := testGenerator } (some { Name := "items" })
    { iterTypeName := "StringIterator", elemTypeName := "string" } rfl rfl (fun _ _ => rfl)

/-- C3: a method that is not long-running, not empty-returning and not paging, and of which
only one streaming flag is set, is rendered by `unaryCall`. -/
theorem gen_one_sided_stream_is_unary (L : GoLib) (C : Collab) (servName : String)
    (serv : ServiceDescriptorProto) (m : MethodDescriptorProto) (v : genVars)
    (hv : v.err = none) (hlro : m.OutputType ≠ lroType) (hempty : m.OutputType ≠ emptyType)
    (hpf : C.pagingField m = .ok none)
    (hflags : m.ClientStreaming ≠ m.ServerStreaming) :
    genLoopBody L C servName serv m v =
      (v.g.methodDoc L C m).bind fun g =>
        (g.unaryCall L servName m).map fun r => .next { v with g := r.1, err := r.2 } := by
  have hsel : selectRenderer m.OutputType none m.ClientStreaming m.ServerStreaming =
      .unaryCall := by
    cases hc : m.ClientStreaming <;> cases hs : m.ServerStreaming <;>
      simp_all [selectRenderer]
  rw [genLoopBody_eq_runRenderer L C servName serv m v none ⟨"", ""⟩ hv hpf (by simp), hsel]
  rfl

/-- C3, witness: the server-streaming method `ServerThings` and the client-streaming method
`ClientThings` of the test are rendered by `unaryCall`. -/
theorem gen_one_sided_stream_is_unary_witness :
    genLoopBody asciiLib stubCollab "Foo" { Name := "FooService" } serverThings
        { g := testGenerator } =
      (testGenerator.methodDoc asciiLib stubCollab serverThings).bind (fun g =>
        (g.unaryCall asciiLib "Foo" serverThings).map fun r => .next { g := r.1, err := r.2 }) ∧
    genLoopBody asciiLib stubCollab "Foo" { Name := "FooService" } clientThings
        { g := testGenerator } =
      (testGenerator.methodDoc asciiLib stubCollab clientThings).bind (fun g =>
        (g.unaryCall asciiLib "Foo" clientThings).map fun r => .next { g := r.1, err := r.2 }) :=
  ⟨gen_one_sided_stream_is_unary asciiLib stubCollab "Foo" { Name := "FooService" } serverThings
      { g := testGenerator } rfl (by decide) (by decide) rfl (by decide),
   gen_one_sided_stream_is_unary asciiLib stubCollab "Foo" { Name := "FooService" } clientThings
      { g := testGenerator } rfl (by decide) (by decide) rfl (by decide)⟩

/-! ## `generator.gen`: errors and auxiliary types -/

/-- When the prologue succeeds and the loop runs through all the methods leaving `err` nil,
`gen` emits the auxiliary types and returns nil. -/
theorem gen_eq_genAux (L : GoLib) (C : Collab) (g g1 g2 : generator)
    (serv : ServiceDescriptorProto) (pkgName : String) (v : genVars)
    (hco : C.clientOptions serv (reduceServName L serv.Name pkgName) g = some (g1, none))
    (hci : C.clientInit serv (reduceServName L serv.Name pkgName) g1 = some (g2, none))
    (hloop : genLoop L C (reduceServName L serv.Name pkgName) serv serv.Method { g := g2 } =
      some (.next v))
    (herr : v.err = none) :
    g.gen L C serv pkgName =
      (genAux C (reduceServName L serv.Name pkgName) v).map fun g => (g, none) := by
  unfold generator.gen
  simp only [hco, hci, hloop, herr]

/-- C4: the error of `pagingCall` is dropped: for a service whose only method is a paging
method for which `pagingCall` returns the error `e`, `gen` goes on, emits the iterator type
and returns nil. -/
theorem gen_drops_pagingCall_error (L : GoLib) (C : Collab) (g g1 g2 g3 g4 g5 : generator)
    (serv : ServiceDescriptorProto) (pkgName : String) (m : MethodDescriptorProto)
    (pf : FieldDescriptorProto) (iter : iterType) (e : error)
    (hm : serv.Method = [m])
    (hco : C.clientOptions serv (reduceServName L serv.Name pkgName) g = some (g1, none))
    (hci : C.clientInit serv (reduceServName L serv.Name pkgName) g1 = some (g2, none))
    (hdoc : g2.methodDoc L C m = some g3)
    (hlro : m.OutputType ≠ lroType) (hempty : m.OutputType ≠ emptyType)
    (hpf : C.pagingField m = .ok (some pf)) (hit : C.iterTypeOf pf = .ok iter)
    (hcall : C.pagingCall (reduceServName L serv.Name pkgName) m pf iter g3 = some (g4, some e))
    (hiter : C.pagingIter iter g4 = some g5) :
    g.gen L C serv pkgName = some (g5, none) := by
  have hloop : genLoop L C (reduceServName L serv.Name pkgName) serv serv.Method { g := g2 } =
      some (.next { g := g4, iterTypes := [(iter.iterTypeName, iter)] }) := by
    rw [hm]
    simp [genLoop, genLoopBody, hdoc, hlro, hempty, hpf, hit, hcall, mapSet]
  rw [gen_eq_genAux L C g g1 g2 serv pkgName _ hco hci hloop rfl]
  simp [genAux, genLros, genIters, sortSlice, hiter]

/-- C4, witness: the service with the one paging method `GetManyThings`, rendered with a
`pagingCall` that fails. -/
theorem gen_drops_pagingCall_error_witness :
    testGenerator.gen asciiLib failingPagingCollab
        { Name := "FooService", Method := [getManyThings] } "foo" =
      some ({ testGenerator with sb := "" ++ "pagingIter " ++ "StringIterator" ++ "\n" }, none) :=
  gen_drops_pagingCall_error asciiLib failingPagingCollab testGenerator testGenerator
    testGenerator testGenerator testGenerator _ { Name := "FooService", Method := [getManyThings] }
    "foo" getManyThings { Name := "items" }
    { iterTypeName := "StringIterator", elemTypeName := "string" }
    (errors.E none "paging call failed" []) rfl rfl rfl rfl (by decide) (by decide) rfl rfl rfl
    rfl

/-- Two strictly ascending lists of names with the same members are equal. -/
theorem sorted_names_ext {l1 l2 : List String} (h1 : l1.Sorted (· < ·)) (h2 : l2.Sorted (· < ·))
    (hmem : ∀ a, a ∈ l1 ↔ a ∈ l2) : l1 = l2 := by
  haveI : IsAntisymm String (· < ·) := ⟨fun a b hab hba => absurd hba (lt_asymm hab)⟩
  exact List.eq_of_perm_of_sorted ((List.perm_ext_iff_of_nodup h1.nodup h2.nodup).mpr hmem) h1 h2

/-- The names of the iterator types handed to `pagingIter` after the loop has run through the
methods `ms`: strictly ascending, and exactly the names of the iterator types of the paging
methods among `ms`. -/
theorem genIters_names (L : GoLib) (C : Collab) (servName : String)
    (serv : ServiceDescriptorProto) (ms : List MethodDescriptorProto) (g : generator)
    (v : genVars) (h : genLoop L C servName serv ms { g := g } = some (.next v)) :
    ((genIters v.iterTypes).map (·.iterTypeName)).Sorted (· < ·) ∧
    ∀ n, n ∈ (genIters v.iterTypes).map (·.iterTypeName) ↔
      ∃ m ∈ ms, ∃ iter, pagingIterOf C m = some iter ∧ iter.iterTypeName = n := by
  obtain ⟨-, hi⟩ := genLoop_next L C servName serv ms _ v h
  obtain ⟨hnd, hname, hmem⟩ := iterTypes_fold (ms.filterMap (pagingIterOf C)) []
    (by simp) (by simp)
  rw [← hi] at hnd hname hmem
  have hkeys : (v.iterTypes.map Prod.snd).map (·.iterTypeName) = v.iterTypes.map Prod.fst := by
    rw [List.map_map]
    exact List.map_congr_left fun p hp => hname p hp
  refine ⟨?_, ?_⟩
  · exact sortSlice_keys_strict (fun it : iterType => it.iterTypeName) _
      (by rw [hkeys]; exact hnd)
  · intro n
    have hperm := (sortSlice_perm (fun a b : iterType => decide (a.iterTypeName < b.iterTypeName))
      (v.iterTypes.map Prod.snd)).map (·.iterTypeName)
    unfold genIters
    rw [hperm.mem_iff, hkeys, hmem n]
    simp only [List.map_nil, List.not_mem_nil, false_or, List.mem_filterMap]
    constructor
    · rintro ⟨iter, ⟨m, hm, hp⟩, hn⟩
      exact ⟨m, hm, iter, hp, hn⟩
    · rintro ⟨m, hm, iter, hp, hn⟩
      exact ⟨iter, ⟨m, hm, hp⟩, hn⟩

/-- C5: the iterator types that `gen` hands to `pagingIter`, one call after the other, have
strictly ascending names: every name of an iterator type of a paging method of the service
occurs exactly once, and the sequence of names is the same for every permutation of the
methods. -/
theorem gen_iters_sorted (L : GoLib) (C : Collab) (g g1 g2 : generator)
    (serv : ServiceDescriptorProto) (pkgName : String) (v : genVars)
    (hco : C.clientOptions serv (reduceServName L serv.Name pkgName) g = some (g1, none))
    (hci : C.clientInit serv (reduceServName L serv.Name pkgName) g1 = some (g2, none))
    (hloop : genLoop L C (reduceServName L serv.Name pkgName) serv serv.Method { g := g2 } =
      some (.next v))
    (herr : v.err = none) :
    g.gen L C serv pkgName =
      ((((genLros v.lroMethods).foldlM
          (fun g m => C.lroType (reduceServName L serv.Name pkgName) m g) v.g).bind fun g =>
        (genIters v.iterTypes).foldlM (fun g iter => C.pagingIter iter g) g).map
          fun g => (g, none)) ∧
    ((genIters v.iterTypes).map (·.iterTypeName)).Sorted (· < ·) ∧
    (∀ n, n ∈ (genIters v.iterTypes).map (·.iterTypeName) ↔
      ∃ m ∈ serv.Method, ∃ iter, pagingIterOf C m = some iter ∧ iter.iterTypeName = n) ∧
    (∀ (servName1 : String) (serv1 : ServiceDescriptorProto) (g3 : generator) (v1 : genVars),
      serv1.Method.Perm serv.Method →
      genLoop L C servName1 serv1 serv1.Method { g := g3 } = some (.next v1) →
      (genIters v1.iterTypes).map (·.iterTypeName) =
        (genIters v.iterTypes).map (·.iterTypeName)) ∧
    (∀ l : List iterType, l.Perm (v.iterTypes.map Prod.snd) →
      (l.map (·.iterTypeName)).Sorted (· ≤ ·) →
      l.map (·.iterTypeName) = (genIters v.iterTypes).map (·.iterTypeName)) := by
  obtain ⟨hs, hmem⟩ := genIters_names L C _ serv serv.Method g2 v hloop
  refine ⟨gen_eq_genAux L C g g1 g2 serv pkgName v hco hci hloop herr, hs, hmem, ?_, ?_⟩
  · intro servName1 serv1 g3 v1 hperm hloop1
    obtain ⟨hs1, hmem1⟩ := genIters_names L C _ serv1 serv1.Method g3 v1 hloop1
    refine sorted_names_ext hs1 hs fun n => ?_
    rw [hmem1 n, hmem n]
    constructor
    · rintro ⟨m, hm, rest⟩
      exact ⟨m, hperm.mem_iff.mp hm, rest⟩
    · rintro ⟨m, hm, rest⟩
      exact ⟨m, hperm.mem_iff.mpr hm, rest⟩
  · intro l hperm hsorted
    have hp : (l.map (·.iterTypeName)).Perm ((genIters v.iterTypes).map (·.iterTypeName)) :=
      (hperm.trans (sortSlice_perm _ _).symm).map _
    exact sorted_names_ext (hsorted.lt_of_le (hp.nodup_iff.mpr hs.nodup)) hs
      fun n => hp.mem_iff

/-- C5, witness: the service with the two paging methods `GetManyThings` and `ListThings`,
which share the iterator type `StringIterator`. -/
theorem gen_iters_sorted_witness :
    ((genIters [("StringIterator",
        ({ iterTypeName := "StringIterator", elemTypeName := "string" } : iterType))]).map
      (·.iterTypeName)).Sorted (· < ·) :=
  (gen_iters_sorted asciiLib stubCollab testGenerator testGenerator testGenerator
    { Name := "FooService", Method := [getManyThings, listThings] } "foo"
    { g := { testGenerator with
              sb := "" ++ "pagingCall " ++ "GetManyThings" ++ "\n" ++ "pagingCall " ++
                "ListThings" ++ "\n" },
      iterTypes := [("StringIterator",
        { iterTypeName := "StringIterator", elemTypeName := "string" })] }
    rfl rfl rfl rfl).2.1

/-- The long-running methods handed to `lroType` after the loop has run through the methods
`ms`, whose names are pairwise distinct: strictly ascending by name, and exactly the
long-running methods among `ms`. -/
theorem genLros_sorted (L : GoLib) (C : Collab) (servName : String)
    (serv : ServiceDescriptorProto) (ms : List MethodDescriptorProto) (g : generator)
    (v : genVars) (hnd : (ms.map (·.Name)).Nodup)
    (h : genLoop L C servName serv ms { g := g } = some (.next v)) :
    (genLros v.lroMethods).Sorted (fun a b => a.Name < b.Name) ∧
    (genLros v.lroMethods).Perm (ms.filter fun m => m.OutputType = lroType) := by
  obtain ⟨hl, -⟩ := genLoop_next L C servName serv ms _ v h
  simp only [List.nil_append] at hl
  have hnd2 : ((ms.filter fun m => m.OutputType = lroType).map (·.Name)).Nodup :=
    hnd.sublist ((List.filter_sublist ms).map _)
  rw [hl]
  refine ⟨?_, sortSlice_perm _ _⟩
  have hs := sortSlice_keys_strict (fun m : MethodDescriptorProto => m.Name) _ hnd2
  rw [List.Sorted, List.pairwise_map] at hs
  exact hs

/-- Two long-running methods in descending order of their names are handed to `lroType` in
ascending order. -/
theorem genLros_swap (a b : MethodDescriptorProto) (h : a.Name < b.Name) :
    genLros [b, a] = [a, b] := by
  simp [genLros, sortSlice, List.insertionSort, List.orderedInsert, h]

/-- C6 (as amended): for a service whose method names are pairwise distinct, `gen` calls
`lroType` after the loop over the methods and before every call of `pagingIter`, for exactly
the long-running methods of the service, in strictly ascending order of the names of the
methods, and in the same order for every permutation of the methods; the names of the wrapper
types are ascending in this order for every naming of the wrapper types that keeps the order
of the method names. -/
theorem gen_lros_sorted (L : GoLib) (C : Collab) (g g1 g2 : generator)
    (serv : ServiceDescriptorProto) (pkgName : String) (v : genVars)
    (hnd : (serv.Method.map (·.Name)).Nodup)
    (hco : C.clientOptions serv (reduceServName L serv.Name pkgName) g = some (g1, none))
    (hci : C.clientInit serv (reduceServName L serv.Name pkgName) g1 = some (g2, none))
    (hloop : genLoop L C (reduceServName L serv.Name pkgName) serv serv.Method { g := g2 } =
      some (.next v))
    (herr : v.err = none) :
    g.gen L C serv pkgName =
      ((((genLros v.lroMethods).foldlM
          (fun g m => C.lroType (reduceServName L serv.Name pkgName) m g) v.g).bind fun g =>
        (genIters v.iterTypes).foldlM (fun g iter => C.pagingIter iter g) g).map
          fun g => (g, none)) ∧
    (genLros v.lroMethods).Sorted (fun a b => a.Name < b.Name) ∧
    (∀ m, m ∈ genLros v.lroMethods ↔ m ∈ serv.Method ∧ m.OutputType = lroType) ∧
    (∀ (servName1 : String) (serv1 : ServiceDescriptorProto) (g3 : generator) (v1 : genVars),
      serv1.Method.Perm serv.Method →
      genLoop L C servName1 serv1 serv1.Method { g := g3 } = some (.next v1) →
      genLros v1.lroMethods = genLros v.lroMethods) ∧
    (∀ l : List MethodDescriptorProto, l.Perm v.lroMethods →
      l.Sorted (fun a b => ¬ b.Name < a.Name) → l = genLros v.lroMethods) ∧
    (∀ typeName : MethodDescriptorProto → String,
      (∀ a b, a ∈ serv.Method → b ∈ serv.Method → a.OutputType = lroType →
        b.OutputType = lroType → a.Name < b.Name → typeName a < typeName b) →
      ((genLros v.lroMethods).map typeName).Sorted (· < ·)) := by
  obtain ⟨hs, hp⟩ := genLros_sorted L C _ serv serv.Method g2 v hnd hloop
  have hanti : IsAntisymm MethodDescriptorProto (fun a b => a.Name < b.Name) :=
    ⟨fun a b hab hba => absurd hba (lt_asymm hab)⟩
  have hmem : ∀ m, m ∈ genLros v.lroMethods ↔ m ∈ serv.Method ∧ m.OutputType = lroType := by
    intro m
    rw [hp.mem_iff]
    simp
  refine ⟨gen_eq_genAux L C g g1 g2 serv pkgName v hco hci hloop herr, hs, hmem, ?_, ?_, ?_⟩
  · intro servName1 serv1 g3 v1 hperm hloop1
    have hnd1 : (serv1.Method.map (·.Name)).Nodup := ((hperm.map _).nodup_iff).mpr hnd
    obtain ⟨hs1, hp1⟩ := genLros_sorted L C _ serv1 serv1.Method g3 v1 hnd1 hloop1
    exact List.eq_of_perm_of_sorted
      ((hp1.trans (hperm.filter _)).trans hp.symm) hs1 hs
  · intro l hperm hsorted
    have hpl : l.Perm (genLros v.lroMethods) := hperm.trans (sortSlice_perm _ _).symm
    have hndl : (l.map (·.Name)).Nodup :=
      (((hpl.trans hp).map _).nodup_iff).mpr (hnd.sublist ((List.filter_sublist _).map _))
    have hsl : l.Sorted (fun a b => a.Name < b.Name) := by
      have h1 : (l.map (·.Name)).Sorted (· ≤ ·) := by
        rw [List.Sorted, List.pairwise_map]
        exact List.Pairwise.imp (fun h => not_lt.mp h) hsorted
      have h2 := h1.lt_of_le hndl
      rw [List.Sorted, List.pairwise_map] at h2
      exact h2
    exact List.eq_of_perm_of_sorted hpl hsl hs
  · intro typeName hmono
    rw [List.Sorted, List.pairwise_map]
    exact List.Pairwise.imp_of_mem (fun {a b} ha hb hab =>
      hmono a b ((hmem a).mp ha).1 ((hmem b).mp hb).1 ((hmem a).mp ha).2 ((hmem b).mp hb).2 hab) hs

/-- C6, witness: the service with the long-running method `GetBigThings`, the paging method
`GetManyThings` and the long-running method `GetBigThing`, in this order: after the three
bodies come the wrapper of `GetBigThing`, the wrapper of `GetBigThings` and the iterator
type. -/
theorem gen_lros_sorted_witness :
    testGenerator.gen asciiLib stubCollab
        { Name := "FooService", Method := [pagedStreamingLro, getManyThings, getBigThing] }
        "foo" =
      some ({ testGenerator with
        sb := "lroCall GetBigThings\npagingCall GetManyThings\nlroCall GetBigThing\n" ++
          "lroType GetBigThing\nlroType GetBigThings\npagingIter StringIterator\n" }, none) ∧
    genLros [pagedStreamingLro, getBigThing] = [getBigThing, pagedStreamingLro] :=
  have h := gen_lros_sorted asciiLib stubCollab testGenerator testGenerator testGenerator
    { Name := "FooService", Method := [pagedStreamingLro, getManyThings, getBigThing] } "foo"
    { g := { testGenerator with
              sb := "" ++ "lroCall " ++ "GetBigThings" ++ "\n" ++ "pagingCall " ++
                "GetManyThings" ++ "\n" ++ "lroCall " ++ "GetBigThing" ++ "\n" },
      lroMethods := [pagedStreamingLro, getBigThing],
      iterTypes := [("StringIterator",
        { iterTypeName := "StringIterator", elemTypeName := "string" })] }
    (by decide) rfl rfl rfl rfl
  have hlt : getBigThing.Name < pagedStreamingLro.Name :=
    String.lt_iff_toList_lt.mpr (by decide)
  have hl : [getBigThing, pagedStreamingLro] = genLros [pagedStreamingLro, getBigThing] :=
    h.2.2.2.2.1 [getBigThing, pagedStreamingLro] (List.Perm.swap _ _ _)
      (List.pairwise_pair.mpr (lt_asymm hlt))
  ⟨by rw [h.1, ← hl]; rfl, hl.symm⟩

/-- C6, counterexample: for the service with the long-running methods `GetAll` and `Get`,
`gen` writes the wrapper type `GetOperation` before the wrapper type `GetAllOperation`,
though `GetAllOperation` comes before `GetOperation` in the order of the names of the
types. -/
theorem gen_lros_sorted_counterexample :
    testGenerator.gen asciiLib operationCollab
        { Name := "FooService", Method := [getAllThings, getThing] } "foo" =
      some ({ testGenerator with
        sb := "lroCall GetAll\nlroCall Get\n" ++ "type GetOperation\ntype GetAllOperation\n" },
        none) ∧
    operationName getAllThings < operationName getThing ∧
    ¬ ((genLros [getAllThings, getThing]).map operationName).Sorted (· < ·) := by
  have hlt : getThing.Name < getAllThings.Name := String.lt_iff_toList_lt.mpr (by decide)
  have hop : operationName getAllThings < operationName getThing :=
    String.lt_iff_toList_lt.mpr (by decide)
  have hl := genLros_swap getThing getAllThings hlt
  refine ⟨?_, hop, ?_⟩
  · rw [gen_eq_genAux asciiLib operationCollab testGenerator testGenerator testGenerator
      { Name := "FooService", Method := [getAllThings, getThing] } "foo"
      { g := { testGenerator with
                sb := "" ++ "lroCall " ++ "GetAll" ++ "\n" ++ "lroCall " ++ "Get" ++ "\n" },
        lroMethods := [getAllThings, getThing] }
      rfl rfl rfl rfl]
    unfold genAux
    simp only [hl]
    rfl
  · rw [hl]
    simp only [List.map_cons, List.map_nil, List.Sorted, List.pairwise_pair]
    exact lt_asymm hop

/-! ## `generator.printf` -/

/-- The tab loop of `printf` followed by `tabsCache[:in]` writes as many tabs as the
indentation level, whatever the level. -/
theorem tabsLoop_tabs (fuel : Nat) (sb : String) (i : Int) (h0 : 0 ≤ i) (hf : i.toNat ≤ fuel) :
    0 ≤ (tabsLoop fuel sb i).2 ∧
    ((tabsLoop fuel sb i).1 ++ sliceTo tabsCache (tabsLoop fuel sb i).2.toNat).data =
      sb.data ++ List.replicate i.toNat '\t' := by
  induction fuel generalizing sb i with
  | zero =>
    have hi : i = 0 := by omega
    subst hi
    simp [tabsLoop, sliceTo]
  | succ n ih =>
    unfold tabsLoop
    by_cases hgt : i > 20
    · rw [if_pos hgt]
      obtain ⟨h1, h2⟩ := ih (sb ++ tabsCache) (i - 20) (by omega) (by omega)
      refine ⟨h1, ?_⟩
      rw [h2]
      have hsplit : i.toNat = 20 + (i - 20).toNat := by omega
      rw [hsplit, List.replicate_add]
      simp [tabsCache]
    · rw [if_neg hgt]
      refine ⟨h0, ?_⟩
      have hle : i.toNat ≤ 20 := by omega
      have hc : tabsCache.data = List.replicate 20 '\t' := rfl
      simp only [sliceTo, String.data_append, hc, List.take_replicate, Nat.min_eq_left hle]

/-- C11: on a line whose trimmed text `t` is not empty and has no more leading closing braces
than the indentation level, `printf` appends that level minus the leading closing braces in
tabs, then the formatted text and a newline, and leaves the level raised by the trailing
opening braces; on a line of white space it appends one newline and nothing else changes. -/
theorem printf_indent (L : GoLib) (g : generator) (s : String) (a : List String) :
    (TrimSpace s ≠ "" → (countLeading (TrimSpace s).data '\x7d' : Int) ≤ g.in_ →
      g.printf L s a = some { g with
        sb := ⟨g.sb.data ++
          List.replicate (g.in_ - (countLeading (TrimSpace s).data '\x7d' : Nat)).toNat '\t' ++
          (L.Sprintf (TrimSpace s) a).data ++ ['\n']⟩,
        in_ := g.in_ - (countLeading (TrimSpace s).data '\x7d' : Nat) +
          (countTrailing (TrimSpace s).data '\x7b' : Nat) }) ∧
    ((∀ c ∈ s.data, IsSpace c = true) →
      g.printf L s a = some { g with sb := ⟨g.sb.data ++ ['\n']⟩ }) := by
  constructor
  · intro hne hk
    obtain ⟨h1, h2⟩ := tabsLoop_tabs
      (g.in_ - (countLeading (TrimSpace s).data '\x7d' : Nat)).toNat g.sb
      (g.in_ - (countLeading (TrimSpace s).data '\x7d' : Nat)) (by omega) (le_refl _)
    unfold generator.printf
    simp only [if_neg hne]
    rw [if_neg (by omega)]
    congr 2
    apply String.ext
    simp only [String.data_push, String.data_append, h2]
  · intro hall
    have htrim : TrimSpace s = "" := by
      unfold TrimSpace
      have : s.data.dropWhile IsSpace = [] := by
        rw [List.dropWhile_eq_nil_iff]
        exact hall
      simp [this]
    unfold generator.printf
    simp only [htrim, if_true]
    congr 2

/-- C11, witness: at level 25 the line `} else {` is written behind 24 tabs and leaves the
level at 25; a line of blanks gives one newline. -/
theorem printf_indent_witness :
    ({ in_ := 25 } : generator).printf asciiLib "  \x7d else \x7b " [] =
      some { sb := ⟨List.replicate 24 '\t' ++ "\x7d else \x7b".data ++ ['\n']⟩, in_ := 25 } ∧
    ({ sb := "x", in_ := 3 } : generator).printf asciiLib " \t " [] =
      some { sb := "x\n", in_ := 3 } :=
  ⟨(printf_indent asciiLib { in_ := 25 } "  \x7d else \x7b " []).1 (by decide) (by decide),
   (printf_indent asciiLib { sb := "x", in_ := 3 } " \t " []).2 (by decide)⟩

/-! ## `generator.commit` -/

/-- C12: for a buffer that holds two newlines and nothing else, the body segment that `commit`
appends is the buffer as it is: it ends in two newlines. -/
theorem commit_keeps_blank_buffer (L : GoLib) (E : CommitEnv) (g : generator)
    (fileName pkgName : String) (hsb : g.sb = "\n\n")
    (hdiv : (E.sortImports g.imports).2 ≤ (E.sortImports g.imports).1.length) :
    ∃ header : ResponseFile, g.commit L E fileName pkgName =
      some { g with resp := g.resp ++ [header] ++ [{ Content := "\n\n" }] } := by
  unfold generator.commit
  simp only [if_neg (Nat.not_lt.mpr hdiv), hsb]
  exact ⟨_, rfl⟩

/-- C12, witness: `commit` on the buffer of two newlines. -/
theorem commit_keeps_blank_buffer_witness :
    ∃ header : ResponseFile,
      ({ sb := "\n\n" } : generator).commit asciiLib stubCommitEnv "foo_client.go" "foo" =
        some { sb := "\n\n", resp := [] ++ [header] ++ [{ Content := "\n\n" }] } :=
  commit_keeps_blank_buffer asciiLib stubCommitEnv { sb := "\n\n" } "foo_client.go" "foo" rfl
    (by decide)

/-! ## `reduceServName` and `grpcClientField` -/

theorem lastIndexByte_append {b : List Char} {c : Char} (a : List Char) (h : c ∉ b) :
    lastIndexByte (a ++ c :: b) c = some a.length := by
  induction a with
  | nil => simp [lastIndexByte, lastIndexByte_eq_none.mpr h]
  | cons x xs ih => simp [lastIndexByte, ih]

theorem trimSuffix_append (s suffix : String) : TrimSuffix (s ++ suffix) suffix = s := by
  unfold TrimSuffix
  rw [if_pos (by simp [String.data_append])]
  apply String.ext
  simp [String.data_append]

theorem trimSuffix_of_not_suffix {s suffix : String} (h : ¬ suffix.data <:+ s.data) :
    TrimSuffix s suffix = s := by
  unfold TrimSuffix
  rw [if_neg (by simpa using h)]

/-- What `strings.TrimSuffix` does: it takes the suffix off once when the string ends in it,
and leaves the string as it is otherwise. -/
theorem trimSuffix_cases (s suffix : String) :
    (s = TrimSuffix s suffix ++ suffix) ∨ (TrimSuffix s suffix = s ∧ ¬ suffix.data <:+ s.data) := by
  by_cases h : suffix.data <:+ s.data
  · left
    obtain ⟨t, ht⟩ := h
    have hs : s = ⟨t⟩ ++ suffix := String.ext (by simp [String.data_append, ht])
    rw [hs, trimSuffix_append]
  · right
    exact ⟨trimSuffix_of_not_suffix h, h⟩

theorem trimSuffix_length_le (s suffix : String) :
    (TrimSuffix s suffix).data.length ≤ s.data.length := by
  unfold TrimSuffix
  split
  · simp [List.length_take]
  · exact le_refl _

/-- A name with a trailing `V` and digits behind it loses both. -/
theorem reduceServName_version (L : GoLib) (A : String) (d : List Char) (pkg : String)
    (hV : 'V' ∉ d) (hd : d.all L.IsDigit = true) :
    reduceServName L (A ++ "V" ++ ⟨d⟩) pkg =
      if L.EqualFold (TrimSuffix A "Service") pkg then "" else TrimSuffix A "Service" := by
  have hdata : (A ++ "V" ++ (⟨d⟩ : String)).data = A.data ++ 'V' :: d := by
    simp [String.data_append]
  have hA : sliceTo (A ++ "V" ++ ⟨d⟩) A.data.length = A :=
    String.ext (by simp [sliceTo, hdata])
  have hdrop : List.drop (A.data.length + 1) (A.data ++ 'V' :: d) = d := by
    have hsplit : A.data ++ 'V' :: d = (A.data ++ ['V']) ++ d := by simp
    rw [hsplit]
    exact List.drop_left' (by simp)
  unfold reduceServName
  simp only [hdata, lastIndexByte_append A.data hV, sliceFrom, hdrop, hd, if_true]
  rw [hA]

/-- A name without `V`, or with a character that is not a digit behind its last `V`, keeps
its version-like part. -/
theorem reduceServName_no_version (L : GoLib) (svc pkg : String)
    (h : 'V' ∉ svc.data ∨ ∃ A R : List Char, svc.data = A ++ 'V' :: R ∧ 'V' ∉ R ∧
      ∃ c ∈ R, L.IsDigit c = false) :
    reduceServName L svc pkg =
      if L.EqualFold (TrimSuffix svc "Service") pkg then "" else TrimSuffix svc "Service" := by
  unfold reduceServName
  rcases h with h | ⟨A, R, hsvc, hV, c, hc, hdig⟩
  · simp only [lastIndexByte_eq_none.mpr h]
  · have hdrop : List.drop (A.length + 1) (A ++ 'V' :: R) = R := by
      have hsplit : A ++ 'V' :: R = (A ++ ['V']) ++ R := by simp
      rw [hsplit]
      exact List.drop_left' (by simp)
    have hall : R.all L.IsDigit = false := by
      rw [List.all_eq_false]
      exact ⟨c, hc, by simp [hdig]⟩
    simp only [hsvc, lastIndexByte_append A hV, sliceFrom, hdrop, hall]
    simp

/-- C13: for `B` without `V` and not ending in `Service` and a string of decimal digits `d`,
each of `B`, `B + "V" + d`, `B + "Service"` and `B + "Service" + "V" + d` is reduced to the
empty string when `B` equals the package name case-insensitively, and to `B` otherwise. -/
theorem reduceServName_table (L : GoLib) (B d pkg : String)
    (hL : ∀ c, isDecimalDigit c = true → L.IsDigit c = true)
    (hV : 'V' ∉ B.data) (hS : ¬ "Service".data <:+ B.data)
    (hdig : ∀ c ∈ d.data, isDecimalDigit c = true) :
    ∀ s ∈ [B, B ++ "V" ++ d, B ++ "Service", B ++ "Service" ++ "V" ++ d],
      reduceServName L s pkg = if L.EqualFold B pkg then "" else B := by
  have hVd : 'V' ∉ d.data := fun hmem => by
    have := hdig 'V' hmem
    revert this
    decide
  have hall : d.data.all L.IsDigit = true := by
    rw [List.all_eq_true]
    exact fun c hc => hL c (hdig c hc)
  have hVS : 'V' ∉ (B ++ "Service").data := by
    rw [String.data_append, List.mem_append]
    rintro (h | h)
    · exact hV h
    · revert h; decide
  intro s hs
  simp only [List.mem_cons, List.mem_singleton, List.not_mem_nil, or_false] at hs
  rcases hs with rfl | rfl | rfl | rfl
  · rw [reduceServName_no_version L _ pkg (Or.inl hV), trimSuffix_of_not_suffix hS]
  · have h := reduceServName_version L B d.data pkg hVd hall
    rw [trimSuffix_of_not_suffix hS] at h
    exact h
  · rw [reduceServName_no_version L _ pkg (Or.inl hVS), trimSuffix_append]
  · have h := reduceServName_version L (B ++ "Service") d.data pkg hVd hall
    rw [trimSuffix_append] at h
    exact h

/-- C13, witness: `Foo`, `FooV2`, `FooService` and `FooServiceV2` with the packages `foo`
and the empty one. -/
theorem reduceServName_table_witness :
    (∀ s ∈ ["Foo", "Foo" ++ "V" ++ "2", "Foo" ++ "Service", "Foo" ++ "Service" ++ "V" ++ "2"],
      reduceServName asciiLib s "foo" = if asciiLib.EqualFold "Foo" "foo" then "" else "Foo") ∧
    (∀ s ∈ ["Foo", "Foo" ++ "V" ++ "2", "Foo" ++ "Service", "Foo" ++ "Service" ++ "V" ++ "2"],
      reduceServName asciiLib s "" = if asciiLib.EqualFold "Foo" "" then "" else "Foo") :=
  ⟨reduceServName_table asciiLib "Foo" "2" "foo" (fun _ h => h) (by decide) (by decide)
      (by decide),
   reduceServName_table asciiLib "Foo" "2" "" (fun _ h => h) (by decide) (by decide)
      (by decide)⟩

/-- C14: a name in which a character that is not a digit follows the last `V` loses no
version: the result is the name with `Service` taken off its end once, if it ends in it, or
the empty string when that remainder equals the package name case-insensitively. -/
theorem reduceServName_keeps_nonversion (L : GoLib) (svc pkg : String) (A R : List Char)
    (hsvc : svc.data = A ++ 'V' :: R) (hV : 'V' ∉ R) (hc : ∃ c ∈ R, L.IsDigit c = false) :
    (reduceServName L svc pkg =
      if L.EqualFold (TrimSuffix svc "Service") pkg then "" else TrimSuffix svc "Service") ∧
    (svc = TrimSuffix svc "Service" ++ "Service" ∨
      (TrimSuffix svc "Service" = svc ∧ ¬ "Service".data <:+ svc.data)) :=
  ⟨reduceServName_no_version L svc pkg (Or.inr ⟨A, R, hsvc, hV, hc⟩),
   trimSuffix_cases svc "Service"⟩

/-- C14, witness: `FooV2Bar` stays `FooV2Bar`. -/
theorem reduceServName_keeps_nonversion_witness :
    reduceServName asciiLib "FooV2Bar" "" = "FooV2Bar" :=
  (reduceServName_keeps_nonversion asciiLib "FooV2Bar" "" "Foo".data "2Bar".data rfl
    (by decide) ⟨'B', by decide, rfl⟩).1

/-- C15: a name that ends in a bare `V` loses the `V`: `reduceServName(B + "V", "")` is `B`
without a trailing `Service` (or empty), never `B + "V"`; `FooV` becomes `Foo`. -/
theorem reduceServName_strips_bare_V (L : GoLib) (B : String) :
    (reduceServName L (B ++ "V") "" =
      if L.EqualFold (TrimSuffix B "Service") "" then "" else TrimSuffix B "Service") ∧
    reduceServName L (B ++ "V") "" ≠ B ++ "V" ∧
    reduceServName asciiLib "FooV" "" = "Foo" := by
  have h := reduceServName_version L B [] "" (by simp) (by simp)
  have he : B ++ "V" ++ (⟨[]⟩ : String) = B ++ "V" := String.ext (by simp [String.data_append])
  rw [he] at h
  refine ⟨h, ?_, by decide⟩
  rw [h]
  intro hc
  have hle := trimSuffix_length_le B "Service"
  by_cases hf : L.EqualFold (TrimSuffix B "Service") "" = true
  · rw [if_pos hf] at hc
    have hdata := congrArg String.data hc
    simp [String.data_append] at hdata
  · rw [if_neg hf] at hc
    have hlen := congrArg (fun s : String => s.data.length) hc
    simp only [String.data_append, List.length_append] at hlen
    have h1 : ['V'].length = 1 := rfl
    rw [h1] at hlen
    omega

theorem ascii_toLower_aux : ∀ n : Nat, n < 128 →
    (Char.ofNat n).toLower.toNat < 128 ∧ (Char.ofNat n).toLower.isUpper = false := by
  decide

/-- Lower-casing an ASCII character gives an ASCII character that is not upper-case. -/
theorem ascii_toLower (c : Char) (h : c.toNat < 128) :
    c.toLower.toNat < 128 ∧ c.toLower.isUpper = false := by
  have := ascii_toLower_aux c.toNat h
  rwa [Char.ofNat_toNat] at this

/-- C16: `grpcClientField` of the empty name is `client`; of a name that starts with the
character `c` it is the name with `c` lower-cased, followed by `Client`; for a name that
starts with an ASCII character (as every protobuf identifier does) the field name does not
start with an upper-case letter; and a service name that is reduced to the empty string gets
the field `client`.  The library is taken to agree with the ASCII tables on ASCII. -/
theorem grpcClientField_lower (L : GoLib)
    (hlow : ∀ c : Char, c.toNat < 128 → L.ToLower c = c.toLower)
    (hup : ∀ c : Char, c.toNat < 128 → L.IsUpper c = c.isUpper) :
    grpcClientField L "" = "client" ∧
    (∀ (c : Char) (rest : List Char),
      grpcClientField L ⟨c :: rest⟩ = ⟨L.ToLower c :: rest⟩ ++ "Client") ∧
    (∀ n : String, (∀ c ∈ n.data.head?, c.toNat < 128) →
      ∀ c ∈ (grpcClientField L n).data.head?, L.IsUpper c = false) ∧
    (∀ s pkg : String, reduceServName L s pkg = "" →
      grpcClientField L (reduceServName L s pkg) = "client") := by
  have hempty : grpcClientField L "" = "client" := by
    have hC : L.ToLower 'C' = 'c' := by rw [hlow 'C' (by decide)]; rfl
    show lowerFirst L ("" ++ "Client") = "client"
    have he : ("" : String) ++ "Client" = ⟨'C' :: "lient".data⟩ := rfl
    rw [he]
    simp only [lowerFirst, hC]
  have hcons : ∀ (c : Char) (rest : List Char),
      grpcClientField L ⟨c :: rest⟩ = ⟨L.ToLower c :: rest⟩ ++ "Client" := by
    intro c rest
    have he : (⟨c :: rest⟩ : String) ++ "Client" = ⟨c :: (rest ++ "Client".data)⟩ :=
      String.ext (by simp [String.data_append])
    simp only [grpcClientField, he, lowerFirst]
    exact String.ext (by simp [String.data_append])
  refine ⟨hempty, hcons, ?_, ?_⟩
  · intro n hn c hc
    obtain ⟨data⟩ := n
    cases data with
    | nil =>
      have h0 : (⟨[]⟩ : String) = "" := rfl
      rw [h0, hempty] at hc
      have hc2 : c = 'c' := by
        have : ("client" : String).data.head? = some 'c' := rfl
        rw [this] at hc
        exact (Option.mem_some_iff.mp hc).symm ▸ rfl
      rw [hc2, hup 'c' (by decide)]
      rfl
    | cons a rest =>
      have ha : a.toNat < 128 := hn a (by simp)
      rw [hcons a rest] at hc
      have hc2 : c = L.ToLower a := by
        simpa [String.data_append, eq_comm] using hc
      rw [hc2, hlow a ha, hup _ (ascii_toLower a ha).1]
      exact (ascii_toLower a ha).2
  · intro s pkg h
    rw [h, hempty]

/-- C16, witness: `FooServiceV2` in the package `foo` gets the field `client`, and `FooV2Bar`
the field `fooV2BarClient`. -/
theorem grpcClientField_lower_witness :
    grpcClientField asciiLib (reduceServName asciiLib "FooServiceV2" "foo") = "client" ∧
    grpcClientField asciiLib "FooV2Bar" = "fooV2Bar" ++ "Client" :=
  ⟨(grpcClientField_lower asciiLib (fun _ _ => rfl) (fun _ _ => rfl)).2.2.2
      "FooServiceV2" "foo" (by decide),
   (grpcClientField_lower asciiLib (fun _ _ => rfl) (fun _ _ => rfl)).2.1 'F' "ooV2Bar".data⟩

namespace GenGoSample

/-! ## The initialization tree: lists and the heap -/

theorem indexOf?_eq_none_iff {keys : List String} {k : String} :
    keys.indexOf? k = none ↔ k ∉ keys := by
  unfold List.indexOf?
  rw [List.findIdx?_eq_none_iff]
  constructor
  · intro h hk
    have := h k hk
    simp at this
  · intro h x hx
    simp only [beq_eq_false_iff_ne, ne_eq]
    rintro rfl
    exact h hx

theorem indexOf?_append_self {keys : List String} {k : String} (h : k ∉ keys) :
    (keys ++ [k]).indexOf? k = some keys.length := by
  have hn := indexOf?_eq_none_iff.mpr h
  unfold List.indexOf? at hn ⊢
  rw [List.findIdx?_append, hn]
  simp

theorem indexOf?_of_prefix {keys keys2 : List String} {k : String} {i : Nat}
    (hp : keys <+: keys2) (h : keys.indexOf? k = some i) : keys2.indexOf? k = some i := by
  obtain ⟨rest, rfl⟩ := hp
  unfold List.indexOf? at h ⊢
  rw [List.findIdx?_append, h]
  rfl

theorem getElem?_of_prefix {vals vals2 : List Nat} {i v : Nat}
    (hp : vals <+: vals2) (h : vals[i]? = some v) : vals2[i]? = some v := by
  obtain ⟨rest, rfl⟩ := hp
  have hi : i < vals.length := by
    by_contra hc
    rw [List.getElem?_eq_none (by omega)] at h
    cases h
  rw [List.getElem?_append_left hi]
  exact h

/-- The heap after a node has been replaced and a new node allocated at the end. -/
theorem getElem?_alloc (h : Heap) (t : Nat) (x y : initTree) (ht : t < h.length) (u : Nat) :
    ((h.set t x) ++ [y])[u]? =
      if u = t then some x else if u = h.length then some y else h[u]? := by
  by_cases h1 : u = t
  · subst h1
    rw [if_pos rfl, List.getElem?_append_left (by simpa using ht)]
    simp [ht]
  · rw [if_neg h1]
    by_cases h2 : u = h.length
    · subst h2
      rw [if_pos rfl, List.getElem?_append_right (by simp)]
      simp
    · rw [if_neg h2]
      by_cases h3 : u < h.length
      · rw [List.getElem?_append_left (by simpa using h3), List.getElem?_set_ne (Ne.symm h1)]
      · rw [List.getElem?_eq_none (by simp; omega), List.getElem?_eq_none (by omega)]

theorem grows_refl (h : Heap) : grows h h :=
  fun _ node hn => ⟨node, hn, List.prefix_refl _, List.prefix_refl _⟩

theorem grows_trans {h1 h2 h3 : Heap} (h12 : grows h1 h2) (h23 : grows h2 h3) : grows h1 h3 := by
  intro t node hn
  obtain ⟨n2, hn2, hk2, hv2⟩ := h12 t node hn
  obtain ⟨n3, hn3, hk3, hv3⟩ := h23 t n2 hn2
  exact ⟨n3, hn3, hk2.trans hk3, hv2.trans hv3⟩

/-- Replacing a node by one with the same entries keeps the invariant and the entries. -/
theorem set_same_entries (h : Heap) (t : Nat) (node node2 : initTree)
    (hn : h[t]? = some node) (hk : node2.keys = node.keys) (hv : node2.vals = node.vals)
    (hinv : treeInvariant h) : treeInvariant (h.set t node2) ∧ grows h (h.set t node2) := by
  constructor
  · intro u n hu
    rw [List.getElem?_set] at hu
    split at hu
    · split at hu
      · cases hu
        rw [hk, hv]
        exact hinv t node hn
      · cases hu
    · exact hinv u n hu
  · intro u n hu
    by_cases hut : t = u
    · subst hut
      rw [hn] at hu
      cases hu
      refine ⟨node2, ?_, by rw [hk], by rw [hv]⟩
      have ht : t < h.length := by
        by_contra hc
        rw [List.getElem?_eq_none (by omega)] at hn
        cases hn
      simp [ht]
    · exact ⟨n, by rw [List.getElem?_set_ne hut]; exact hu, List.prefix_refl _,
        List.prefix_refl _⟩

/-- The path that leads to a node keeps leading to it when the heap grows. -/
theorem resolve_of_grows {h h2 : Heap} (hg : grows h h2) (names : List String) (t p : Nat)
    (hr : resolve h t names = some p) : resolve h2 t names = some p := by
  induction names generalizing t with
  | nil => exact hr
  | cons k ks ih =>
    unfold resolve at hr ⊢
    cases hn : h[t]? with
    | none => simp only [hn] at hr; cases hr
    | some node =>
      obtain ⟨node2, hn2, hk, hv⟩ := hg t node hn
      cases hi : node.keys.indexOf? k with
      | none => simp only [hn, hi] at hr; cases hr
      | some i =>
        cases hc : node.vals[i]? with
        | none => simp only [hn, hi, hc] at hr; cases hr
        | some child =>
          simp only [hn, hi, hc] at hr
          simp only [hn2, indexOf?_of_prefix hk hi, getElem?_of_prefix hv hc]
          exact ih child hr

end GenGoSample

namespace GenGoSample

/-! ## `initTree.get` -/

theorem lt_length_of_getElem? {h : Heap} {t : Nat} {node : initTree} (hn : h[t]? = some node) :
    t < h.length := by
  by_contra hc
  rw [List.getElem?_eq_none (by omega)] at hn
  cases hn

/-- Recording a new child under a key that the node does not have yet keeps the invariant
and the entries, and the key leads to the child. -/
theorem alloc_props (h : Heap) (t : Nat) (node child : initTree) (k : String)
    (hinv : treeInvariant h) (hn : h[t]? = some node) (hk : k ∉ node.keys)
    (hck : child.keys = []) (hcv : child.vals = []) :
    treeInvariant
      ((h.set t
        { node with keys := node.keys ++ [k], vals := node.vals ++ [h.length] }) ++ [child]) ∧
    grows h
      ((h.set t
        { node with keys := node.keys ++ [k], vals := node.vals ++ [h.length] }) ++ [child]) ∧
    resolve
      ((h.set t
        { node with keys := node.keys ++ [k], vals := node.vals ++ [h.length] }) ++ [child])
      t [k] = some h.length := by
  have ht := lt_length_of_getElem? hn
  obtain ⟨hnd, hlen⟩ := hinv t node hn
  refine ⟨?_, ?_, ?_⟩
  · intro u n hu
    rw [getElem?_alloc h t _ _ ht] at hu
    split at hu
    · cases hu
      refine ⟨?_, by simp [hlen]⟩
      exact List.Nodup.append hnd (List.nodup_singleton k) (by simpa using hk)
    · split at hu
      · cases hu
        simp [hck, hcv]
      · exact hinv u n hu
  · intro u n hu
    rw [getElem?_alloc h t _ _ ht]
    by_cases hut : u = t
    · subst hut
      rw [hn] at hu
      cases hu
      rw [if_pos rfl]
      exact ⟨_, rfl, List.prefix_append _ _, List.prefix_append _ _⟩
    · rw [if_neg hut, if_neg (by have := lt_length_of_getElem? hu; omega)]
      exact ⟨n, hu, List.prefix_refl _, List.prefix_refl _⟩
  · unfold resolve
    simp only [getElem?_alloc h t _ _ ht, if_true, indexOf?_append_self hk]
    rw [hlen, List.getElem?_append_right (le_refl _)]
    simp [resolve]

/-- A key that the node has leads `get` to the recorded child and leaves the heap as it
is. -/
theorem get_of_resolve (h : Heap) (t p : Nat) (k : String) (info : Info)
    (hr : resolve h t [k] = some p) : initTree.get h t k info = some (h, .ok p) := by
  unfold resolve at hr
  unfold initTree.get
  cases hn : h[t]? with
  | none => simp only [hn] at hr; cases hr
  | some node =>
    cases hi : node.keys.indexOf? k with
    | none => simp only [hn, hi] at hr; cases hr
    | some i =>
      cases hc : node.vals[i]? with
      | none => simp only [hn, hi, hc] at hr; cases hr
      | some child =>
        simp only [hn, hi, hc, resolve] at hr
        cases hr
        simp [hi, hc]

/-- What a call of `get` that returns leaves behind: on an error the heap as it was; on
success a heap that satisfies the invariant, in which every node kept its entries, and in
which the key leads to the child returned. -/
theorem get_props (h h1 : Heap) (t : Nat) (k : String) (info : Info)
    (r : Except error Nat) (hinv : treeInvariant h)
    (hget : initTree.get h t k info = some (h1, r)) :
    (∀ e, r = .error e → h1 = h) ∧
    (∀ p, r = .ok p → treeInvariant h1 ∧ grows h h1 ∧ resolve h1 t [k] = some p) := by
  unfold initTree.get at hget
  cases hn : h[t]? with
  | none => simp only [hn] at hget; cases hget
  | some node =>
    simp only [hn] at hget
    cases hi : node.keys.indexOf? k with
    | some i =>
      simp only [hi] at hget
      cases hc : node.vals[i]? with
      | none => simp [hc] at hget
      | some child =>
        simp only [hc, Option.map_some', Option.some.injEq, Prod.mk.injEq] at hget
        obtain ⟨rfl, rfl⟩ := hget
        refine ⟨fun e he => (by cases he), fun p hp => ?_⟩
        cases hp
        refine ⟨hinv, grows_refl _, ?_⟩
        simp [resolve, hn, hi, hc]
    | none =>
      have hk := indexOf?_eq_none_iff.mp hi
      simp only [hi] at hget
      split at hget
      · rename_i msg hdesc
        split at hget
        · simp only [Option.some.injEq, Prod.mk.injEq] at hget
          obtain ⟨rfl, rfl⟩ := hget
          exact ⟨fun _ _ => rfl, fun p hp => by cases hp⟩
        · rename_i f hf
          split at hget
          · split at hget
            · simp only [Option.some.injEq, Prod.mk.injEq] at hget
              obtain ⟨rfl, rfl⟩ := hget
              exact ⟨fun _ _ => rfl, fun p hp => by cases hp⟩
            · simp only [Option.some.injEq, Prod.mk.injEq] at hget
              obtain ⟨rfl, rfl⟩ := hget
              refine ⟨fun e he => (by cases he), fun p hp => ?_⟩
              cases hp
              exact alloc_props h t node _ k hinv hn hk rfl rfl
          · split at hget
            · simp only [Option.some.injEq, Prod.mk.injEq] at hget
              obtain ⟨rfl, rfl⟩ := hget
              exact ⟨fun _ _ => rfl, fun p hp => by cases hp⟩
            · simp only [Option.some.injEq, Prod.mk.injEq] at hget
              obtain ⟨rfl, rfl⟩ := hget
              refine ⟨fun e he => (by cases he), fun p hp => ?_⟩
              cases hp
              exact alloc_props h t node _ k hinv hn hk rfl rfl
      · simp only [Option.some.injEq, Prod.mk.injEq] at hget
        obtain ⟨rfl, rfl⟩ := hget
        exact ⟨fun _ _ => rfl, fun p hp => by cases hp⟩

end GenGoSample

namespace GenGoSample

/-! ## `parsePath` and `parseInit`: the invariant -/

/-- The loop of `parsePath` keeps the invariant and the entries of every node. -/
theorem parsePathLoop_props (info : Info) (fuel : Nat) (h h1 : Heap) (t : Nat)
    (sc sc1 : Scanner) (r : Except error (Nat × Token)) (hinv : treeInvariant h)
    (hp : parsePathLoop info fuel h t sc = some (h1, sc1, r)) :
    treeInvariant h1 ∧ grows h h1 := by
  induction fuel generalizing h t sc with
  | zero => simp [parsePathLoop] at hp
  | succ n ih =>
    unfold parsePathLoop at hp
    simp only at hp
    split at hp
    · split at hp
      · simp only [Option.some.injEq, Prod.mk.injEq] at hp
        obtain ⟨rfl, -, -⟩ := hp
        exact ⟨hinv, grows_refl _⟩
      · split at hp
        · cases hp
        · rename_i h2 err hget
          simp only [Option.some.injEq, Prod.mk.injEq] at hp
          obtain ⟨rfl, -, -⟩ := hp
          have := (get_props h h2 t _ info _ hinv hget).1 err rfl
          subst this
          exact ⟨hinv, grows_refl _⟩
        · rename_i h2 t2 hget
          obtain ⟨hinv2, hg2, -⟩ := (get_props h h2 t _ info _ hinv hget).2 t2 rfl
          obtain ⟨hinv1, hg1⟩ := ih h2 t2 _ hinv2 hp
          exact ⟨hinv1, grows_trans hg2 hg1⟩
    · simp only [Option.some.injEq, Prod.mk.injEq] at hp
      obtain ⟨rfl, -, -⟩ := hp
      exact ⟨hinv, grows_refl _⟩

/-- The part of `parseInit` behind the `=` keeps the invariant and the entries of every
node. -/
theorem parseValue_props (E : Env) (info : Info) (h h1 : Heap) (t : Nat) (sc : Scanner)
    (err : Option error) (hinv : treeInvariant h)
    (hp : parseValue E h t sc info = some (h1, err)) :
    treeInvariant h1 ∧ grows h h1 := by
  unfold parseValue at hp
  simp only at hp
  split at hp
  · cases hp
  · rename_i node hn
    split at hp
    · split at hp
      · simp only [Option.some.injEq, Prod.mk.injEq] at hp
        obtain ⟨rfl, -⟩ := hp
        exact ⟨hinv, grows_refl _⟩
      · split at hp
        · simp only [Option.some.injEq, Prod.mk.injEq] at hp
          obtain ⟨rfl, -⟩ := hp
          exact ⟨hinv, grows_refl _⟩
        · rename_i typ hchecked
          split at hp
          · simp only [Option.some.injEq, Prod.mk.injEq] at hp
            obtain ⟨rfl, -⟩ := hp
            exact set_same_entries h t node _ hn rfl rfl hinv
          · simp only [Option.some.injEq, Prod.mk.injEq] at hp
            obtain ⟨rfl, -⟩ := hp
            exact set_same_entries h t node _ hn rfl rfl hinv
    · simp only [Option.some.injEq, Prod.mk.injEq] at hp
      obtain ⟨rfl, -⟩ := hp
      exact ⟨hinv, grows_refl _⟩

/-- `parseInit` keeps the invariant and the entries of every node. -/
theorem parseInit_props (E : Env) (info : Info) (h h1 : Heap) (t : Nat) (txt : String)
    (err : Option error) (hinv : treeInvariant h)
    (hp : initTree.parseInit E h t txt info = some (h1, err)) :
    treeInvariant h1 ∧ grows h h1 := by
  unfold initTree.parseInit initTree.parsePath at hp
  simp only at hp
  split at hp
  · cases hp
  · rename_i h2 sc2 e hpath
    simp only [Option.some.injEq, Prod.mk.injEq] at hp
    obtain ⟨rfl, -⟩ := hp
    exact parsePathLoop_props info _ h _ t _ sc2 _ hinv hpath
  · rename_i h2 sc2 t2 r hpath
    obtain ⟨hinv2, hg2⟩ := parsePathLoop_props info _ h _ t _ sc2 _ hinv hpath
    split at hp
    · simp only [Option.some.injEq, Prod.mk.injEq] at hp
      obtain ⟨rfl, -⟩ := hp
      exact ⟨hinv2, hg2⟩
    · obtain ⟨hinv1, hg1⟩ := parseValue_props E info h2 h1 t2 sc2 err hinv2 hp
      exact ⟨hinv1, grows_trans hg2 hg1⟩

/-- A heap of one node without entries satisfies the invariant. -/
theorem treeInvariant_root (root : initTree) (hk : root.keys = []) (hv : root.vals = []) :
    treeInvariant [root] := by
  intro t node hn
  cases t with
  | zero =>
    simp only [List.getElem?_cons_zero, Option.some.injEq] at hn
    subst hn
    simp [hk, hv]
  | succ n => simp at hn

end GenGoSample

namespace GenGoSample

/-! ## `initTree.get`: the claims -/

/-- C19: for a node without a child under `k`, `get` succeeds exactly when the node's type is
a message whose field named `k` (the first one) has a primitive type or a type name found in
the registry; it fails with `does not have field` when the message has no field `k` and with
`type does not have fields` when the node's type is no message (a primitive or an enum);
it always returns, and a failure leaves the heap, so every node's keys and vals, as it
was. -/
theorem get_succeeds_iff (h : Heap) (t : Nat) (k : String) (info : Info) (node : initTree)
    (hn : h[t]? = some node) (hk : k ∉ node.keys) :
    ((∃ h1 p, initTree.get h t k info = some (h1, .ok p)) ↔
      ∃ msg f, node.typ.desc = some (.message msg) ∧
        msg.Field.find? (fun f => f.Name == k) = some f ∧
        ((f.TypeName = "" ∧ GetType f ≠ 0) ∨
          (f.TypeName ≠ "" ∧ ∃ typ, info.Type_.lookup f.TypeName = some typ))) ∧
    (∀ msg, node.typ.desc = some (.message msg) →
      msg.Field.find? (fun f => f.Name == k) = none →
      initTree.get h t k info =
        some (h, .error (errors.E none "type %q does not have field %q" [msg.Name, k]))) ∧
    ((∀ msg, node.typ.desc ≠ some (.message msg)) →
      initTree.get h t k info =
        some (h, .error (errors.E none "type does not have fields: %T"
          [typeString node.typ.desc]))) ∧
    (∃ h1 r, initTree.get h t k info = some (h1, r)) ∧
    (∀ h1 e, initTree.get h t k info = some (h1, .error e) → h1 = h) := by
  have hi := indexOf?_eq_none_iff.mpr hk
  cases hd : node.typ.desc with
  | none =>
    have hget : initTree.get h t k info =
        some (h, .error (errors.E none "type does not have fields: %T" [typeString none])) := by
      simp [initTree.get, hn, hi, hd]
    rw [hget]
    refine ⟨⟨?_, ?_⟩, ?_, ?_, ⟨_, _, rfl⟩, ?_⟩
    · rintro ⟨h1, p, hc⟩; cases hc
    · rintro ⟨msg, f, hc, -⟩; cases hc
    · intro msg hc; cases hc
    · intro _; rfl
    · intro h1 e hc; cases hc; rfl
  | some d =>
    cases d with
    | enum en =>
      have hget : initTree.get h t k info =
          some (h, .error (errors.E none "type does not have fields: %T"
            [typeString (some (.enum en))])) := by
        simp [initTree.get, hn, hi, hd]
      rw [hget]
      refine ⟨⟨?_, ?_⟩, ?_, ?_, ⟨_, _, rfl⟩, ?_⟩
      · rintro ⟨h1, p, hc⟩; cases hc
      · rintro ⟨msg, f, hc, -⟩; cases hc
      · intro msg hc; cases hc
      · intro _; rfl
      · intro h1 e hc; cases hc; rfl
    | message msg =>
      cases hf : msg.Field.find? (fun f => f.Name == k) with
      | none =>
        have hget : initTree.get h t k info =
            some (h, .error (errors.E none "type %q does not have field %q" [msg.Name, k])) := by
          simp [initTree.get, hn, hi, hd, hf]
        rw [hget]
        refine ⟨⟨?_, ?_⟩, ?_, ?_, ⟨_, _, rfl⟩, ?_⟩
        · rintro ⟨h1, p, hc⟩; cases hc
        · rintro ⟨msg2, f, hc, hf2, -⟩
          cases hc
          rw [hf] at hf2
          cases hf2
        · intro msg2 hc _
          cases hc
          rfl
        · intro hc; exact absurd rfl (hc msg)
        · intro h1 e hc; cases hc; rfl
      | some f =>
        by_cases htn : f.TypeName = ""
        · by_cases hty : GetType f = 0
          · have hget : initTree.get h t k info =
                some (h, .error (errors.E none "type %q does not have field %q"
                  [msg.Name, k])) := by
              simp [initTree.get, hn, hi, hd, hf, htn, hty]
            rw [hget]
            refine ⟨⟨?_, ?_⟩, ?_, ?_, ⟨_, _, rfl⟩, ?_⟩
            · rintro ⟨h1, p, hc⟩; cases hc
            · rintro ⟨msg2, f2, hc, hf2, hor⟩
              cases hc
              rw [hf] at hf2
              cases hf2
              rcases hor with ⟨-, h2⟩ | ⟨h2, -⟩
              · exact (h2 hty).elim
              · exact (h2 htn).elim
            · intro msg2 hc hf2
              cases hc
              exact absurd (hf.symm.trans hf2) (by simp)
            · intro hc; exact absurd rfl (hc msg)
            · intro h1 e hc; cases hc; rfl
          · have hget : initTree.get h t k info =
                some ((h.set t
                  { node with keys := node.keys ++ [k], vals := node.vals ++ [h.length] })
                  ++ [{ typ := { prim := GetType f } }], .ok h.length) := by
              simp [initTree.get, hn, hi, hd, hf, htn, hty]
            rw [hget]
            refine ⟨⟨fun _ => ⟨msg, f, rfl, hf, Or.inl ⟨htn, hty⟩⟩, fun _ => ⟨_, _, rfl⟩⟩,
              ?_, ?_, ⟨_, _, rfl⟩, ?_⟩
            · intro msg2 hc hf2
              cases hc
              exact absurd (hf.symm.trans hf2) (by simp)
            · intro hc; exact absurd rfl (hc msg)
            · intro h1 e hc; cases hc
        · cases hl : info.Type_.lookup f.TypeName with
          | none =>
            have hget : initTree.get h t k info =
                some (h, .error (errors.E none "cannot find descriptor of %q"
                  [f.TypeName])) := by
              simp [initTree.get, hn, hi, hd, hf, htn, hl]
            rw [hget]
            refine ⟨⟨?_, ?_⟩, ?_, ?_, ⟨_, _, rfl⟩, ?_⟩
            · rintro ⟨h1, p, hc⟩; cases hc
            · rintro ⟨msg2, f2, hc, hf2, hor⟩
              cases hc
              rw [hf] at hf2
              cases hf2
              rcases hor with ⟨h2, -⟩ | ⟨-, typ, h2⟩
              · exact (htn h2).elim
              · rw [hl] at h2; cases h2
            · intro msg2 hc hf2
              cases hc
              exact absurd (hf.symm.trans hf2) (by simp)
            · intro hc; exact absurd rfl (hc msg)
            · intro h1 e hc; cases hc; rfl
          | some typ =>
            have hget : initTree.get h t k info =
                some ((h.set t
                  { node with keys := node.keys ++ [k], vals := node.vals ++ [h.length] })
                  ++ [{ typ := { desc := some typ } }], .ok h.length) := by
              simp [initTree.get, hn, hi, hd, hf, htn, hl]
            rw [hget]
            refine ⟨⟨fun _ => ⟨msg, f, rfl, hf, Or.inr ⟨htn, typ, hl⟩⟩,
              fun _ => ⟨_, _, rfl⟩⟩, ?_, ?_, ⟨_, _, rfl⟩, ?_⟩
            · intro msg2 hc hf2
              cases hc
              exact absurd (hf.symm.trans hf2) (by simp)
            · intro hc; exact absurd rfl (hc msg)
            · intro h1 e hc; cases hc

/-- C19, witness: on the empty tree rooted at `R`, `get` of the field `a` succeeds and `get`
of `c` fails with `does not have field`. -/
theorem get_succeeds_iff_witness :
    (∃ h1 p, initTree.get [{ typ := { desc := some (.message msgR) } }] 0 "a" stubInfo =
      some (h1, .ok p)) ∧
    initTree.get [{ typ := { desc := some (.message msgR) } }] 0 "c" stubInfo =
      some ([{ typ := { desc := some (.message msgR) } }],
        .error (errors.E none "type %q does not have field %q" [msgR.Name, "c"])) :=
  ⟨(get_succeeds_iff [{ typ := { desc := some (.message msgR) } }] 0 "a" stubInfo
      { typ := { desc := some (.message msgR) } } rfl (by simp)).1.mpr
      ⟨msgR, { Name := "a", TypeName := ".my.pkg.A", Type_ := some 11 }, rfl, rfl,
        Or.inr ⟨by decide, .message msgA, rfl⟩⟩,
   (get_succeeds_iff [{ typ := { desc := some (.message msgR) } }] 0 "c" stubInfo
      { typ := { desc := some (.message msgR) } } rfl (by simp)).2.1 msgR rfl rfl⟩

/-- C20: on a heap that satisfies the invariant, a successful `get(k)` leaves a heap in which
every later `get(k)` on the same node, however the heap has grown since, returns the same
child and changes nothing; and `get`, `parsePath` and `parseInit` keep the invariant (the
keys of a node pairwise distinct, as many vals as keys) and the entries of every node in their
order. -/
theorem get_reuses_child (h : Heap) (info : Info) (hinv : treeInvariant h) :
    (∀ t k h1 p, initTree.get h t k info = some (h1, .ok p) →
      ∀ h2, grows h1 h2 → initTree.get h2 t k info = some (h2, .ok p)) ∧
    (∀ t k h1 r, initTree.get h t k info = some (h1, r) →
      treeInvariant h1 ∧ grows h h1) ∧
    (∀ t sc h1 sc1 r, initTree.parsePath h t sc info = some (h1, sc1, r) →
      treeInvariant h1 ∧ grows h h1) ∧
    (∀ E t txt h1 err, initTree.parseInit E h t txt info = some (h1, err) →
      treeInvariant h1 ∧ grows h h1) := by
  refine ⟨?_, ?_, ?_, ?_⟩
  · intro t k h1 p hget h2 hg
    obtain ⟨-, -, hr⟩ := (get_props h h1 t k info _ hinv hget).2 p rfl
    exact get_of_resolve h2 t p k info (resolve_of_grows hg [k] t p hr)
  · intro t k h1 r hget
    cases r with
    | error e =>
      have := (get_props h h1 t k info _ hinv hget).1 e rfl
      subst this
      exact ⟨hinv, grows_refl _⟩
    | ok p =>
      obtain ⟨h1inv, hg, -⟩ := (get_props h h1 t k info _ hinv hget).2 p rfl
      exact ⟨h1inv, hg⟩
  · intro t sc h1 sc1 r hp
    exact parsePathLoop_props info _ h h1 t sc sc1 r hinv hp
  · intro E t txt h1 err hp
    exact parseInit_props E info h h1 t txt err hinv hp

/-- C20, witness: on the empty tree rooted at `R`, `get` of `a` makes the child at address 1,
and a second `get` of `a` returns the address 1 and leaves the heap as it is. -/
theorem get_reuses_child_witness :
    initTree.get
      [{ typ := { desc := some (.message msgR) }, keys := ["a"], vals := [1] },
       { typ := { desc := some (.message msgA) } }] 0 "a" stubInfo =
      some ([{ typ := { desc := some (.message msgR) }, keys := ["a"], vals := [1] },
       { typ := { desc := some (.message msgA) } }], .ok 1) :=
  (get_reuses_child [{ typ := { desc := some (.message msgR) } }] stubInfo
    (treeInvariant_root _ rfl rfl)).1 0 "a" _ 1 rfl _ (grows_refl _)

end GenGoSample

namespace GenGoSample

/-! ## `parsePath` along a path -/

theorem error_foldl_fields (errs : List String) (sc : Scanner) :
    (errs.foldl Scanner.Error sc).toks = sc.toks ∧ (errs.foldl Scanner.Error sc).text = sc.text ∧
      (errs.foldl Scanner.Error sc).src = sc.src := by
  induction errs generalizing sc with
  | nil => exact ⟨rfl, rfl, rfl⟩
  | cons e es ih =>
    obtain ⟨h1, h2, h3⟩ := ih (Scanner.Error sc e)
    have hs : (Scanner.Error sc e).toks = sc.toks ∧ (Scanner.Error sc e).text = sc.text ∧
        (Scanner.Error sc e).src = sc.src := by
      unfold Scanner.Error Scanner.report
      cases sc.err <;> exact ⟨rfl, rfl, rfl⟩
    simp only [List.foldl_cons]
    exact ⟨h1.trans hs.1, h2.trans hs.2.1, h3.trans hs.2.2⟩

/-- What `Scan` yields on a scanner that has a token left. -/
theorem scan_cons (sc : Scanner) (tk : ScannedToken) (rest : List ScannedToken)
    (h : sc.toks = tk :: rest) :
    sc.Scan.1 = tk.tok ∧ sc.Scan.2.toks = rest ∧ sc.Scan.2.text = tk.text := by
  unfold Scanner.Scan
  rw [h]
  obtain ⟨h1, h2, -⟩ := error_foldl_fields tk.errs { sc with toks := rest, text := tk.text }
  exact ⟨rfl, h1, h2⟩

/-- What `Scan` yields on a token that was scanned without an error. -/
theorem scan_cons_clean (sc : Scanner) (tk : ScannedToken) (rest : List ScannedToken)
    (h : sc.toks = tk :: rest) (he : tk.errs = []) :
    sc.Scan = (tk.tok, { sc with toks := rest, text := tk.text }) := by
  unfold Scanner.Scan
  rw [h]
  simp [he]

theorem report_some_ne_none (sc : Scanner) (e : error) : (sc.report (some e)).2 ≠ none := by
  unfold Scanner.report
  cases sc.err <;> simp

theorem resolve_cons_of (h : Heap) (t c p : Nat) (k : String) (ks : List String)
    (h1 : resolve h t [k] = some c) (h2 : resolve h c ks = some p) :
    resolve h t (k :: ks) = some p := by
  unfold resolve at h1 ⊢
  cases hn : h[t]? with
  | none => simp only [hn] at h1; cases h1
  | some node =>
    cases hi : node.keys.indexOf? k with
    | none => simp only [hn, hi] at h1; cases h1
    | some i =>
      cases hc : node.vals[i]? with
      | none => simp only [hn, hi, hc] at h1; cases h1
      | some child =>
        simp only [hn, hi, hc, resolve, Option.some.injEq] at h1
        subst h1
        simp only [hi, hc]
        exact h2

theorem resolve_cons_inv (h : Heap) (t p : Nat) (k : String) (ks : List String)
    (hr : resolve h t (k :: ks) = some p) :
    ∃ c, resolve h t [k] = some c ∧ resolve h c ks = some p := by
  unfold resolve at hr
  cases hn : h[t]? with
  | none => simp only [hn] at hr; cases hr
  | some node =>
    cases hi : node.keys.indexOf? k with
    | none => simp only [hn, hi] at hr; cases hr
    | some i =>
      cases hc : node.vals[i]? with
      | none => simp only [hn, hi, hc] at hr; cases hr
      | some child =>
        simp only [hn, hi, hc] at hr
        exact ⟨child, by simp [resolve, hn, hi, hc], hr⟩

/-- When `parsePath` has read the tokens of a path up to a token other than a dot, that was
scanned without an error, and returns a node, then the path leads to that node in the new
heap, and the scanner stands behind that token. -/
theorem parsePathLoop_path (info : Info) (names : List String) (fuel : Nat) (h h1 : Heap)
    (t p : Nat) (sc sc1 : Scanner) (tk : ScannedToken) (rest : List ScannedToken) (r : Token)
    (hinv : treeInvariant h) (htoks : sc.toks = pathTokens names ++ tk :: rest)
    (htk : tk.tok ≠ .Char '.') (hte : tk.errs = []) (hfuel : names.length < fuel)
    (hp : parsePathLoop info fuel h t sc = some (h1, sc1, .ok (p, r))) :
    resolve h1 t names = some p ∧ r = tk.tok ∧
      sc1 = { sc with toks := rest, text := tk.text } := by
  induction names generalizing fuel h t sc with
  | nil =>
    cases fuel with
    | zero => omega
    | succ n =>
      unfold parsePathLoop at hp
      have hs := scan_cons_clean sc tk rest (by simpa [pathTokens] using htoks) hte
      simp only [hs, if_neg htk, Option.some.injEq, Prod.mk.injEq, Except.ok.injEq] at hp
      obtain ⟨rfl, rfl, rfl, rfl⟩ := hp
      exact ⟨rfl, rfl, rfl⟩
  | cons k ks ih =>
    cases fuel with
    | zero => omega
    | succ n =>
      unfold parsePathLoop at hp
      have ht1 : sc.toks = dotToken :: ({ tok := .Ident, text := k } ::
          (pathTokens ks ++ tk :: rest)) := by
        simpa [pathTokens] using htoks
      have hs1 := scan_cons_clean sc _ _ ht1 rfl
      have hs2 := scan_cons_clean
        { sc with toks := { tok := .Ident, text := k } :: (pathTokens ks ++ tk :: rest),
                  text := dotToken.text }
        { tok := .Ident, text := k } (pathTokens ks ++ tk :: rest) rfl rfl
      simp only [hs1, dotToken, if_true] at hp hs2
      simp only [hs2, ne_eq, not_true_eq_false, if_false] at hp
      split at hp
      · cases hp
      · cases hp
      · rename_i h2 t2 hget
        obtain ⟨hinv2, -, hr2⟩ := (get_props h h2 t k info _ hinv hget).2 t2 rfl
        obtain ⟨hr, hrt, hsc⟩ := ih n h2 t2 _ hinv2 rfl (by simpa using hfuel) hp
        obtain ⟨-, hg⟩ := parsePathLoop_props info n h2 h1 t2 _ sc1 _ hinv2 hp
        exact ⟨resolve_cons_of h1 t t2 p k ks (resolve_of_grows hg [k] t t2 hr2) hr, hrt, hsc⟩

/-- When the path already leads to a node, `parsePath` returns that node and leaves the heap
as it is. -/
theorem parsePathLoop_cached (info : Info) (names : List String) (fuel : Nat) (h : Heap)
    (t p : Nat) (sc : Scanner) (tk : ScannedToken) (rest : List ScannedToken)
    (hr : resolve h t names = some p) (htoks : sc.toks = pathTokens names ++ tk :: rest)
    (htk : tk.tok ≠ .Char '.') (hte : tk.errs = []) (hfuel : names.length < fuel) :
    parsePathLoop info fuel h t sc =
      some (h, { sc with toks := rest, text := tk.text }, .ok (p, tk.tok)) := by
  induction names generalizing fuel t sc with
  | nil =>
    cases fuel with
    | zero => omega
    | succ n =>
      unfold parsePathLoop
      have hs := scan_cons_clean sc tk rest (by simpa [pathTokens] using htoks) hte
      simp only [resolve, Option.some.injEq] at hr
      subst hr
      simp only [hs, if_neg htk]
  | cons k ks ih =>
    cases fuel with
    | zero => omega
    | succ n =>
      obtain ⟨c, hc1, hc2⟩ := resolve_cons_inv h t p k ks hr
      unfold parsePathLoop
      have ht1 : sc.toks = dotToken :: ({ tok := .Ident, text := k } ::
          (pathTokens ks ++ tk :: rest)) := by
        simpa [pathTokens] using htoks
      have hs1 := scan_cons_clean sc _ _ ht1 rfl
      have hs2 := scan_cons_clean
        { sc with toks := { tok := .Ident, text := k } :: (pathTokens ks ++ tk :: rest),
                  text := dotToken.text }
        { tok := .Ident, text := k } (pathTokens ks ++ tk :: rest) rfl rfl
      simp only [hs1, dotToken, if_true] at hs2 ⊢
      simp only [hs2, ne_eq, not_true_eq_false, if_false, get_of_resolve h t c k info hc1]
      exact ih n c _ hc2 rfl (by simpa using hfuel)

end GenGoSample

namespace GenGoSample

/-! ## `parseInit`: the value -/

/-- When the part of `parseInit` behind the `=` returns nil, the node had no value and now
holds the text of the token scanned. -/
theorem parseValue_ok (E : Env) (info : Info) (h h1 : Heap) (t : Nat) (sc : Scanner)
    (vTok : ScannedToken) (rest : List ScannedToken) (htoks : sc.toks = vTok :: rest)
    (hp : parseValue E h t sc info = some (h1, none)) :
    ∃ node typ, h[t]? = some node ∧ node.leafVal = "" ∧
      h1 = h.set t { node with typ := typ, leafVal := vTok.text } := by
  obtain ⟨-, -, htext⟩ := scan_cons sc vTok rest htoks
  unfold parseValue at hp
  simp only at hp
  split at hp
  · cases hp
  · rename_i node hn
    split at hp
    · split at hp
      · simp only [Option.some.injEq, Prod.mk.injEq] at hp
        exact absurd hp.2 (report_some_ne_none _ _)
      · rename_i hleaf
        split at hp
        · simp only [Option.some.injEq, Prod.mk.injEq] at hp
          exact absurd hp.2 (report_some_ne_none _ _)
        · rename_i typ hchecked
          split at hp
          · simp only [Option.some.injEq, Prod.mk.injEq] at hp
            exact absurd hp.2 (report_some_ne_none _ _)
          · simp only [Option.some.injEq, Prod.mk.injEq] at hp
            refine ⟨node, typ, hn, by simpa using hleaf, ?_⟩
            rw [← hp.1, htext]
    · simp only [Option.some.injEq, Prod.mk.injEq] at hp
      exact absurd hp.2 (report_some_ne_none _ _)

theorem pathTokens_length (names : List String) :
    (pathTokens names).length = 2 * names.length := by
  induction names with
  | nil => rfl
  | cons k ks ih =>
    have : pathTokens (k :: ks) = dotToken :: { tok := .Ident, text := k } :: pathTokens ks := rfl
    rw [this]
    simp only [List.length_cons, ih]
    omega

/-- After a successful `parseInit` of a path, `=` and a value, the path leads to a node that
holds the text of the value. -/
theorem leaf_after_parseInit (E : Env) (info : Info) (h h1 : Heap) (t : Nat) (txt : String)
    (names : List String) (vTok : ScannedToken) (rest : List ScannedToken)
    (hinv : treeInvariant h)
    (htok : E.tokenize ("." ++ txt) = pathTokens names ++ eqToken :: vTok :: rest)
    (hp : initTree.parseInit E h t txt info = some (h1, none)) :
    ∃ p node, resolve h1 t names = some p ∧ h1[p]? = some node ∧ node.leafVal = vTok.text := by
  unfold initTree.parseInit initTree.parsePath at hp
  simp only at hp
  split at hp
  · cases hp
  · simp only [Option.some.injEq, Prod.mk.injEq] at hp
    exact absurd hp.2 (report_some_ne_none _ _)
  · rename_i h2 sc2 p r hpath
    split at hp
    · simp only [Option.some.injEq, Prod.mk.injEq] at hp
      exact absurd hp.2 (report_some_ne_none _ _)
    · have hlen : names.length < (initScanner E ("." ++ txt)).toks.length + 1 := by
        simp only [initScanner, htok, List.length_append, pathTokens_length]
        omega
      obtain ⟨hr, -, hsc⟩ := parsePathLoop_path info names _ h h2 t p _ sc2 eqToken
        (vTok :: rest) r hinv htok (by decide) rfl hlen hpath
      obtain ⟨hinv2, -⟩ := parsePathLoop_props info _ h h2 t _ sc2 _ hinv hpath
      have htoks2 : sc2.toks = vTok :: rest := by rw [hsc]
      obtain ⟨node, typ, hn, -, hh1⟩ := parseValue_ok E info h2 h1 p sc2 vTok rest htoks2 hp
      obtain ⟨-, hg⟩ := set_same_entries h2 p node
        { node with typ := typ, leafVal := vTok.text } hn rfl rfl hinv2
      rw [← hh1] at hg
      refine ⟨p, { node with typ := typ, leafVal := vTok.text }, resolve_of_grows hg names t p hr,
        ?_, rfl⟩
      rw [hh1]
      simp [lt_length_of_getElem? hn]

/-- C18: after a successful `parseInit` of a path, `=` and a value `v`, a `parseInit` of the
same path, `=` and a value `w` on the same tree fails with `value already set` to `v`, and
leaves the tree as it is: the path still leads to the node that holds `v`.  The values are
tokens of a literal class, the text of `v` is not empty, and `w` is scanned without an
error. -/
theorem parseInit_twice (E : Env) (info : Info) (h h1 : Heap) (t : Nat) (txt1 txt2 : String)
    (names : List String) (vTok wTok : ScannedToken) (rest1 rest2 : List ScannedToken)
    (hinv : treeInvariant h)
    (htok1 : E.tokenize ("." ++ txt1) = pathTokens names ++ eqToken :: vTok :: rest1)
    (hv : vTok.text ≠ "")
    (hp : initTree.parseInit E h t txt1 info = some (h1, none))
    (htok2 : E.tokenize ("." ++ txt2) = pathTokens names ++ eqToken :: wTok :: rest2)
    (hw : wTok.tok = .Int ∨ wTok.tok = .Float ∨ wTok.tok = .String ∨ wTok.tok = .Ident)
    (hwe : wTok.errs = []) :
    initTree.parseInit E h1 t txt2 info =
      some (h1, some (errors.E none "value already set to %q" [vTok.text])) ∧
    ∃ p node, resolve h1 t names = some p ∧ h1[p]? = some node ∧
      node.leafVal = vTok.text := by
  obtain ⟨p, node, hr, hn, hleaf⟩ :=
    leaf_after_parseInit E info h h1 t txt1 names vTok rest1 hinv htok1 hp
  refine ⟨?_, p, node, hr, hn, hleaf⟩
  have hlen : names.length < (initScanner E ("." ++ txt2)).toks.length + 1 := by
    simp only [initScanner, htok2, List.length_append, pathTokens_length]
    omega
  have hpath := parsePathLoop_cached info names _ h1 t p (initScanner E ("." ++ txt2)) eqToken
    (wTok :: rest2) hr htok2 (by decide) rfl hlen
  unfold initTree.parseInit initTree.parsePath
  simp only [hpath, eqToken, ne_eq, not_true_eq_false, if_false]
  unfold parseValue
  have hs := scan_cons_clean
    { initScanner E ("." ++ txt2) with toks := wTok :: rest2, text := "=" } wTok rest2 rfl hwe
  have hne : node.leafVal ≠ "" := by rw [hleaf]; exact hv
  simp only [hs, hn, hw, if_true, hne, ne_eq, not_false_eq_true, hleaf]
  rw [if_pos hv]
  rfl

end GenGoSample

namespace GenGoSample

/-- C18, witness: after `a.b=5` on the empty tree rooted at `R`, `a.b=6` fails with `value
already set` to `5`. -/
theorem parseInit_twice_witness :
    initTree.parseInit stubEnv
      [{ typ := { desc := some (.message msgR) }, keys := ["a"], vals := [1] },
       { typ := { desc := some (.message msgA) }, keys := ["b"], vals := [2] },
       { typ := { prim := 5 }, leafVal := "5" }] 0 "a.b=6" stubInfo =
      some ([{ typ := { desc := some (.message msgR) }, keys := ["a"], vals := [1] },
       { typ := { desc := some (.message msgA) }, keys := ["b"], vals := [2] },
       { typ := { prim := 5 }, leafVal := "5" }],
       some (errors.E none "value already set to %q" ["5"])) :=
  (parseInit_twice stubEnv stubInfo [{ typ := { desc := some (.message msgR) } }] _ 0
    "a.b=5" "a.b=6" ["a", "b"] { tok := .Int, text := "5" } { tok := .Int, text := "6" } [] []
    (treeInvariant_root _ rfl rfl) rfl (by decide) rfl rfl (Or.inl rfl) rfl).1

/-! ## `parseInit` and `Print` -/

/-- The tree after `a.b=5` on the empty tree rooted at `R`. -/
theorem parseInit_a_b_5 (E : Env) (info : Info) (R A : DescriptorProto)
    (fa fb : FieldDescriptorProto) (validInt : String → Bool)
    (htok : E.tokenize ".a.b=5" =
      pathTokens ["a", "b"] ++ [eqToken, { tok := .Int, text := "5" }])
    (hvalid : E.validPrims 5 = some validInt) (hfive : validInt "5" = true)
    (hfa : R.Field.find? (fun f => f.Name == "a") = some fa) (hta : fa.TypeName ≠ "")
    (hreg : info.Type_.lookup fa.TypeName = some (.message A))
    (hfb : A.Field.find? (fun f => f.Name == "b") = some fb) (htb : fb.TypeName = "")
    (hint : GetType fb = 5) :
    initTree.parseInit E [{ typ := { desc := some (.message R) } }] 0 "a.b=5" info =
      some ([{ typ := { desc := some (.message R) }, keys := ["a"], vals := [1] },
        { typ := { desc := some (.message A) }, keys := ["b"], vals := [2] },
        { typ := { prim := 5 }, leafVal := "5" }], none) := by
  simp [initTree.parseInit, initTree.parsePath, initScanner, htok, pathTokens, parsePathLoop,
    Scanner.Scan, dotToken, eqToken, initTree.get, hfa, hta, hreg, hfb, htb, hint, parseValue,
    hvalid, hfive, Scanner.report, List.indexOf?]

/-- The text printed for the tree after `a.b=5`, when neither field is in a one-of
group. -/
theorem print_a_b_5 (L : GoLib) (g : generator) (R A : DescriptorProto)
    (specR specA : importSpec) (pkg : String) (oR oA : List (String × String))
    (hfmt : ∀ x y, L.Sprintf "&%s.%s\x7b\n" [x, y] = "&" ++ x ++ "." ++ y ++ "\x7b\n")
    (hupA : L.ToUpper 'a' = 'A') (hupB : L.ToUpper 'b' = 'B')
    (hoR : oneofsOf R = some oR) (hoRa : oR.lookup "a" = none)
    (hoA : oneofsOf A = some oA) (hoAb : oA.lookup "b" = none)
    (hiR : g.descInfo.ImportSpec (some (.message R)) = .ok specR) (hnR : specR.name = pkg)
    (hiA : g.descInfo.ImportSpec (some (.message A)) = .ok specA) (hnA : specA.name = pkg) :
    initTree.Print L
      [{ typ := { desc := some (.message R) }, keys := ["a"], vals := [1] },
        { typ := { desc := some (.message A) }, keys := ["b"], vals := [2] },
        { typ := { prim := 5 }, leafVal := "5" }] 0 g =
      some ("&" ++ pkg ++ "." ++ R.Name ++ "\x7b\n\tA: &" ++ pkg ++ "." ++ A.Name ++
          "\x7b\n\t\tB: 5,\n\t\x7d,\n\x7d",
        { g with imports := addImport (addImport g.imports specR) specA }, none) := by
  simp [initTree.Print, initTree.print, hiR, hiA, hoR, hoA, printFields, hoRa, hoAb, hfmt,
    ProtoType.GetName, snakeToCapCamel, snakeToCapCamelLoop, hupA, hupB, indent, hnR, hnA]
  apply String.ext
  simp [String.data_append, String.data_push]

/-- C17 (as amended): for a root message `R` with a message-typed field `a` of type `A` that
has an int32 field `b`, where neither `a` nor `b` belongs to a one-of group, `parseInit` of
`a.b=5` on the empty tree rooted at `R` succeeds and `Print` then renders the nested literal
with `5` at the path `a.b`; and after every successful `parseInit` of a path, `=` and a value
the path leads to a node that holds exactly the text of the value. -/
theorem parseInit_print_roundtrip (L : GoLib) (E : Env) (info : Info) (g : generator)
    (R A : DescriptorProto) (fa fb : FieldDescriptorProto) (validInt : String → Bool)
    (specR specA : importSpec) (pkg : String) (oR oA : List (String × String))
    (hfmt : ∀ x y, L.Sprintf "&%s.%s\x7b\n" [x, y] = "&" ++ x ++ "." ++ y ++ "\x7b\n")
    (hupA : L.ToUpper 'a' = 'A') (hupB : L.ToUpper 'b' = 'B')
    (htok : E.tokenize ".a.b=5" =
      pathTokens ["a", "b"] ++ [eqToken, { tok := .Int, text := "5" }])
    (hvalid : E.validPrims 5 = some validInt) (hfive : validInt "5" = true)
    (hfa : R.Field.find? (fun f => f.Name == "a") = some fa) (hta : fa.TypeName ≠ "")
    (hreg : info.Type_.lookup fa.TypeName = some (.message A))
    (hfb : A.Field.find? (fun f => f.Name == "b") = some fb) (htb : fb.TypeName = "")
    (hint : GetType fb = 5)
    (hoR : oneofsOf R = some oR) (hoRa : oR.lookup "a" = none)
    (hoA : oneofsOf A = some oA) (hoAb : oA.lookup "b" = none)
    (hiR : g.descInfo.ImportSpec (some (.message R)) = .ok specR) (hnR : specR.name = pkg)
    (hiA : g.descInfo.ImportSpec (some (.message A)) = .ok specA) (hnA : specA.name = pkg) :
    (∃ h1 g1,
      initTree.parseInit E [{ typ := { desc := some (.message R) } }] 0 "a.b=5" info =
        some (h1, none) ∧
      initTree.Print L h1 0 g =
        some ("&" ++ pkg ++ "." ++ R.Name ++ "\x7b\n\tA: &" ++ pkg ++ "." ++ A.Name ++
          "\x7b\n\t\tB: 5,\n\t\x7d,\n\x7d", g1, none)) ∧
    (∀ (h h1 : Heap) (t : Nat) (txt : String) (names : List String) (vTok : ScannedToken)
      (rest : List ScannedToken), treeInvariant h →
      E.tokenize ("." ++ txt) = pathTokens names ++ eqToken :: vTok :: rest →
      initTree.parseInit E h t txt info = some (h1, none) →
      ∃ p node, resolve h1 t names = some p ∧ h1[p]? = some node ∧
        node.leafVal = vTok.text) :=
  ⟨⟨_, _, parseInit_a_b_5 E info R A fa fb validInt htok hvalid hfive hfa hta hreg hfb htb hint,
      print_a_b_5 L g R A specR specA pkg oR oA hfmt hupA hupB hoR hoRa hoA hoAb hiR hnR hiA
        hnA⟩,
    fun h h1 t txt names vTok rest hinv htok2 hp =>
      leaf_after_parseInit E info h h1 t txt names vTok rest hinv htok2 hp⟩

/-- The ASCII library formats a reference to a type as Go does. -/
theorem asciiLib_sprintf_ref (x y : String) :
    asciiLib.Sprintf "&%s.%s\x7b\n" [x, y] = "&" ++ x ++ "." ++ y ++ "\x7b\n" := by
  apply String.ext
  simp [asciiLib, sprintfChars, String.data_append]

/-- C17, witness: the messages `R` and `A` of package `my.pkg`, imported as `pkg`. -/
theorem parseInit_print_roundtrip_witness :
    ∃ h1 g1,
      initTree.parseInit stubEnv [{ typ := { desc := some (.message msgR) } }] 0 "a.b=5"
        stubInfo = some (h1, none) ∧
      initTree.Print asciiLib h1 0 { descInfo := stubInfo } =
        some ("&" ++ "pkg" ++ "." ++ msgR.Name ++ "\x7b\n\tA: &" ++ "pkg" ++ "." ++ msgA.Name ++
          "\x7b\n\t\tB: 5,\n\t\x7d,\n\x7d", g1, none) :=
  (parseInit_print_roundtrip asciiLib stubEnv stubInfo { descInfo := stubInfo } msgR msgA
    { Name := "a", TypeName := ".my.pkg.A", Type_ := some 11 } { Name := "b", Type_ := some 5 }
    (fun tok => tok.data.all Char.isDigit && !tok.data.isEmpty)
    { path := "example.com/pkg", name := "pkg" } { path := "example.com/pkg", name := "pkg" }
    "pkg" [] [] asciiLib_sprintf_ref rfl rfl rfl rfl rfl rfl (by decide) rfl rfl rfl rfl rfl rfl
    rfl rfl rfl rfl rfl rfl).1

/-- C17, counterexample: when the field `a` of `R` belongs to the one-of group `choice`,
`parseInit` of `a.b=5` succeeds and `Print` wraps the field in the constructor of the group, so
the text is not the one of the claim. -/
theorem parseInit_print_roundtrip_counterexample :
    ¬ ∃ h1 g1,
      initTree.parseInit stubEnv [{ typ := { desc := some (.message msgROneof) } }] 0 "a.b=5"
        stubInfo = some (h1, none) ∧
      initTree.Print asciiLib h1 0 { descInfo := stubInfo } =
        some ("&pkg.R\x7b\n\tA: &pkg.A\x7b\n\t\tB: 5,\n\t\x7d,\n\x7d", g1, none) := by
  rintro ⟨h1, g1, hp, hprint⟩
  have hp2 : initTree.parseInit stubEnv [{ typ := { desc := some (.message msgROneof) } }] 0
      "a.b=5" stubInfo =
      some ([{ typ := { desc := some (.message msgROneof) }, keys := ["a"], vals := [1] },
        { typ := { desc := some (.message msgA) }, keys := ["b"], vals := [2] },
        { typ := { prim := 5 }, leafVal := "5" }], none) := rfl
  rw [hp2] at hp
  simp only [Option.some.injEq, Prod.mk.injEq, and_true] at hp
  subst hp
  have hprint2 : (initTree.Print asciiLib
      [{ typ := { desc := some (.message msgROneof) }, keys := ["a"], vals := [1] },
        { typ := { desc := some (.message msgA) }, keys := ["b"], vals := [2] },
        { typ := { prim := 5 }, leafVal := "5" }] 0 { descInfo := stubInfo }).map (·.1) =
      some "&pkg.R\x7b\n\tChoice: &pkg.R_A\x7b\n\t\tA: &pkg.A\x7b\n\t\tB: 5,\n\t\x7d,\n\t\x7d,\n\x7d" :=
    rfl
  rw [hprint] at hprint2
  have hne : ("&pkg.R\x7b\n\tA: &pkg.A\x7b\n\t\tB: 5,\n\t\x7d,\n\x7d" : String) ≠
      "&pkg.R\x7b\n\tChoice: &pkg.R_A\x7b\n\t\tA: &pkg.A\x7b\n\t\tB: 5,\n\t\x7d,\n\t\x7d,\n\x7d" := by
    decide
  exact hne (Option.some.inj hprint2)

end GenGoSample

/-! ## `generator.reset` -/

theorem foldl_deleteImport_subset (order imports : List importSpec) :
    ∀ k ∈ order.foldl deleteImport imports, k ∈ imports ∧ k ∉ order := by
  induction order generalizing imports with
  | nil => intro k hk; exact ⟨hk, by simp⟩
  | cons a rest ih =>
    intro k hk
    obtain ⟨h1, h2⟩ := ih (deleteImport imports a) k hk
    simp only [deleteImport, List.mem_filter, ne_eq, decide_eq_true_eq] at h1
    exact ⟨h1.1, by simp [h1.2, h2]⟩

/-- C25: `reset` empties the buffer, sets the indentation level to 0 and leaves no entry in
the import set, in whatever order its loop visits the keys, and it leaves the type index,
`parentFile`, the comments and the committed files as they are. -/
theorem reset_clears (g : generator) :
    g.reset.sb = "" ∧ g.reset.in_ = 0 ∧ g.reset.imports = [] ∧
    (∀ order : List importSpec, order.Perm g.imports → g.resetIn order = g.reset) ∧
    g.reset.types = g.types ∧ g.reset.parentFile = g.parentFile ∧
    g.reset.comments = g.comments ∧ g.reset.resp = g.resp := by
  have hall : ∀ order : List importSpec, order.Perm g.imports →
      order.foldl deleteImport g.imports = [] := by
    intro order hp
    rw [List.eq_nil_iff_forall_not_mem]
    intro k hk
    obtain ⟨h1, h2⟩ := foldl_deleteImport_subset order g.imports k hk
    exact h2 (hp.mem_iff.mpr h1)
  refine ⟨rfl, rfl, hall _ (List.Perm.refl _), ?_, rfl, rfl, rfl, rfl⟩
  intro order hp
  simp only [generator.reset, generator.resetIn, hall order hp, hall _ (List.Perm.refl _)]

/-- C25, witness: a generator with text, the level 2 and two imports, the keys visited in the
other order. -/
theorem reset_clears_witness :
    ({ sb := "x", in_ := 2, imports := [{ path := "a" }, { path := "b" }] } : generator).resetIn
        [{ path := "b" }, { path := "a" }] =
      ({ sb := "x", in_ := 2, imports := [{ path := "a" }, { path := "b" }] } : generator).reset ∧
    ({ sb := "x", in_ := 2, imports := [{ path := "a" }, { path := "b" }] } : generator).reset.imports
      = [] :=
  ⟨(reset_clears { sb := "x", in_ := 2, imports := [{ path := "a" }, { path := "b" }] }).2.2.2.1
      [{ path := "b" }, { path := "a" }] (List.Perm.swap _ _ _),
   (reset_clears { sb := "x", in_ := 2, imports := [{ path := "a" }, { path := "b" }] }).2.2.1⟩
/-! ## `snakeToCamel` and `camelToSnake` -/

theorem snakeToCapCamelLoop_eq (L : GoLib) (rs : List Char) (up : Bool) :
    GenGoSample.snakeToCapCamelLoop L rs up = snakeToCamelLoop L rs up := by
  induction rs generalizing up with
  | nil => rfl
  | cons r rs ih =>
    unfold GenGoSample.snakeToCapCamelLoop snakeToCamelLoop
    simp only [ih]

theorem snakeToCamelLoop_spec (L : GoLib) (rs : List Char) (prev : Option Char) :
    snakeToCamelLoop L rs (decide (prev = none ∨ prev = some '_')) = capCamelSpec L prev rs := by
  induction rs generalizing prev with
  | nil => rfl
  | cons r rs ih =>
    unfold snakeToCamelLoop capCamelSpec
    by_cases hr : r = '_'
    · subst hr
      have := ih (some '_')
      simp only [Option.some.injEq, or_true, decide_True, reduceCtorEq, false_or] at this
      simp [this]
    · have := ih (some r)
      simp only [reduceCtorEq, Option.some.injEq, hr, or_self, decide_False] at this
      by_cases hp : prev = none ∨ prev = some '_'
      · simp [hr, hp, this]
      · simp [hr, hp, this]

theorem snakeToCamelLoop_no_underscore (L : GoLib) (hup : ∀ r, r ≠ '_' → L.ToUpper r ≠ '_')
    (rs : List Char) (up : Bool) : '_' ∉ snakeToCamelLoop L rs up := by
  induction rs generalizing up with
  | nil => simp [snakeToCamelLoop]
  | cons r rs ih =>
    unfold snakeToCamelLoop
    by_cases hr : r = '_'
    · simp only [hr, if_true]
      exact ih true
    · simp only [hr, if_false]
      cases up with
      | true =>
        simp only [if_true, List.mem_cons, not_or]
        exact ⟨fun e => hup r hr e.symm, ih false⟩
      | false =>
        simp only [Bool.false_eq_true, if_false, List.mem_cons, not_or]
        exact ⟨fun e => hr e.symm, ih false⟩

theorem ascii_toUpper_aux : ∀ n : Nat, n < 128 →
    Char.ofNat n ≠ '_' → (Char.ofNat n).toUpper ≠ '_' := by
  decide

/-- Upper-casing by the ASCII table never gives an underscore. -/
theorem ascii_toUpper_ne_underscore (r : Char) (h : r ≠ '_') : r.toUpper ≠ '_' := by
  by_cases hr : r.toNat < 128
  · have := ascii_toUpper_aux r.toNat hr
    rw [Char.ofNat_toNat] at this
    exact this h
  · have : r.toUpper = r := by
      unfold Char.toUpper
      simp only
      rw [if_neg (by omega)]
    rw [this]
    exact h

/-- C28: `snakeToCapCamel` of the init-tree printer and `snakeToCamel` of the generator give
the same string for every input; it is the input with every underscore dropped and the first
character and every character directly behind an underscore upper-cased; and it holds no
underscore, as upper-casing gives none. -/
theorem snakeToCapCamel_eq_snakeToCamel (L : GoLib) (s : String) :
    GenGoSample.snakeToCapCamel L s = snakeToCamel L s ∧
    snakeToCamel L s = ⟨capCamelSpec L none s.data⟩ ∧
    ((∀ r, r ≠ '_' → L.ToUpper r ≠ '_') → '_' ∉ (snakeToCamel L s).data) := by
  refine ⟨?_, ?_, ?_⟩
  · simp only [GenGoSample.snakeToCapCamel, snakeToCamel, snakeToCapCamelLoop_eq]
  · have := snakeToCamelLoop_spec L s.data none
    simp only [true_or, decide_True] at this
    simp only [snakeToCamel, this]
  · intro hup
    exact snakeToCamelLoop_no_underscore L hup s.data true

/-- C28, witness: `page_size` and `_next__page_token`. -/
theorem snakeToCapCamel_eq_snakeToCamel_witness :
    GenGoSample.snakeToCapCamel asciiLib "page_size" = snakeToCamel asciiLib "page_size" ∧
    '_' ∉ (snakeToCamel asciiLib "_next__page_token").data :=
  ⟨(snakeToCapCamel_eq_snakeToCamel asciiLib "page_size").1,
   (snakeToCapCamel_eq_snakeToCamel asciiLib "_next__page_token").2.2
     ascii_toUpper_ne_underscore⟩

theorem ascii_alnum_aux : ∀ n : Nat, n < 128 → (Char.ofNat n).isAlphanum = true →
    ((Char.ofNat n).isUpper = true →
      (Char.ofNat n).toLower.toUpper = Char.ofNat n ∧ (Char.ofNat n).toLower ≠ '_') ∧
    ((Char.ofNat n).isUpper = false →
      (Char.ofNat n).toLower = Char.ofNat n ∧ Char.ofNat n ≠ '_') := by
  decide

theorem alnum_ascii (c : Char) (h : c.isAlphanum = true) : c.toNat < 128 := by
  simp only [Char.isAlphanum, Char.isAlpha, Char.isUpper, Char.isLower, Char.isDigit,
    Bool.or_eq_true, Bool.and_eq_true, decide_eq_true_eq] at h
  have h1 : ∀ n : UInt32, c.val ≤ n → c.toNat ≤ n.toNat := fun n hn => hn
  rcases h with (h | h) | h
  · have := h1 _ h.2
    exact Nat.lt_of_le_of_lt this (by decide)
  · have := h1 _ h.2
    exact Nat.lt_of_le_of_lt this (by decide)
  · have := h1 _ h.2
    exact Nat.lt_of_le_of_lt this (by decide)

/-- Facts about an ASCII letter or digit: an upper-case one is got back by upper-casing its
lower-case form, which is no underscore; another one is its own lower-case form and no
underscore. -/
theorem alnum_cases (c : Char) (h : c.isAlphanum = true) :
    (c.isUpper = true → c.toLower.toUpper = c ∧ c.toLower ≠ '_') ∧
    (c.isUpper = false → c.toLower = c ∧ c ≠ '_') := by
  have := ascii_alnum_aux c.toNat (alnum_ascii c h)
  rw [Char.ofNat_toNat] at this
  exact this h

theorem roundtrip_loop (L : GoLib)
    (hisup : ∀ c : Char, c.toNat < 128 → L.IsUpper c = c.isUpper)
    (hlow : ∀ c : Char, c.toNat < 128 → L.ToLower c = c.toLower)
    (hupp : ∀ c : Char, c.toNat < 128 → L.ToUpper c = c.toUpper)
    (rs : List Char) (i : Nat) (up : Bool) (hs : ∀ c ∈ rs, c.isAlphanum = true)
    (hfirst : up = true → i = 0 ∧ ∀ c ∈ rs.head?, c.isUpper = true)
    (hrest : up = false → i ≠ 0) :
    snakeToCamelLoop L (camelToSnakeLoop L rs i) up = rs := by
  induction rs generalizing i up with
  | nil => rfl
  | cons r rs ih =>
    have hr := hs r (by simp)
    have hascii := alnum_ascii r hr
    have hpos : i + r.utf8Size ≠ 0 := by
      have := Char.utf8Size_pos r
      omega
    have hih := ih (i + r.utf8Size) false (fun c hc => hs c (by simp [hc]))
      (fun h => by cases h) (fun _ => hpos)
    have hlowascii := (ascii_toLower r hascii).1
    unfold camelToSnakeLoop
    rw [hisup r hascii, hlow r hascii]
    cases hU : r.isUpper with
    | true =>
      obtain ⟨h1, h2⟩ := (alnum_cases r hr).1 hU
      cases up with
      | true =>
        have hi : i = 0 := (hfirst rfl).1
        subst hi
        simp only [ne_eq, not_true_eq_false, and_false, if_false, List.nil_append]
        unfold snakeToCamelLoop
        simp only [h2, if_false, if_true, hupp _ hlowascii, h1]
        rw [hih]
      | false =>
        have hi : i ≠ 0 := hrest rfl
        simp only [ne_eq, hi, not_false_eq_true, and_self, if_true, List.singleton_append]
        unfold snakeToCamelLoop
        simp only [if_true]
        unfold snakeToCamelLoop
        simp only [h2, if_false, if_true, hupp _ hlowascii, h1]
        rw [hih]
    | false =>
      obtain ⟨h1, h2⟩ := (alnum_cases r hr).2 hU
      cases up with
      | true =>
        have := (hfirst rfl).2 r (by simp)
        rw [hU] at this
        cases this
      | false =>
        simp only [Bool.false_eq_true, false_and, if_false, List.nil_append, h1]
        unfold snakeToCamelLoop
        simp only [h2, if_false, Bool.false_eq_true]
        rw [hih]

theorem camelToSnakeLoop_lower (L : GoLib)
    (hisup : ∀ c : Char, c.toNat < 128 → L.IsUpper c = c.isUpper)
    (hlow : ∀ c : Char, c.toNat < 128 → L.ToLower c = c.toLower)
    (rs : List Char) (i : Nat) (hs : ∀ c ∈ rs, c.isAlphanum = true) :
    ∀ c ∈ camelToSnakeLoop L rs i, L.IsUpper c = false := by
  induction rs generalizing i with
  | nil => intro c hc; simp [camelToSnakeLoop] at hc
  | cons r rs ih =>
    have hascii := alnum_ascii r (hs r (by simp))
    intro c hc
    unfold camelToSnakeLoop at hc
    rw [List.mem_append, List.mem_cons] at hc
    rcases hc with hc | hc | hc
    · split at hc
      · simp only [List.mem_singleton] at hc
        subst hc
        rw [hisup '_' (by decide)]
        rfl
      · simp at hc
    · subst hc
      rw [hlow r hascii, hisup _ (ascii_toLower r hascii).1]
      exact (ascii_toLower r hascii).2
    · exact ih (i + r.utf8Size) (fun c hc => hs c (by simp [hc])) c hc

/-- C29: for a string of ASCII letters and digits that is empty or starts with an upper-case
letter, `snakeToCamel` of `camelToSnake` is the string itself, and `camelToSnake` of it holds
no upper-case letter and does not start with an underscore.  The library is taken to agree
with the ASCII tables on ASCII. -/
theorem camelToSnake_roundtrip (L : GoLib)
    (hisup : ∀ c : Char, c.toNat < 128 → L.IsUpper c = c.isUpper)
    (hlow : ∀ c : Char, c.toNat < 128 → L.ToLower c = c.toLower)
    (hupp : ∀ c : Char, c.toNat < 128 → L.ToUpper c = c.toUpper)
    (s : String) (hs : ∀ c ∈ s.data, c.isAlphanum = true)
    (hfirst : ∀ c ∈ s.data.head?, c.isUpper = true) :
    snakeToCamel L (camelToSnake L s) = s ∧
    (∀ c ∈ (camelToSnake L s).data, L.IsUpper c = false) ∧
    (camelToSnake L s).data.head? ≠ some '_' := by
  refine ⟨?_, ?_, ?_⟩
  · unfold snakeToCamel camelToSnake
    simp only
    rw [roundtrip_loop L hisup hlow hupp s.data 0 true hs (fun _ => ⟨rfl, hfirst⟩)
      (fun h => by cases h)]
  · exact camelToSnakeLoop_lower L hisup hlow s.data 0 hs
  · unfold camelToSnake
    simp only
    cases hd : s.data with
    | nil => simp [camelToSnakeLoop]
    | cons r rs =>
      have hr : r.isAlphanum = true := hs r (by simp [hd])
      have hascii := alnum_ascii r hr
      have hU : r.isUpper = true := hfirst r (by simp [hd])
      unfold camelToSnakeLoop
      simp only [ne_eq, not_true_eq_false, and_false, if_false, List.nil_append, List.head?_cons,
        Option.some.injEq]
      rw [hlow r hascii]
      exact ((alnum_cases r hr).1 hU).2

/-- C29, witness: `FooBar2Baz` becomes `foo_bar2_baz` and comes back. -/
theorem camelToSnake_roundtrip_witness :
    snakeToCamel asciiLib (camelToSnake asciiLib "FooBar2Baz") = "FooBar2Baz" ∧
    (∀ c ∈ (camelToSnake asciiLib "FooBar2Baz").data, asciiLib.IsUpper c = false) ∧
    (camelToSnake asciiLib "FooBar2Baz").data.head? ≠ some '_' :=
  camelToSnake_roundtrip asciiLib (fun _ _ => rfl) (fun _ _ => rfl) (fun _ _ => rfl)
    "FooBar2Baz" (by decide) (by decide)

/-! ## `generator.unaryCall` -/

/-- What a call of `printf` that returns leaves behind: the level moved by the braces of the
format, and everything but the buffer and the level as it was. -/
theorem printf_frame (L : GoLib) (g g1 : generator) (s : String) (a : List String)
    (h : g.printf L s a = some g1) :
    g1.in_ = g.in_ + fmtDelta s ∧ g1.imports = g.imports ∧ g1.resp = g.resp ∧
      g1.types = g.types ∧ g1.parentFile = g.parentFile ∧ g1.comments = g.comments := by
  unfold generator.printf at h
  simp only at h
  split at h
  · rename_i hs
    simp only [Option.some.injEq] at h
    subst h
    simp [fmtDelta, hs, countLeading, countTrailing]
  · split at h
    · cases h
    · simp only [Option.some.injEq] at h
      subst h
      refine ⟨?_, rfl, rfl, rfl, rfl, rfl⟩
      simp only [fmtDelta]
      omega

/-- A call of `printf` returns when the format has no more leading closing braces than the
level. -/
theorem printf_isSome (L : GoLib) (g : generator) (s : String) (a : List String)
    (h : (countLeading (TrimSpace s).data '\x7d' : Int) ≤ g.in_) :
    ∃ g1, g.printf L s a = some g1 := by
  unfold generator.printf
  simp only
  split
  · exact ⟨_, rfl⟩
  · obtain ⟨h1, -⟩ := tabsLoop_tabs
      (g.in_ - (countLeading (TrimSpace s).data '\x7d' : Nat)).toNat g.sb
      (g.in_ - (countLeading (TrimSpace s).data '\x7d' : Nat)) (by omega) (le_refl _)
    rw [if_neg (by omega)]
    exact ⟨_, rfl⟩

theorem printLines_frame (L : GoLib) (lines : List (String × List String)) (g g1 : generator)
    (h : g.printLines L lines = some g1) :
    g1.in_ = g.in_ + (lines.map fun l => fmtDelta l.1).sum ∧ g1.imports = g.imports ∧
      g1.resp = g.resp ∧ g1.types = g.types ∧ g1.parentFile = g.parentFile ∧
      g1.comments = g.comments := by
  induction lines generalizing g with
  | nil =>
    simp only [generator.printLines, List.foldlM_nil, Option.pure_def, Option.some.injEq] at h
    subst h
    simp
  | cons l rest ih =>
    simp only [generator.printLines, List.foldlM_cons, Option.bind_eq_bind,
      Option.bind_eq_some] at h
    obtain ⟨g2, h2, h3⟩ := h
    obtain ⟨a1, a2, a3, a4, a5, a6⟩ := printf_frame L g g2 l.1 l.2 h2
    obtain ⟨b1, b2, b3, b4, b5, b6⟩ := ih g2 h3
    refine ⟨?_, b2.trans a2, b3.trans a3, b4.trans a4, b5.trans a5, b6.trans a6⟩
    rw [b1, a1, List.map_cons, List.sum_cons]
    omega

theorem printLines_isSome (L : GoLib) (lines : List (String × List String)) (g : generator)
    (k : Int) (hk : k ≤ g.in_) (hok : levelsOk k (lines.map fun l => l.1) = true) :
    ∃ g1, g.printLines L lines = some g1 := by
  induction lines generalizing g k with
  | nil => exact ⟨g, rfl⟩
  | cons l rest ih =>
    simp only [List.map_cons, levelsOk, Bool.and_eq_true, decide_eq_true_eq] at hok
    obtain ⟨g2, h2⟩ := printf_isSome L g l.1 l.2 (by omega)
    obtain ⟨a1, -⟩ := printf_frame L g g2 l.1 l.2 h2
    obtain ⟨g1, h1⟩ := ih g2 (k + fmtDelta l.1) (by omega) hok.2
    refine ⟨g1, ?_⟩
    simp only [generator.printLines, List.foldlM_cons, Option.bind_eq_bind, h2, Option.some_bind]
    exact h1

/-- The body of `unaryCall` behind the import specs is a run of calls of `printf`. -/
theorem unaryCall_eq_printLines (L : GoLib) (g : generator) (servName : String)
    (m : MethodDescriptorProto) (inSpec outSpec : importSpec) (inT outT : DescriptorProto)
    (hinT : g.types.lookup m.InputType = some inT) (houtT : g.types.lookup m.OutputType = some outT)
    (hin : g.importSpec (some (.message inT)) = some (.ok inSpec))
    (hout : g.importSpec (some (.message outT)) = some (.ok outSpec)) :
    g.unaryCall L servName m =
      (g.printLines L (unaryCallLines L servName m inSpec outSpec inT outT)).map fun g1 =>
        ({ g1 with imports := addImport (addImport g1.imports inSpec) outSpec }, none) := by
  unfold generator.unaryCall
  simp only [hinT, houtT, Option.map_some', hin, hout, generator.insertMetadata,
    generator.appendCallOpts]
  unfold unaryCallLines
  simp only [generator.printLines, List.foldlM_cons, Option.bind_eq_bind]
  cases g.printf L _ _ with
  | none => rfl
  | some g1 =>
    simp only [Option.some_bind]
    cases g1.printf L _ _ with
    | none => rfl
    | some g2 => simp only [Option.some_bind]

theorem unaryCallLines_delta (L : GoLib) (servName : String) (m : MethodDescriptorProto)
    (inSpec outSpec : importSpec) (inT outT : DescriptorProto) :
    ((unaryCallLines L servName m inSpec outSpec inT outT).map fun l => fmtDelta l.1).sum = 0 ∧
    levelsOk 0 ((unaryCallLines L servName m inSpec outSpec inT outT).map fun l => l.1) = true := by
  constructor
  · simp only [unaryCallLines, List.map_cons, List.map_nil, List.sum_cons, List.sum_nil]
    decide
  · simp only [unaryCallLines, List.map_cons, List.map_nil]
    decide

/-- The function `importSpec` always returns. -/
theorem importSpec_total (g : generator) (x : Option ProtoMessage) :
    ∃ r, g.importSpec x = some r := by
  unfold generator.importSpec
  simp only
  split
  · exact ⟨_, rfl⟩
  · split
    · exact ⟨_, rfl⟩
    · obtain ⟨spec, hs⟩ := importSpecLoop_isSome
        (GetGoPackage (GetOptions (x.bind fun k => g.parentFile.lookup k))).data
      exact ⟨.ok spec, by
        have hl : ∀ s : String, s.length = s.data.length := fun _ => rfl
        rw [hl, hs]
        rfl⟩

/-- Without an owning file with a go_package option, in particular for a type that is not
in the registry, `importSpec` returns an error. -/
theorem importSpec_error_of_empty (g : generator) (x : Option ProtoMessage)
    (h : GetGoPackage (GetOptions (x.bind fun k => g.parentFile.lookup k)) = "") :
    g.importSpec x = some (.error (errors.E none
      "can't determine import path, file %q missing `option go_package`"
      [GetName (x.bind fun k => g.parentFile.lookup k)])) := by
  unfold generator.importSpec
  simp only [h, if_true]

theorem importSpec_ok_ne_none (g : generator) (x : Option DescriptorProto) (spec : importSpec)
    (h : g.importSpec (x.map .message) = some (.ok spec)) : ∃ d, x = some d := by
  cases x with
  | some d => exact ⟨d, rfl⟩
  | none =>
    rw [Option.map_none', importSpec_error_of_empty g none rfl] at h
    cases h

theorem mem_addImport (imports : List importSpec) (a b : importSpec) :
    a ∈ addImport imports b ↔ a ∈ imports ∨ a = b := by
  unfold addImport
  split
  · constructor
    · exact fun h => Or.inl h
    · rintro (h | h)
      · exact h
      · subst h; assumption
  · simp

/-- C26: `unaryCall` always leaves the generator as it was when it returns an error, and it
returns the error of `importSpec` for the input type or, when that one resolves, for the
output type; `importSpec` fails for a type that is not in the registry and for one whose
owning file has no go_package option.  When `unaryCall` returns nil, the level is the one
before the call and both import specs are in the import set; and it does return nil when
both import specs resolve and the level is not negative. -/
theorem unaryCall_atomic (L : GoLib) (g : generator) (servName : String)
    (m : MethodDescriptorProto) :
    (∀ e, g.importSpec ((g.types.lookup m.InputType).map .message) = some (.error e) →
      g.unaryCall L servName m = some (g, some e)) ∧
    (∀ inSpec e, g.importSpec ((g.types.lookup m.InputType).map .message) = some (.ok inSpec) →
      g.importSpec ((g.types.lookup m.OutputType).map .message) = some (.error e) →
      g.unaryCall L servName m = some (g, some e)) ∧
    (∀ x : Option DescriptorProto,
      (x = none ∨ GetGoPackage (GetOptions
        ((x.map ProtoMessage.message).bind fun k => g.parentFile.lookup k)) = "") →
      ∃ e, g.importSpec (x.map .message) = some (.error e)) ∧
    (∀ g1 e, g.unaryCall L servName m = some (g1, some e) → g1 = g) ∧
    (∀ g1, g.unaryCall L servName m = some (g1, none) →
      g1.in_ = g.in_ ∧ ∃ inSpec outSpec,
        g.importSpec ((g.types.lookup m.InputType).map .message) = some (.ok inSpec) ∧
        g.importSpec ((g.types.lookup m.OutputType).map .message) = some (.ok outSpec) ∧
        inSpec ∈ g1.imports ∧ outSpec ∈ g1.imports) ∧
    (∀ inSpec outSpec, 0 ≤ g.in_ →
      g.importSpec ((g.types.lookup m.InputType).map .message) = some (.ok inSpec) →
      g.importSpec ((g.types.lookup m.OutputType).map .message) = some (.ok outSpec) →
      ∃ g1, g.unaryCall L servName m = some (g1, none)) := by
  have herrIn : ∀ e, g.importSpec ((g.types.lookup m.InputType).map .message) =
      some (.error e) → g.unaryCall L servName m = some (g, some e) := by
    intro e he
    unfold generator.unaryCall
    simp only [he]
  have herrOut : ∀ inSpec e,
      g.importSpec ((g.types.lookup m.InputType).map .message) = some (.ok inSpec) →
      g.importSpec ((g.types.lookup m.OutputType).map .message) = some (.error e) →
      g.unaryCall L servName m = some (g, some e) := by
    intro inSpec e hi he
    unfold generator.unaryCall
    simp only [hi, he]
  have hok : ∀ inSpec outSpec,
      g.importSpec ((g.types.lookup m.InputType).map .message) = some (.ok inSpec) →
      g.importSpec ((g.types.lookup m.OutputType).map .message) = some (.ok outSpec) →
      ∃ inT outT, g.unaryCall L servName m =
        (g.printLines L (unaryCallLines L servName m inSpec outSpec inT outT)).map fun g1 =>
          ({ g1 with imports := addImport (addImport g1.imports inSpec) outSpec }, none) := by
    intro inSpec outSpec hi ho
    obtain ⟨inT, hinT⟩ := importSpec_ok_ne_none g _ inSpec hi
    obtain ⟨outT, houtT⟩ := importSpec_ok_ne_none g _ outSpec ho
    rw [hinT, Option.map_some'] at hi
    rw [houtT, Option.map_some'] at ho
    exact ⟨inT, outT, unaryCall_eq_printLines L g servName m inSpec outSpec inT outT hinT houtT
      hi ho⟩
  refine ⟨herrIn, herrOut, ?_, ?_, ?_, ?_⟩
  · intro x hx
    refine ⟨_, importSpec_error_of_empty g _ ?_⟩
    rcases hx with hx | hx
    · subst hx; rfl
    · exact hx
  · intro g1 e hr
    obtain ⟨ri, hi⟩ := importSpec_total g ((g.types.lookup m.InputType).map .message)
    cases ri with
    | error ei =>
      rw [herrIn ei hi] at hr
      simp only [Option.some.injEq, Prod.mk.injEq] at hr
      exact hr.1.symm
    | ok inSpec =>
      obtain ⟨ro, ho⟩ := importSpec_total g ((g.types.lookup m.OutputType).map .message)
      cases ro with
      | error eo =>
        rw [herrOut inSpec eo hi ho] at hr
        simp only [Option.some.injEq, Prod.mk.injEq] at hr
        exact hr.1.symm
      | ok outSpec =>
        obtain ⟨inT, outT, heq⟩ := hok inSpec outSpec hi ho
        rw [heq] at hr
        cases hp : g.printLines L (unaryCallLines L servName m inSpec outSpec inT outT) with
        | none => rw [hp] at hr; cases hr
        | some g2 =>
          rw [hp] at hr
          simp at hr
  · intro g1 hr
    obtain ⟨ri, hi⟩ := importSpec_total g ((g.types.lookup m.InputType).map .message)
    cases ri with
    | error ei =>
      rw [herrIn ei hi] at hr
      simp at hr
    | ok inSpec =>
      obtain ⟨ro, ho⟩ := importSpec_total g ((g.types.lookup m.OutputType).map .message)
      cases ro with
      | error eo =>
        rw [herrOut inSpec eo hi ho] at hr
        simp at hr
      | ok outSpec =>
        obtain ⟨inT, outT, heq⟩ := hok inSpec outSpec hi ho
        rw [heq] at hr
        cases hp : g.printLines L (unaryCallLines L servName m inSpec outSpec inT outT) with
        | none => rw [hp] at hr; cases hr
        | some g2 =>
          rw [hp] at hr
          simp only [Option.map_some', Option.some.injEq, Prod.mk.injEq, and_true] at hr
          subst hr
          obtain ⟨a1, -⟩ := printLines_frame L _ g g2 hp
          rw [(unaryCallLines_delta L servName m inSpec outSpec inT outT).1] at a1
          refine ⟨by simpa using a1, inSpec, outSpec, hi, ho, ?_, ?_⟩
          · exact (mem_addImport _ _ _).mpr (Or.inl ((mem_addImport _ _ _).mpr (Or.inr rfl)))
          · exact (mem_addImport _ _ _).mpr (Or.inr rfl)
  · intro inSpec outSpec h0 hi ho
    obtain ⟨inT, outT, heq⟩ := hok inSpec outSpec hi ho
    obtain ⟨g2, hp⟩ := printLines_isSome L (unaryCallLines L servName m inSpec outSpec inT outT) g
      0 h0 (unaryCallLines_delta L servName m inSpec outSpec inT outT).2
    exact ⟨_, by rw [heq, hp]; rfl⟩

/-- C26, witness: for `GetOneThing` on the generator of `TestGenMethod` at the level 0,
`unaryCall` returns nil; on the empty generator, where no type is registered, it returns an
error and the generator as it was. -/
theorem unaryCall_atomic_witness :
    (∃ g1, testGenerator.unaryCall asciiLib "Foo" getOneThing = some (g1, none)) ∧
    (∃ e, ({} : generator).unaryCall asciiLib "Foo" getOneThing = some ({}, some e)) :=
  ⟨(unaryCall_atomic asciiLib testGenerator "Foo" getOneThing).2.2.2.2.2
      { path := "mypackage", name := "mypackagepb" } { path := "mypackage", name := "mypackagepb" }
      (by decide) rfl rfl,
   ⟨_, (unaryCall_atomic asciiLib {} "Foo" getOneThing).1 _ rfl⟩⟩

/-! ## `generator.comment` and `generator.methodDoc` -/

/-- A call of `printf` with a format that is trimmed, starts with no closing brace and ends
with no opening brace writes the tabs of the level, the formatted text and a newline. -/
theorem printf_line (L : GoLib) (g : generator) (s : String) (a : List String)
    (hin : 0 ≤ g.in_) (hs : TrimSpace s = s) (hne : s ≠ "")
    (hl : countLeading s.data '\x7d' = 0) (ht : countTrailing s.data '\x7b' = 0) :
    g.printf L s a = some { g with
      sb := g.sb ++ (⟨List.replicate g.in_.toNat '\t'⟩ ++ L.Sprintf s a ++ "\n") } := by
  obtain ⟨h1, h2⟩ := tabsLoop_tabs g.in_.toNat g.sb g.in_ hin (le_refl _)
  unfold generator.printf
  simp only [hs, if_neg hne, hl, ht, Nat.cast_zero, sub_zero, add_zero]
  rw [if_neg (by omega)]
  congr 2
  apply String.ext
  simp only [String.data_push, String.data_append, h2]
  simp only [List.append_assoc]

theorem comment_fold (L : GoLib) (lines : List String) (g : generator) (hin : 0 ≤ g.in_)
    (hfmt : ∀ l, L.Sprintf "// %s" [l] = "// " ++ l) (hfmt0 : L.Sprintf "//" [] = "//") :
    lines.foldlM (fun g l =>
      if TrimSpace l = "" then g.printf L "//" [] else g.printf L "// %s" [TrimSpace l]) g =
      some { g with sb := g.sb ++ (lines.map (commentLine g.in_.toNat)).foldr (· ++ ·) "" } := by
  induction lines generalizing g with
  | nil =>
    simp only [List.foldlM_nil, List.map_nil, List.foldr_nil, Option.pure_def,
      String.append_empty]
  | cons l rest ih =>
    have hstep : (if TrimSpace l = "" then g.printf L "//" [] else
        g.printf L "// %s" [TrimSpace l]) =
        some { g with sb := g.sb ++ commentLine g.in_.toNat l } := by
      unfold commentLine
      split
      · rw [printf_line L g "//" [] hin (by decide) (by decide) (by decide) (by decide), hfmt0]
      · rw [printf_line L g "// %s" _ hin (by decide) (by decide) (by decide) (by decide), hfmt]
    have hrest := ih { g with sb := g.sb ++ commentLine g.in_.toNat l } hin
    simp only [List.foldlM_cons, hstep, Option.bind_eq_bind, Option.some_bind]
    rw [hrest]
    simp only [Option.some.injEq, List.map_cons, List.foldr_cons, String.append_assoc]

/-- A trimmed text that is not empty starts and ends with a character that is no white
space. -/
theorem trimSpace_ends (s : String) (r : Char) (rest : List Char)
    (h : (TrimSpace s).data = r :: rest) :
    IsSpace r = false ∧ (rest = [] ∨ ∃ init z, rest = init ++ [z] ∧ IsSpace z = false) := by
  unfold TrimSpace at h
  simp only at h
  constructor
  · obtain ⟨t, ht⟩ := List.rdropWhile_prefix IsSpace (l := s.data.dropWhile IsSpace)
    rw [h] at ht
    have hh := List.head?_dropWhile_not IsSpace s.data
    rw [← ht] at hh
    simpa using hh
  · have hne : (s.data.dropWhile IsSpace).rdropWhile IsSpace ≠ [] := by rw [h]; simp
    have hlast := List.rdropWhile_last_not IsSpace (s.data.dropWhile IsSpace) hne
    rcases List.eq_nil_or_concat rest with hr | ⟨init, z, hr⟩
    · exact Or.inl hr
    · rw [List.concat_eq_append] at hr
      refine Or.inr ⟨init, z, hr, ?_⟩
      have hl : ((s.data.dropWhile IsSpace).rdropWhile IsSpace).getLast hne = z := by
        simp only [h, hr]
        simp
      rw [hl] at hlast
      simpa using hlast

/-- A text that starts and ends with a character that is no white space is trimmed. -/
theorem trimSpace_eq_self (a z : Char) (mid : List Char) (ha : IsSpace a = false)
    (hz : IsSpace z = false) : TrimSpace ⟨a :: (mid ++ [z])⟩ = ⟨a :: (mid ++ [z])⟩ := by
  unfold TrimSpace
  apply String.ext
  simp only
  rw [List.dropWhile_cons_of_neg (by simp [ha]), ← List.cons_append,
    List.rdropWhile_concat_neg _ _ _ (by simp [hz])]

/-- The text `N + " " + lowerFirst(com)` of `methodDoc` is trimmed when the name starts with
a character that is no white space and lower-casing gives no white space. -/
theorem docText_trimmed (L : GoLib) (name com : String) (n0 : Char) (ns : List Char)
    (hlow : ∀ r, IsSpace r = false → IsSpace (L.ToLower r) = false)
    (hname : name.data = n0 :: ns) (hn0 : IsSpace n0 = false) (hcom : TrimSpace com ≠ "") :
    TrimSpace (name ++ " " ++ lowerFirst L (TrimSpace com)) =
      name ++ " " ++ lowerFirst L (TrimSpace com) := by
  cases hd : (TrimSpace com).data with
  | nil => exact absurd (String.ext hd) hcom
  | cons r rest =>
    obtain ⟨hr, hrest⟩ := trimSpace_ends com r rest hd
    have hlf : lowerFirst L (TrimSpace com) = ⟨L.ToLower r :: rest⟩ := by
      simp only [lowerFirst, hd]
    rw [hlf]
    rcases hrest with hrest | ⟨init, z, hrest, hz⟩
    · subst hrest
      have he : name ++ " " ++ (⟨[L.ToLower r]⟩ : String) =
          ⟨n0 :: ((ns ++ [' ']) ++ [L.ToLower r])⟩ :=
        String.ext (by simp [String.data_append, hname])
      rw [he]
      exact trimSpace_eq_self n0 _ _ hn0 (hlow r hr)
    · subst hrest
      have he : name ++ " " ++ (⟨L.ToLower r :: (init ++ [z])⟩ : String) =
          ⟨n0 :: ((ns ++ ' ' :: L.ToLower r :: init) ++ [z])⟩ :=
        String.ext (by simp [String.data_append, hname])
      rw [he]
      exact trimSpace_eq_self n0 _ _ hn0 hz

theorem comment_eq (L : GoLib) (C : Collab) (g : generator) (s : String) (hin : 0 ≤ g.in_)
    (hfmt : ∀ l, L.Sprintf "// %s" [l] = "// " ++ l) (hfmt0 : L.Sprintf "//" [] = "//")
    (hs : TrimSpace s ≠ "") (hmd : C.MDPlain (TrimSpace s) = TrimSpace s) :
    g.comment L C s = some { g with sb := g.sb ++ commentText g.in_.toNat (TrimSpace s) } := by
  unfold generator.comment
  simp only [if_neg hs, hmd]
  exact comment_fold L _ g hin hfmt hfmt0

/-- C24: at a level that is not negative, with the markdown conversion the identity on the
text at hand: `comment` of a text that is empty once trimmed writes nothing, and of another
text it writes one output line per line of the trimmed text, the tabs of the level, then
`//` for a line that is empty once trimmed and `// ` with the trimmed line otherwise;
`methodDoc` writes nothing for a method whose comment is missing, empty or white space, and
otherwise it writes in this way the text `N + " " + c'`, `c'` the trimmed comment with its
first character lower-cased, `N` the method name, which starts with a character that is no
white space. -/
theorem methodDoc_text (L : GoLib) (C : Collab) (g : generator) (m : MethodDescriptorProto)
    (hin : 0 ≤ g.in_)
    (hfmt : ∀ l, L.Sprintf "// %s" [l] = "// " ++ l) (hfmt0 : L.Sprintf "//" [] = "//") :
    (∀ s, TrimSpace s = "" → g.comment L C s = some g) ∧
    (∀ s, TrimSpace s ≠ "" → C.MDPlain (TrimSpace s) = TrimSpace s →
      g.comment L C s = some { g with sb := g.sb ++ commentText g.in_.toNat (TrimSpace s) }) ∧
    (TrimSpace ((g.comments.lookup (.method m)).getD "") = "" → g.methodDoc L C m = some g) ∧
    (∀ c', c' = lowerFirst L (TrimSpace ((g.comments.lookup (.method m)).getD "")) →
      TrimSpace ((g.comments.lookup (.method m)).getD "") ≠ "" →
      (∀ r, IsSpace r = false → IsSpace (L.ToLower r) = false) →
      (∀ c ∈ m.Name.data.head?, IsSpace c = false) → m.Name ≠ "" →
      C.MDPlain (m.Name ++ " " ++ c') = m.Name ++ " " ++ c' →
      g.methodDoc L C m =
        some { g with sb := g.sb ++ commentText g.in_.toNat (m.Name ++ " " ++ c') }) := by
  refine ⟨?_, ?_, ?_, ?_⟩
  · intro s hs
    unfold generator.comment
    simp only [hs, if_true]
  · intro s hs hmd
    exact comment_eq L C g s hin hfmt hfmt0 hs hmd
  · intro hc
    unfold generator.methodDoc
    simp only [hc, if_true]
  · intro c' hc' hcom hlow hname hne hmd
    subst hc'
    cases hd : m.Name.data with
    | nil => exact absurd (String.ext hd) hne
    | cons n0 ns =>
      have hn0 : IsSpace n0 = false := hname n0 (by simp [hd])
      have htrim := docText_trimmed L m.Name _ n0 ns hlow hd hn0 hcom
      have hne2 : TrimSpace (m.Name ++ " " ++
          lowerFirst L (TrimSpace ((g.comments.lookup (.method m)).getD ""))) ≠ "" := by
        rw [htrim]
        intro he
        have := congrArg String.data he
        simp [String.data_append, hd] at this
      unfold generator.methodDoc
      simp only [if_neg hcom]
      have := comment_eq L C g _ hin hfmt hfmt0 hne2 (by rw [htrim]; exact hmd)
      rw [htrim] at this
      exact this

theorem asciiLib_sprintf_comment (l : String) : asciiLib.Sprintf "// %s" [l] = "// " ++ l := by
  apply String.ext
  simp [asciiLib, sprintfChars, String.data_append]

theorem ascii_toLower_space_aux : ∀ n : Nat, n < 128 →
    IsSpace (Char.ofNat n) = false → IsSpace (Char.ofNat n).toLower = false := by
  decide

/-- Lower-casing by the ASCII table gives no white space. -/
theorem ascii_toLower_not_space (r : Char) (h : IsSpace r = false) : IsSpace r.toLower = false := by
  by_cases hr : r.toNat < 128
  · have := ascii_toLower_space_aux r.toNat hr
    rw [Char.ofNat_toNat] at this
    exact this h
  · have : r.toLower = r := by
      unfold Char.toLower
      simp only
      rw [if_neg (by omega)]
    rw [this]
    exact h

/-- C24, witness: the comment `Does stuff.` with a second line on `MyMethod`, and the text
`abc`, `def` of `TestComment`. -/
theorem methodDoc_text_witness :
    docGenerator.methodDoc asciiLib stubCollab myMethod =
      some { docGenerator with sb := "// MyMethod does stuff.\n// It also does other stuffs.\n" } ∧
    ({} : generator).comment asciiLib stubCollab "abc\ndef\n" = some { sb := "// abc\n// def\n" } :=
  ⟨(methodDoc_text asciiLib stubCollab docGenerator myMethod (by decide)
      asciiLib_sprintf_comment rfl).2.2.2 _ rfl (by decide) ascii_toLower_not_space (by decide)
      (by decide) rfl,
   (methodDoc_text asciiLib stubCollab {} myMethod
      (by decide) asciiLib_sprintf_comment rfl).2.1 "abc\ndef\n" (by decide) rfl⟩

/-! ## `generator.init` -/

theorem lookup_mapSet {β : Type} (t : List (String × β)) (k : String) (x : β) (a : String) :
    (mapSet t k x).lookup a = if a = k then some x else t.lookup a := by
  induction t with
  | nil =>
    by_cases h : a = k
    · simp [mapSet, List.lookup, h]
    · have hb : (a == k) = false := by simpa using h
      simp [mapSet, List.lookup, h, hb]
  | cons p rest ih =>
    obtain ⟨k1, v1⟩ := p
    by_cases hk : k1 = k
    · subst hk
      by_cases h : a = k1
      · simp [mapSet, List.lookup, h]
      · have hb : (a == k1) = false := by simpa using h
        simp [mapSet, List.lookup, h, hb]
    · by_cases h1 : a = k1
      · subst h1
        simp [mapSet, List.lookup, hk]
      · simp only [mapSet, if_neg hk, List.lookup, ih]
        have : (a == k1) = false := by simpa using h1
        simp [this]

/-- The keys under which a run of `g.types[name(m)] = m` leaves an entry: the old keys and the
names of the messages. -/
theorem types_fold_isSome (name : DescriptorProto → String) (msgs : List DescriptorProto)
    (types : List (String × DescriptorProto)) (a : String) :
    ((msgs.foldl (fun ty m => mapSet ty (name m) m) types).lookup a).isSome ↔
      (types.lookup a).isSome ∨ ∃ m ∈ msgs, a = name m := by
  induction msgs generalizing types with
  | nil => simp
  | cons m rest ih =>
    simp only [List.foldl_cons]
    rw [ih, lookup_mapSet]
    constructor
    · rintro (h | ⟨m2, hm2, h⟩)
      · by_cases ha : a = name m
        · exact Or.inr ⟨m, by simp, ha⟩
        · rw [if_neg ha] at h
          exact Or.inl h
      · exact Or.inr ⟨m2, by simp [hm2], h⟩
    · rintro (h | ⟨m2, hm2, h⟩)
      · by_cases ha : a = name m
        · exact Or.inl (by simp [ha])
        · exact Or.inl (by rw [if_neg ha]; exact h)
      · rcases List.mem_cons.mp hm2 with e | e
        · subst e
          exact Or.inl (by simp [h])
        · exact Or.inr ⟨m2, e, h⟩

theorem initFile_types (L : GoLib) (g g1 : generator) (f : FileDescriptorProto)
    (h : initFile L g f = some g1) :
    g1.types = f.MessageType.foldl (fun ty m =>
      mapSet ty (L.Sprintf ".%s.%s" [GetPackage f, m.Name]) m) g.types := by
  unfold initFile at h
  simp only [Option.map_eq_some'] at h
  obtain ⟨c, -, hc⟩ := h
  rw [← hc]

theorem init_types_isSome (L : GoLib) (files : List FileDescriptorProto) (g g1 : generator)
    (h : files.foldlM (initFile L) g = some g1) (a : String) :
    (g1.types.lookup a).isSome ↔ (g.types.lookup a).isSome ∨
      ∃ f ∈ files, ∃ m ∈ f.MessageType, a = L.Sprintf ".%s.%s" [GetPackage f, m.Name] := by
  induction files generalizing g with
  | nil =>
    simp only [List.foldlM_nil, Option.pure_def, Option.some.injEq] at h
    subst h
    simp
  | cons f rest ih =>
    simp only [List.foldlM_cons, Option.bind_eq_bind, Option.bind_eq_some] at h
    obtain ⟨g2, h2, h3⟩ := h
    rw [ih g2 h3, initFile_types L g g2 f h2,
      types_fold_isSome (fun m => L.Sprintf ".%s.%s" [GetPackage f, m.Name])]
    constructor
    · rintro ((h | ⟨m, hm, h⟩) | ⟨f2, hf2, h⟩)
      · exact Or.inl h
      · exact Or.inr ⟨f, by simp, m, hm, h⟩
      · exact Or.inr ⟨f2, by simp [hf2], h⟩
    · rintro (h | ⟨f2, hf2, m, hm, h⟩)
      · exact Or.inl (Or.inl h)
      · rcases List.mem_cons.mp hf2 with e | e
        · subst e
          exact Or.inl (Or.inr ⟨m, hm, h⟩)
        · exact Or.inr ⟨f2, e, m, hm, h⟩

/-- C23: when `init` returns, the type index holds an entry exactly under the names
`"." + package + "." + name` of the messages declared at the top level of the files: no other
declaration is entered, and a message `M` of a file without a package is entered under `..M`
and cannot be looked up as `.M`, the name under which protoc refers to it. -/
theorem init_indexes_top_level_messages (L : GoLib)
    (hfmt : ∀ a b, L.Sprintf ".%s.%s" [a, b] = "." ++ a ++ "." ++ b)
    (g g1 : generator) (files : List FileDescriptorProto) (hinit : g.init L files = some g1) :
    (∀ name, (g1.types.lookup name).isSome ↔
      ∃ f ∈ files, ∃ m ∈ f.MessageType, name = "." ++ GetPackage f ++ "." ++ m.Name) ∧
    (∀ f ∈ files, GetPackage f = "" → ∀ m ∈ f.MessageType,
      (g1.types.lookup (".." ++ m.Name)).isSome) ∧
    (∀ M : String, (∀ f ∈ files, GetPackage f = "") →
      g1.types.lookup ("." ++ M) = none ∨ M.data.head? = some '.') := by
  have hiff : ∀ name, (g1.types.lookup name).isSome ↔
      ∃ f ∈ files, ∃ m ∈ f.MessageType, name = "." ++ GetPackage f ++ "." ++ m.Name := by
    intro name
    unfold generator.init at hinit
    rw [init_types_isSome L files _ g1 hinit name]
    simp [hfmt]
  refine ⟨hiff, ?_, ?_⟩
  · intro f hf hp m hm
    rw [hiff]
    exact ⟨f, hf, m, hm, by rw [hp]; rfl⟩
  · intro M hpkg
    by_cases hM : M.data.head? = some '.'
    · exact Or.inr hM
    · left
      cases hl : g1.types.lookup ("." ++ M) with
      | none => rfl
      | some d =>
        have hs : (g1.types.lookup ("." ++ M)).isSome := by rw [hl]; rfl
        obtain ⟨f, hf, m, hm, he⟩ := (hiff _).mp hs
        rw [hpkg f hf] at he
        have hd := congrArg String.data he
        simp only [String.data_append] at hd
        simp only [List.singleton_append, List.append_nil, List.cons.injEq, true_and,
          List.cons_append, List.nil_append] at hd
        rw [hd] at hM
        simp at hM

/-- C23, witness: the message `Thing` of a file without a package is entered under `..Thing`
and not under `.Thing`. -/
theorem init_indexes_top_level_messages_witness :
    ((({} : generator).init asciiLib [{ MessageType := [{ Name := "Thing" }] }]).map
      fun g1 => (g1.types.lookup "..Thing", g1.types.lookup ".Thing")) =
      some (some { Name := "Thing" }, none) ∧
    ∀ g1, ({} : generator).init asciiLib [{ MessageType := [{ Name := "Thing" }] }] = some g1 →
      (g1.types.lookup (".." ++ "Thing")).isSome :=
  ⟨rfl, fun g1 h => (init_indexes_top_level_messages asciiLib
    (fun a b => String.ext (by simp [asciiLib, sprintfChars, String.data_append]))
    {} g1 [{ MessageType := [{ Name := "Thing" }] }] h).2.1
    { MessageType := [{ Name := "Thing" }] } (by simp) rfl { Name := "Thing" } (by simp)⟩

theorem foldlM_none_of_step {α β : Type} (f : β → α → Option β) (l : List α) (a : α)
    (ha : a ∈ l) (hf : ∀ b, f b a = none) (b : β) : l.foldlM f b = none := by
  induction l generalizing b with
  | nil => simp at ha
  | cons x xs ih =>
    simp only [List.foldlM_cons, Option.bind_eq_bind]
    rcases List.mem_cons.mp ha with e | e
    · subst e
      rw [hf b]
      rfl
    · cases f b x with
      | none => rfl
      | some b1 => exact ih e b1

theorem foldlM_isSome_of_step {α β : Type} (f : β → α → Option β) (l : List α)
    (hf : ∀ a ∈ l, ∀ b, ∃ b1, f b a = some b1) (b : β) : ∃ b1, l.foldlM f b = some b1 := by
  induction l generalizing b with
  | nil => exact ⟨b, rfl⟩
  | cons x xs ih =>
    obtain ⟨b1, h1⟩ := hf x (by simp) b
    obtain ⟨b2, h2⟩ := ih (fun a ha => hf a (by simp [ha])) b1
    exact ⟨b2, by simp only [List.foldlM_cons, Option.bind_eq_bind, h1, Option.some_bind, h2]⟩

/-- The body of the loop over the locations does not return on the location of a service or
of a method that has no leading comment. -/
theorem initComment_none (f : FileDescriptorProto) (loc : Location)
    (hc : loc.LeadingComments = none)
    (hp : (∃ x, loc.Path = [6, x]) ∨ ∃ x y, loc.Path = [6, x, 2, y])
    (comments : List (ProtoMessage × String)) : initComment f comments loc = none := by
  unfold initComment
  rcases hp with ⟨x, hx⟩ | ⟨x, y, hx⟩
  · rw [hx, hc]
    simp only [if_true]
    cases indexInt f.Service x <;> rfl
  · rw [hx, hc]
    simp only [and_self, if_true]
    cases (indexInt f.Service x).bind (fun s => indexInt s.Method y) <;> rfl

/-- The body of the loop over the locations returns on a location whose path, when it has the
form of a service or of a method, leads to one and which then has a leading comment. -/
theorem initComment_isSome (f : FileDescriptorProto) (loc : Location)
    (hs : ∀ x, loc.Path = [6, x] →
      (indexInt f.Service x).isSome ∧ loc.LeadingComments.isSome)
    (hm : ∀ x y, loc.Path = [6, x, 2, y] →
      ((indexInt f.Service x).bind fun s => indexInt s.Method y).isSome ∧
        loc.LeadingComments.isSome)
    (comments : List (ProtoMessage × String)) : ∃ c, initComment f comments loc = some c := by
  unfold initComment
  split
  · rename_i p0 p1 hpath
    split
    · rename_i h6
      subst h6
      obtain ⟨h1, h2⟩ := hs p1 hpath
      obtain ⟨s, hs1⟩ := Option.isSome_iff_exists.mp h1
      obtain ⟨c, hc1⟩ := Option.isSome_iff_exists.mp h2
      rw [hs1, hc1]
      exact ⟨_, rfl⟩
    · exact ⟨_, rfl⟩
  · rename_i p0 p1 p2 p3 hpath
    split
    · rename_i h6
      obtain ⟨h6a, h6b⟩ := h6
      subst h6a
      subst h6b
      obtain ⟨h1, h2⟩ := hm p1 p3 hpath
      obtain ⟨s, hs1⟩ := Option.isSome_iff_exists.mp h1
      obtain ⟨c, hc1⟩ := Option.isSome_iff_exists.mp h2
      rw [hs1, hc1]
      exact ⟨_, rfl⟩
    · exact ⟨_, rfl⟩
  · exact ⟨_, rfl⟩

/-- C27: `init` does not return when a file has a location with a path of the form `[6, x]`
or `[6, x, 2, y]` and no leading comment, whatever the path indexes; it returns when every
location of one of these forms indexes an existing service or method and carries a leading
comment. -/
theorem init_fails_without_leading_comment (L : GoLib) (g : generator)
    (files : List FileDescriptorProto) :
    ((∃ f ∈ files, ∃ loc ∈ GetLocation f, loc.LeadingComments = none ∧
        ((∃ x, loc.Path = [6, x]) ∨ ∃ x y, loc.Path = [6, x, 2, y])) →
      g.init L files = none) ∧
    ((∀ f ∈ files, ∀ loc ∈ GetLocation f,
        (∀ x, loc.Path = [6, x] →
          (indexInt f.Service x).isSome ∧ loc.LeadingComments.isSome) ∧
        (∀ x y, loc.Path = [6, x, 2, y] →
          ((indexInt f.Service x).bind fun s => indexInt s.Method y).isSome ∧
            loc.LeadingComments.isSome)) →
      ∃ g1, g.init L files = some g1) := by
  constructor
  · rintro ⟨f, hf, loc, hloc, hc, hp⟩
    unfold generator.init
    apply foldlM_none_of_step (initFile L) files f hf
    intro b
    unfold initFile
    simp only
    rw [foldlM_none_of_step (initComment f) (GetLocation f) loc hloc
      (initComment_none f loc hc hp)]
    rfl
  · intro hwf
    unfold generator.init
    apply foldlM_isSome_of_step (initFile L) files
    intro f hf b
    unfold initFile
    simp only
    obtain ⟨c, hc⟩ := foldlM_isSome_of_step (initComment f) (GetLocation f)
      (fun loc hloc comments =>
        initComment_isSome f loc (hwf f hf loc hloc).1 (hwf f hf loc hloc).2 comments) b.comments
    rw [hc]
    exact ⟨_, rfl⟩

/-- C27, witness: a file with the service `Foo`, whose location carries no leading comment;
and the same file with a comment at this location, on which `init` returns. -/
theorem init_fails_without_leading_comment_witness :
    ({} : generator).init asciiLib
      [{ Service := [{ Name := "Foo" }],
         SourceCodeInfo := some { Location := [{ Path := [6, 0] }] } }] = none ∧
    ∃ g1, ({} : generator).init asciiLib
      [{ Service := [{ Name := "Foo" }],
         SourceCodeInfo := some { Location := [{ Path := [6, 0], LeadingComments := some "Foo." }] } }]
      = some g1 :=
  ⟨(init_fails_without_leading_comment asciiLib {}
    [{ Service := [{ Name := "Foo" }],
       SourceCodeInfo := some { Location := [{ Path := [6, 0] }] } }]).1
    ⟨_, List.mem_singleton.mpr rfl, { Path := [6, 0] }, List.mem_singleton.mpr rfl, rfl,
      Or.inl ⟨0, rfl⟩⟩,
   (init_fails_without_leading_comment asciiLib {}
    [{ Service := [{ Name := "Foo" }],
       SourceCodeInfo := some { Location := [{ Path := [6, 0], LeadingComments := some "Foo." }] } }]).2
    (by simp [GetLocation, indexInt])⟩

namespace GenGoSample

/-! ## `initTree.print`: the text of a composite node -/

theorem indent_append (w x : String) (j : Nat) : indent (w ++ x) j = w ++ indent x j := by
  apply String.ext
  simp [indent, String.data_append]

theorem push_append (w x : String) (c : Char) : (w ++ x).push c = w ++ x.push c := by
  apply String.ext
  simp [String.data_append, String.data_push]

/-- When the printer of the children only appends to the text, so does the loop over the
fields. -/
theorem printFields_append (L : GoLib)
    (pc : Nat → String → generator → Nat → Option (String × generator × Option error))
    (hpc : ∀ c w x g j, pc c (w ++ x) g j = (pc c x g j).map fun r => (w ++ r.1, r.2))
    (vals : List Nat) (impSpec : importSpec) (name : String) (oneofs : List (String × String))
    (ind : Nat) (ks : List String) (i : Nat) (w x : String) (g : generator) :
    printFields L pc vals impSpec name oneofs ind ks i (w ++ x) g =
      (printFields L pc vals impSpec name oneofs ind ks i x g).map fun r => (w ++ r.1, r.2) := by
  induction ks generalizing i x g with
  | nil => rfl
  | cons k ks ih =>
    unfold printFields
    simp only
    cases hv : vals[i]? with
    | none => rfl
    | some child =>
      cases ho : oneofs.lookup k with
      | none =>
        simp only [indent_append, String.append_assoc, hpc]
        cases pc child _ g (ind + 1) with
        | none => rfl
        | some r =>
          obtain ⟨v, g1, e⟩ := r
          cases e with
          | some err => rfl
          | none =>
            simp only [Option.map_some', Option.isSome_none, Bool.false_eq_true, if_false,
              String.append_assoc]
            exact ih _ _ _
      | some oneof =>
        simp only [indent_append, String.append_assoc, hpc]
        cases pc child _ g (ind + 1) with
        | none => rfl
        | some r =>
          obtain ⟨v, g1, e⟩ := r
          cases e with
          | some err => rfl
          | none =>
            simp only [Option.map_some', Option.isSome_some, if_true,
              String.append_assoc, indent_append, push_append]
            exact ih _ _ _

/-- The printer only appends to the text. -/
theorem print_append (L : GoLib) (h : Heap) (fuel t : Nat) (w x : String) (g : generator)
    (ind : Nat) :
    initTree.print L h fuel t (w ++ x) g ind =
      (initTree.print L h fuel t x g ind).map fun r => (w ++ r.1, r.2) := by
  induction fuel generalizing t w x g ind with
  | zero => rfl
  | succ n ih =>
    unfold initTree.print
    cases hn : h[t]? with
    | none => rfl
    | some node =>
      simp only
      split
      · split
        · split
          · rfl
          · simp only [Option.map_some', String.append_assoc]
        · simp only [Option.map_some', String.append_assoc]
      · split
        · rfl
        · split
          · rename_i oneofs desc ho hd
            simp only [String.append_assoc]
            rw [printFields_append L (initTree.print L h n) (fun c w x g j => ih c w x g j)]
            cases printFields L (initTree.print L h n) node.vals _ desc.GetName oneofs ind
                node.keys 0 _ _ with
            | none => rfl
            | some r =>
              obtain ⟨v, g1, e⟩ := r
              cases e with
              | some err => rfl
              | none => simp only [Option.map_some', indent_append, push_append]
          · rfl

theorem getElem?_of_drop {vals cs : List Nat} {c i : Nat} (h : vals.drop i = c :: cs) :
    vals[i]? = some c ∧ vals.drop (i + 1) = cs := by
  constructor
  · have := congrArg (fun l => l[0]?) h
    simpa using this
  · have := congrArg List.tail h
    simpa using this

/-- The loop over the fields writes the texts of the fields one after the other, when the
children print one after the other. -/
theorem printFields_text (L : GoLib)
    (hfmt : ∀ a b c d, L.Sprintf "%s: &%s.%s_%s\x7b\n" [a, b, c, d] =
      a ++ ": &" ++ b ++ "." ++ c ++ "_" ++ d ++ "\x7b\n")
    (pc : Nat → String → generator → Nat → Option (String × generator × Option error))
    (hpc : ∀ c w x g j, pc c (w ++ x) g j = (pc c x g j).map fun r => (w ++ r.1, r.2))
    (vals : List Nat) (impSpec : importSpec) (msg : DescriptorProto)
    (oneofs : List (String × String)) (hone : ∀ k, oneofs.lookup k = groupOf msg k) (ind : Nat)
    (ks : List String) (i : Nat) (cs : List Nat) (w : String) (g g1 : generator)
    (values : List String) (hcs : vals.drop i = cs) (hl : ks.length = cs.length)
    (hch : printChildren pc (ind + 1) cs g = some (values, g1)) :
    printFields L pc vals impSpec msg.Name oneofs ind ks i w g =
      some (w ++ fieldsText L impSpec.name msg ind ks values, g1, none) := by
  induction ks generalizing i cs w g values with
  | nil =>
    cases cs with
    | cons c cs => simp at hl
    | nil =>
      simp only [printChildren, Option.some.injEq, Prod.mk.injEq] at hch
      obtain ⟨rfl, rfl⟩ := hch
      simp only [printFields, fieldsText, String.append_empty]
  | cons k ks ih =>
    cases cs with
    | nil => simp at hl
    | cons c cs =>
      obtain ⟨hv, hdrop⟩ := getElem?_of_drop hcs
      unfold printChildren at hch
      cases hc : pc c "" g (ind + 1) with
      | none => simp [hc] at hch
      | some r =>
        obtain ⟨v, g2, e⟩ := r
        cases e with
        | some err => simp [hc] at hch
        | none =>
          simp only [hc, Option.map_eq_some'] at hch
          obtain ⟨⟨vs, g3⟩, hrest, heq⟩ := hch
          simp only [Prod.mk.injEq] at heq
          obtain ⟨rfl, rfl⟩ := heq
          have hpc0 : ∀ w0, pc c w0 g (ind + 1) = some (w0 ++ v, g2, none) := by
            intro w0
            have := hpc c w0 "" g (ind + 1)
            rw [String.append_empty, hc] at this
            exact this
          have hih := fun w0 => ih (i + 1) cs w0 g2 vs hdrop (by simpa using hl) hrest
          unfold printFields
          simp only [hv, hpc0, hone k]
          rw [hih]
          simp only [fieldsText, fieldText]
          cases groupOf msg k with
          | none =>
            simp only [Option.isSome_none, Bool.false_eq_true, if_false, Option.some.injEq,
              Prod.mk.injEq, and_true]
            apply String.ext
            simp [indent, String.data_append]
          | some grp =>
            simp only [Option.isSome_some, if_true, Option.some.injEq, Prod.mk.injEq, and_true,
              hfmt]
            apply String.ext
            simp [indent, String.data_append, String.data_push]

theorem mapSet_lookup_other {β : Type} (t : List (String × β)) (k a : String) (x : β)
    (h : a ≠ k) : (mapSet t k x).lookup a = t.lookup a := by
  rw [lookup_mapSet, if_neg h]

/-- The map `oneofs` of `print` gives every field name the one-of group of the field, when
the field names of the message are pairwise distinct and the one-of indices are in range. -/
theorem oneofs_fold (decl : List String) (fs : List FieldDescriptorProto)
    (acc : List (String × String)) (hnd : (fs.map (·.Name)).Nodup)
    (hidx : ∀ f ∈ fs, ∀ i ∈ f.OneofIndex, i < decl.length) :
    ∃ oneofs, fs.foldlM (fun oneofs f =>
        match f.OneofIndex with
        | none => some oneofs
        | some i => (decl[i]?).map fun name => mapSet oneofs f.Name name) acc = some oneofs ∧
      ∀ k, oneofs.lookup k =
        match fs.find? (fun f => f.Name == k) with
        | none => acc.lookup k
        | some f =>
          match f.OneofIndex with
          | none => acc.lookup k
          | some i => decl[i]? := by
  induction fs generalizing acc with
  | nil => exact ⟨acc, rfl, fun k => rfl⟩
  | cons f rest ih =>
    simp only [List.map_cons, List.nodup_cons] at hnd
    obtain ⟨hf, hnd2⟩ := hnd
    have hidx2 : ∀ f ∈ rest, ∀ i ∈ f.OneofIndex, i < decl.length :=
      fun f1 h1 => hidx f1 (by simp [h1])
    have hfind : ∀ k, f.Name = k → rest.find? (fun f => f.Name == k) = none := by
      intro k hk
      rw [List.find?_eq_none]
      intro f1 h1
      simp only [beq_iff_eq]
      intro he
      exact hf (by rw [hk, ← he]; exact List.mem_map_of_mem _ h1)
    cases hi : f.OneofIndex with
    | none =>
      obtain ⟨oneofs, h1, h2⟩ := ih acc hnd2 hidx2
      refine ⟨oneofs, by simp only [List.foldlM_cons, hi, Option.bind_eq_bind, Option.some_bind,
        h1], ?_⟩
      intro k
      rw [h2 k]
      by_cases hk : f.Name = k
      · simp [List.find?_cons, hk, hfind k hk, hi]
      · have hb : (f.Name == k) = false := by simpa using hk
        simp [List.find?_cons, hb]
    | some i =>
      have hlt : i < decl.length := hidx f (by simp) i (by simp [hi])
      have hd : decl[i]? = some decl[i] := List.getElem?_eq_getElem hlt
      obtain ⟨oneofs, h1, h2⟩ := ih (mapSet acc f.Name decl[i]) hnd2 hidx2
      refine ⟨oneofs, by simp only [List.foldlM_cons, hi, hd, Option.map_some',
        Option.bind_eq_bind, Option.some_bind, h1], ?_⟩
      intro k
      rw [h2 k]
      by_cases hk : f.Name = k
      · simp [List.find?_cons, hk, hfind k hk, hi, hd, lookup_mapSet]
      · have hb : (f.Name == k) = false := by simpa using hk
        have hne : k ≠ f.Name := fun e => hk e.symm
        simp only [List.find?_cons, hb, mapSet_lookup_other _ _ _ _ hne]

theorem oneofsOf_lookup (msg : DescriptorProto) (hnd : (msg.Field.map (·.Name)).Nodup)
    (hidx : ∀ f ∈ msg.Field, ∀ i ∈ f.OneofIndex, i < msg.OneofDecl.length) :
    ∃ oneofs, oneofsOf msg = some oneofs ∧ ∀ k, oneofs.lookup k = groupOf msg k := by
  obtain ⟨oneofs, h1, h2⟩ := oneofs_fold msg.OneofDecl msg.Field [] hnd hidx
  refine ⟨oneofs, h1, ?_⟩
  intro k
  rw [h2 k]
  unfold groupOf
  cases msg.Field.find? (fun f => f.Name == k) with
  | none => rfl
  | some f => cases hoi : f.OneofIndex <;> simp [hoi, List.lookup]

/-- C22: for a composite node of the message type `M`, imported as `pkg`, whose children
print one after the other, `print` returns, and it writes `&pkg.M`, an opening brace, for
every recorded field in the order of insertion the text of the field, and the closing brace.
The text of a field is `F: value,` with the CapCamel form `F` of the field name and the text
`value` of its child; for a field in the one-of group `g` this text stands inside
`G: &pkg.M_F` and braces closed by `},`, and for a field in no group it stands alone.  The
field names of the message are pairwise distinct and its one-of indices are in range. -/
theorem print_composite (L : GoLib) (h : Heap) (fuel t : Nat) (w : String) (g g1 : generator)
    (ind : Nat) (node : initTree) (msg : DescriptorProto) (spec : importSpec)
    (values : List String)
    (hfmt1 : ∀ x y, L.Sprintf "&%s.%s\x7b\n" [x, y] = "&" ++ x ++ "." ++ y ++ "\x7b\n")
    (hfmt2 : ∀ a b c d, L.Sprintf "%s: &%s.%s_%s\x7b\n" [a, b, c, d] =
      a ++ ": &" ++ b ++ "." ++ c ++ "_" ++ d ++ "\x7b\n")
    (hn : h[t]? = some node) (hleaf : node.leafVal = "")
    (hdesc : node.typ.desc = some (.message msg))
    (hlen : node.keys.length = node.vals.length)
    (hnames : (msg.Field.map (·.Name)).Nodup)
    (hidx : ∀ f ∈ msg.Field, ∀ i ∈ f.OneofIndex, i < msg.OneofDecl.length)
    (hspec : g.descInfo.ImportSpec (some (.message msg)) = .ok spec)
    (hch : printChildren (initTree.print L h fuel) (ind + 1) node.vals
      { g with imports := addImport g.imports spec } = some (values, g1)) :
    initTree.print L h (fuel + 1) t w g ind =
      some (w ++ compositeText L spec.name msg ind node.keys values, g1, none) ∧
    (∀ k v, groupOf msg k = none →
      fieldText L spec.name msg ind k v =
        ⟨List.replicate (ind + 1) '\t'⟩ ++ snakeToCapCamel L k ++ ": " ++ v ++ ",\n") := by
  refine ⟨?_, fun k v hk => by simp only [fieldText, hk]⟩
  obtain ⟨oneofs, ho, hone⟩ := oneofsOf_lookup msg hnames hidx
  have hfields := fun w0 => printFields_text L hfmt2 (initTree.print L h fuel)
    (fun c w x g j => print_append L h fuel c w x g j) node.vals spec msg oneofs hone ind
    node.keys 0 node.vals w0 _ g1 values rfl hlen hch
  unfold initTree.print
  simp only [hn, hleaf, ne_eq, not_true_eq_false, if_false, hdesc, hspec, ho,
    ProtoType.GetName, hfields, hfmt1, compositeText, Option.some.injEq, Prod.mk.injEq, and_true]
  apply String.ext
  simp [indent, String.data_append, String.data_push]

theorem asciiLib_sprintf_oneof (a b c d : String) :
    asciiLib.Sprintf "%s: &%s.%s_%s\x7b\n" [a, b, c, d] =
      a ++ ": &" ++ b ++ "." ++ c ++ "_" ++ d ++ "\x7b\n" := by
  apply String.ext
  simp [asciiLib, sprintfChars, String.data_append]

/-- C22, witness: the root `R` whose field `a` is in the one-of group `choice`, and its child
`A` with the plain field `b`. -/
theorem print_composite_witness :
    initTree.print asciiLib oneofTree 4 0 "" { descInfo := stubInfo } 0 =
      some ("&pkg.R\x7b\n\tChoice: &pkg.R_A\x7b\n\t\tA: &pkg.A\x7b\n\t\tB: 5,\n\t\x7d,\n\t\x7d,\n\x7d",
        { descInfo := stubInfo, imports := [{ path := "example.com/pkg", name := "pkg" }] },
        none) ∧
    initTree.print asciiLib oneofTree 3 1 "" { descInfo := stubInfo } 1 =
      some ("&pkg.A\x7b\n\t\tB: 5,\n\t\x7d",
        { descInfo := stubInfo, imports := [{ path := "example.com/pkg", name := "pkg" }] },
        none) :=
  ⟨(print_composite asciiLib oneofTree 3 0 "" { descInfo := stubInfo } _ 0 _ msgROneof
      { path := "example.com/pkg", name := "pkg" } ["&pkg.A\x7b\n\t\tB: 5,\n\t\x7d"]
      asciiLib_sprintf_ref asciiLib_sprintf_oneof rfl rfl rfl rfl (by decide) (by decide) rfl
      rfl).1,
   (print_composite asciiLib oneofTree 2 1 "" { descInfo := stubInfo } _ 1 _ msgA
      { path := "example.com/pkg", name := "pkg" } ["5"]
      asciiLib_sprintf_ref asciiLib_sprintf_oneof rfl rfl rfl rfl (by decide) (by decide) rfl
      rfl).1⟩

end GenGoSample

namespace GenGoSample

/-! ## `parseSampleArgPath` -/

/-- One iteration of the loop of `parsePath` on a dot and an identifier. -/
theorem parsePathLoop_step (info : Info) (n : Nat) (h : Heap) (t : Nat) (sc : Scanner)
    (k : String) (rest : List ScannedToken)
    (htoks : sc.toks = dotToken :: { tok := .Ident, text := k } :: rest) :
    parsePathLoop info (n + 1) h t sc =
      match initTree.get h t k info with
      | none => none
      | some (h1, .error err) => some (h1, { sc with toks := rest, text := k }, .error err)
      | some (h1, .ok t2) => parsePathLoop info n h1 t2 { sc with toks := rest, text := k } := by
  conv_lhs => unfold parsePathLoop
  have hs1 := scan_cons_clean sc _ _ htoks rfl
  have hs2 := scan_cons_clean
    { sc with toks := { tok := .Ident, text := k } :: rest, text := dotToken.text }
    { tok := .Ident, text := k } rest rfl rfl
  simp only [hs1, dotToken, if_true] at hs2 ⊢
  simp only [hs2, ne_eq, not_true_eq_false, if_false]

/-- The loop of `parsePath` at the end of the text. -/
theorem parsePathLoop_eof (info : Info) (n : Nat) (h : Heap) (t : Nat) (sc : Scanner)
    (htoks : sc.toks = []) :
    parsePathLoop info (n + 1) h t sc =
      some (h, { sc with toks := [], text := "" }, .ok (t, .EOF)) := by
  unfold parsePathLoop
  have hs : sc.Scan = (.EOF, { sc with toks := [], text := "" }) := by
    obtain ⟨src, toks, text, err⟩ := sc
    simp only at htoks
    subst htoks
    rfl
  simp only [hs, reduceCtorEq, if_false]

/-- A node without entries has the type that the schema gives to the path. -/
theorem pathType_fresh (info : Info) (h : Heap) (q : Nat) (node : initTree)
    (hn : h[q]? = some node) (hk : node.keys = []) (ks : List String) :
    pathType info h q ks = schemaType info node.typ ks := by
  cases ks with
  | nil => simp [pathType, schemaType, hn]
  | cons k ks => simp [pathType, schemaType, hn, hk, List.indexOf?]

/-- On a node without a child under `k` whose type has the field `k`, `get` makes the
child. -/
theorem get_fresh (info : Info) (h : Heap) (t : Nat) (k : String) (node : initTree)
    (ty : initType) (hn : h[t]? = some node) (hi : node.keys.indexOf? k = none)
    (hf : fieldType info node.typ.desc k = some ty) :
    initTree.get h t k info =
      some ((h.set t { node with keys := node.keys ++ [k], vals := node.vals ++ [h.length] })
        ++ [{ typ := ty }], .ok h.length) := by
  unfold fieldType at hf
  unfold initTree.get
  simp only [hn, hi]
  cases hd : node.typ.desc with
  | none => simp [hd] at hf
  | some d =>
    cases d with
    | enum en => simp [hd] at hf
    | message msg =>
      simp only [hd] at hf ⊢
      cases hfind : msg.Field.find? (fun f => f.Name == k) with
      | none => simp [hfind] at hf
      | some f =>
        simp only [hfind] at hf ⊢
        by_cases htn : f.TypeName = ""
        · simp only [htn, if_true] at hf ⊢
          by_cases hty : GetType f = 0
          · simp [hty] at hf
          · simp only [hty, if_false, Option.some.injEq] at hf ⊢
            subst hf
            rfl
        · simp only [htn, if_false] at hf ⊢
          cases hl : info.Type_.lookup f.TypeName with
          | none => simp [hl] at hf
          | some typ =>
            simp only [hl, Option.map_some', Option.some.injEq] at hf
            subst hf
            rfl

/-- A call of `get` that returns a child changes no node but the one it is called on. -/
theorem get_frame (info : Info) (h h1 : Heap) (t c : Nat) (k : String)
    (hget : initTree.get h t k info = some (h1, .ok c)) (u : Nat) (n : initTree)
    (hu : h[u]? = some n) (hne : u ≠ t) : h1[u]? = some n := by
  unfold initTree.get at hget
  cases hn : h[t]? with
  | none => simp only [hn] at hget; cases hget
  | some node =>
    have ht := lt_length_of_getElem? hn
    have hul := lt_length_of_getElem? hu
    simp only [hn] at hget
    split at hget
    · cases hc : node.vals[‹Nat›]? with
      | none => simp [hc] at hget
      | some child =>
        simp only [hc, Option.map_some', Option.some.injEq, Prod.mk.injEq] at hget
        rw [← hget.1]
        exact hu
    · split at hget
      · split at hget
        · cases hget
        · split at hget
          · split at hget
            · cases hget
            · simp only [Option.some.injEq, Prod.mk.injEq] at hget
              rw [← hget.1, getElem?_alloc h t _ _ ht, if_neg hne, if_neg (by omega)]
              exact hu
          · split at hget
            · cases hget
            · simp only [Option.some.injEq, Prod.mk.injEq] at hget
              rw [← hget.1, getElem?_alloc h t _ _ ht, if_neg hne, if_neg (by omega)]
              exact hu
      · cases hget

/-- When the path resolves in the tree, `get` returns a child for its first name, and the
rest of the path resolves from the child to the same type. -/
theorem get_pathType (info : Info) (h : Heap) (t : Nat) (k : String) (ks : List String)
    (ty : initType) (hp : pathType info h t (k :: ks) = some ty) :
    ∃ h1 c, initTree.get h t k info = some (h1, .ok c) ∧ pathType info h1 c ks = some ty := by
  unfold pathType at hp
  cases hn : h[t]? with
  | none => simp only [hn] at hp; cases hp
  | some node =>
    have ht := lt_length_of_getElem? hn
    simp only [hn] at hp
    cases hi : node.keys.indexOf? k with
    | some i =>
      simp only [hi] at hp
      cases hc : node.vals[i]? with
      | none => simp only [hc] at hp; cases hp
      | some child =>
        simp only [hc] at hp
        refine ⟨h, child, ?_, hp⟩
        exact get_of_resolve h t child k info (by simp [resolve, hn, hi, hc])
    | none =>
      simp only [hi] at hp
      cases hf : fieldType info node.typ.desc k with
      | none => simp [hf] at hp
      | some ty2 =>
        simp only [hf, Option.some_bind] at hp
        refine ⟨_, h.length, get_fresh info h t k node ty2 hn hi hf, ?_⟩
        rw [pathType_fresh info _ h.length { typ := ty2 }
          (by rw [getElem?_alloc h t _ _ ht, if_neg (by omega), if_pos rfl]) rfl]
        exact hp

/-- When the path resolves in the tree, `parsePath` on its tokens returns the node that the
path leads to afterwards, of the type of the path; a node that the path led to before is
returned with the heap as it was; and every node that the path does not pass is as it
was. -/
theorem parsePathLoop_resolves (info : Info) (names : List String) (fuel : Nat) (h : Heap)
    (t : Nat) (sc : Scanner) (ty : initType) (hinv : treeInvariant h)
    (htoks : sc.toks = pathTokens names) (hfuel : names.length < fuel)
    (hty : pathType info h t names = some ty) :
    ∃ h1 p node,
      parsePathLoop info fuel h t sc =
        some (h1, { sc with toks := [], text := "" }, .ok (p, .EOF)) ∧
      treeInvariant h1 ∧ grows h h1 ∧ resolve h1 t names = some p ∧
      h1[p]? = some node ∧ node.typ = ty ∧
      (∀ p0, resolve h t names = some p0 → p0 = p ∧ h1 = h) ∧
      (∀ u n, h[u]? = some n → (∀ pre, pre <+: names → resolve h1 t pre ≠ some u) →
        h1[u]? = some n) := by
  induction names generalizing fuel h t sc with
  | nil =>
    cases fuel with
    | zero => omega
    | succ n =>
      simp only [pathType, Option.map_eq_some'] at hty
      obtain ⟨node, hn, hnt⟩ := hty
      refine ⟨h, t, node, parsePathLoop_eof info n h t sc htoks, hinv, grows_refl _, rfl, hn, hnt,
        ?_, fun u n hu _ => hu⟩
      intro p0 hp0
      simp only [resolve, Option.some.injEq] at hp0
      exact ⟨hp0.symm, rfl⟩
  | cons k ks ih =>
    cases fuel with
    | zero => omega
    | succ n =>
      obtain ⟨h2, c, hget, hty2⟩ := get_pathType info h t k ks ty hty
      obtain ⟨hinv2, hg2, hr2⟩ := (get_props h h2 t k info _ hinv hget).2 c rfl
      have ht1 : sc.toks = dotToken :: { tok := .Ident, text := k } :: pathTokens ks := by
        simpa [pathTokens] using htoks
      obtain ⟨h1, p, node, hloop, hinv1, hg1, hr1, hn1, hnt, hcached, hframe⟩ :=
        ih n h2 c { sc with toks := pathTokens ks, text := k } hinv2 rfl
          (by simpa using hfuel) hty2
      have hrk : resolve h1 t [k] = some c := resolve_of_grows hg1 [k] t c hr2
      refine ⟨h1, p, node, ?_, hinv1, grows_trans hg2 hg1,
        resolve_cons_of h1 t c p k ks hrk hr1, hn1, hnt, ?_, ?_⟩
      · rw [parsePathLoop_step info n h t sc k (pathTokens ks) ht1, hget]
        exact hloop
      · intro p0 hp0
        obtain ⟨c0, hc1, hc2⟩ := resolve_cons_inv h t p0 k ks hp0
        have hget0 := get_of_resolve h t c0 k info hc1
        rw [hget] at hget0
        simp only [Option.some.injEq, Prod.mk.injEq, Except.ok.injEq] at hget0
        obtain ⟨rfl, rfl⟩ := hget0
        exact hcached p0 hc2
      · intro u nu hu hoff
        have hut : u ≠ t := by
          intro e
          exact hoff [] (List.nil_prefix) (by rw [e]; rfl)
        have hu2 := get_frame info h h2 t c k hget u nu hu hut
        apply hframe u nu hu2
        intro pre hpre hres
        exact hoff (k :: pre) (by simpa using hpre)
          (resolve_cons_of h1 t c u k pre hrk hres)

end GenGoSample
namespace GenGoSample

theorem treeInvariant_oneofTree : treeInvariant oneofTree := by
  intro t node hn
  unfold oneofTree at hn
  match t with
  | 0 =>
    simp only [List.getElem?_cons_zero, Option.some.injEq] at hn
    subst hn
    simp
  | 1 =>
    simp only [List.getElem?_cons_succ, List.getElem?_cons_zero, Option.some.injEq] at hn
    subst hn
    simp
  | 2 =>
    simp only [List.getElem?_cons_succ, List.getElem?_cons_zero, Option.some.injEq] at hn
    subst hn
    simp
  | n + 3 => simp at hn

/-- C21 (as amended): for a path that resolves in the tree, along the recorded children as
long as there is one and then along the schema from the type of the last node reached,
`parseSampleArgPath` returns without an error a copy of the node that the path leads to, of
the type of the path, and for a path that led to a node before the call the copy is that node
as it was; afterwards the node at the end of the path holds the variable name and nothing
else, neither children nor a type nor a value formatter, so that `print` writes a variable
name that is not empty as it is; and every node that the path does not pass is as it was. -/
theorem parseSampleArgPath_binds (E : Env) (info : Info) (h : Heap) (t : Nat) (txt : String)
    (names : List String) (v : String) (ty : initType) (hinv : treeInvariant h)
    (htok : E.tokenize ("." ++ txt) = pathTokens names)
    (hty : pathType info h t names = some ty) :
    ∃ h1 p cp,
      initTree.parseSampleArgPath E h t txt info v =
        some (h1.set p { leafVal := v }, some cp, none) ∧
      grows h h1 ∧ resolve h1 t names = some p ∧ h1[p]? = some cp ∧ cp.typ = ty ∧
      (∀ p0 node0, resolve h t names = some p0 → h[p0]? = some node0 →
        p0 = p ∧ h1 = h ∧ cp = node0) ∧
      (h1.set p { leafVal := v })[p]? = some { leafVal := v } ∧
      (∀ u n, h[u]? = some n → (∀ pre, pre <+: names → resolve h1 t pre ≠ some u) →
        (h1.set p { leafVal := v })[u]? = some n) ∧
      (v ≠ "" → ∀ (L : GoLib) (fuel : Nat) (w : String) (g : generator) (ind : Nat),
        initTree.print L (h1.set p { leafVal := v }) (fuel + 1) p w g ind =
          some (w ++ v, g, none)) := by
  have hlen : names.length < (initScanner E ("." ++ txt)).toks.length + 1 := by
    simp only [initScanner, htok, pathTokens_length]
    omega
  obtain ⟨h1, p, cp, hloop, -, hg, hr, hn, hnt, hcached, hframe⟩ :=
    parsePathLoop_resolves info names _ h t (initScanner E ("." ++ txt)) ty hinv htok hlen hty
  have hp := lt_length_of_getElem? hn
  have hleaf : (h1.set p ({ leafVal := v } : initTree))[p]? = some { leafVal := v } := by
    simp [hp]
  refine ⟨h1, p, cp, ?_, hg, hr, hn, hnt, ?_, hleaf, ?_, ?_⟩
  · unfold initTree.parseSampleArgPath initTree.parsePath
    simp only [hloop, hn]
    rfl
  · intro p0 node0 hp0 hn0
    obtain ⟨rfl, rfl⟩ := hcached p0 hp0
    rw [hn] at hn0
    exact ⟨rfl, rfl, Option.some.inj hn0⟩
  · intro u n hu hoff
    have hup : p ≠ u := fun e => hoff names (List.prefix_refl _) (by rw [← e]; exact hr)
    rw [List.getElem?_set_ne hup]
    exact hframe u n hu hoff
  · intro hv L fuel w g ind
    unfold initTree.print
    simp only [hleaf, ne_eq, hv, not_false_eq_true, if_true]

/-- C21, witness: on the tree after `a.b=5`, the path `a.b` is bound to `myVar`. -/
theorem parseSampleArgPath_binds_witness :
    ∃ h1 p cp,
      initTree.parseSampleArgPath stubEnv oneofTree 0 "a.b" stubInfo "myVar" =
        some (h1.set p { leafVal := "myVar" }, some cp, none) ∧
      resolve h1 0 ["a", "b"] = some p ∧ h1[p]? = some cp ∧
      (h1.set p { leafVal := "myVar" })[p]? = some { leafVal := "myVar" } :=
  let ⟨h1, p, cp, h2, _, h3, h4, _, _, h5, _, _⟩ :=
    parseSampleArgPath_binds stubEnv stubInfo oneofTree 0 "a.b" ["a", "b"] "myVar" { prim := 5 }
      treeInvariant_oneofTree rfl rfl
  ⟨h1, p, cp, h2, h3, h4, h5⟩

/-- C21, counterexample: the path `a.b` resolves against the schema of `R`, but on the tree
on which `a` has been bound to the variable `x`, `parseSampleArgPath` of `a.b` returns no node
and an error; and a node bound to the empty variable name is not printed. -/
theorem parseSampleArgPath_binds_counterexample :
    (schemaType stubInfo { desc := some (.message msgR) } ["a", "b"]).isSome = true ∧
    initTree.parseSampleArgPath stubEnv [{ typ := { desc := some (.message msgR) } }] 0 "a"
        stubInfo "x" =
      some (boundTree, some { typ := { desc := some (.message msgA) } }, none) ∧
    initTree.parseSampleArgPath stubEnv boundTree 0 "a.b" stubInfo "y" =
      some (boundTree, none,
        some (errors.E none "type does not have fields: %T" ["<nil>"])) ∧
    initTree.print asciiLib [{ leafVal := "" }] 2 0 "" { descInfo := stubInfo } 0 = none :=
  ⟨rfl, rfl, rfl, rfl⟩

end GenGoSample

end Gengapic
